import Mathlib

/-! Ranking and organization tally of `output/output.go`

A shallow embedding of the ranking engine (`TopBy`, `trim`, `clone`,
`MinFollowers`), of the organization aggregator (`TopOrgs`, `contains`,
`companyLogin`) and of the renderers (`PlainOutput`, `CsvOutput`, `YamlOutput`)
of `src/output/output.go`.

Conventions of the embedding

* A Go slice is the `List` of the elements it shows; a Go `string` is a
  `String` (a sequence of Unicode code points); a Go `int` is an `Int`.
  Counters that only grow by one per slice element are not reduced modulo
  `2^64`.
* The code writes to memory it did not allocate in two places: `sort.Slice` in
  `TopBy` permutes in place, and `append` in `TopOrgs` writes the inferred login
  into the spare capacity of the record's `Organizations`.  Both are modelled
  once more on slices with their backing arrays (`TopByM`, `TopOrgsM`).  The
  definitions on lists describe `TopOrgs` on the records as its loop reads
  them (`seenUsers`); `TopOrgsM_eq` relates the two, and the records read are
  the caller's unless a login appended in place lands in a cell that a later
  record shows (`ReadsAsGiven`).  The renderers are modelled on records by
  value.
* A run-time panic (slice bound out of range, index out of range) is `none`.
* The Go standard library is not part of the repository.  What the code uses
  of it and cannot be written down from the source alone (the order chosen by
  the unstable `sort.Slice` and `sort.Sort` among equal keys, the order in
  which `range` visits a map, the Unicode table behind `strings.ToLower`, the
  quoting of `strconv.QuoteToASCII`, the clock, the buffering of `csv.Writer`) is
  collected in `GoRuntime`, together with the documented contract of each
  routine.  Every theorem holds for every such runtime; `refRuntime` is one
  concrete runtime.
-/

namespace Output

/-- Modelled from the spec: the record type `github.User`, declared in package
`github` (not among the sources).  The fields are the ones `output.go` reads. -/
structure User where
  Name : String
  Login : String
  AvatarURL : String
  Company : String
  Organizations : List String
  CommitsCount : Int
  PublicContributionCount : Int
  ContributionCount : Int
  FollowerCount : Int
deriving DecidableEq, Repr, Inhabited

/-- `type Organization struct { Name string; MemberCount int }`. -/
structure Organization where
  Name : String
  MemberCount : Int
deriving DecidableEq, Repr, Inhabited

/-- `type ContributionsSelector func(github.User) int`. -/
abbrev ContributionsSelector := User → Int

/-- `type Filter func(github.User) bool`; the Go value `nil` is `none`. -/
abbrev Filter := Option (User → Bool)

/-- A `less` function describes an ordering `sort.Slice` can sort by when it is
a strict weak order: irreflexive, transitive, and such that `less a c` fails
whenever both `less a b` and `less b c` fail. -/
structure StrictWeak {α : Type} (less : α → α → Bool) : Prop where
  irrefl : ∀ a, less a a = false
  trans : ∀ a b c, less a b = true → less b c = true → less a c = true
  incomp : ∀ a b c, less a b = false → less b c = false → less a c = false

/-- An `error` value, identified by its message. -/
abbrev GoError := String

/-- Modelled from the spec: the destination sink, an `io.Writer` of the standard
library.  `calls` are the texts of the `Write` calls made so far, oldest first;
`answer` is the error (or none) the sink returns for a `Write` call, given the
earlier calls and the text. -/
structure Sink where
  calls : List String
  answer : List String → String → Option GoError

/-- The part of the Go standard library the code relies on.

* `sortSlice less l` is the content of a slice after `sort.Slice` /
  `sort.Sort` ran on a slice with content `l`.  The sort is not stable, so
  only its contract is known: the result is a rearrangement of `l`, and no
  later element is `less` than an earlier one.
* `mapRange n kvs` is the order in which the `n`-th `for k, v := range m` loop
  from now (counted from `0`) visits the entries of a map whose entries are
  `kvs`: some rearrangement of them, chosen anew for every loop.
* `toLowerRune` is `unicode.ToLower`; on ASCII it is the ASCII lower-casing, and
  the lowercase form of a code point is its own lowercase form.
* `growCap cap` is the capacity `append` allocates when a slice of capacity
  `cap` is full: more than `cap`.
* `quoteToASCII` is `strconv.QuoteToASCII`.
* `timeNowRFC3339` is `time.Now().Format(time.RFC3339)`.
* `csvWriteError w records record` is the error (or none) that `Write(record)`
  of a `csv.Writer` created over the sink `w` returns after the records
  `records` were written to it; writes are buffered, so this need not be an
  answer of the sink to this record. -/
structure GoRuntime where
  sortSlice : (α : Type) → (α → α → Bool) → List α → List α
  sortSlice_perm : ∀ (α : Type) (less : α → α → Bool) (l : List α),
    (sortSlice α less l).Perm l
  sortSlice_sorted : ∀ (α : Type) (less : α → α → Bool) (l : List α),
    StrictWeak less →
    (sortSlice α less l).Pairwise (fun a b => less b a = false)
  mapRange : Nat → List (String × Int) → List (String × Int)
  mapRange_perm : ∀ n kvs, (mapRange n kvs).Perm kvs
  toLowerRune : Char → Char
  toLowerRune_ascii : ∀ c : Char, c.val < 128 → toLowerRune c = c.toLower
  toLowerRune_idem : ∀ c : Char, toLowerRune (toLowerRune c) = toLowerRune c
  growCap : Nat → Nat
  growCap_gt : ∀ cap, cap < growCap cap
  quoteToASCII : String → String
  timeNowRFC3339 : String
  csvWriteError : Sink → List (List String) → List String → Option GoError

/-- The slice expression `s[:n]` for `n` an `int`: the first `n` elements, and
a panic when `n` is negative or exceeds the length.  (Go checks `n` against the
capacity; both call sites have `n ≤ len(s)` whenever `n ≥ 0`.) -/
def sliceTo {α : Type} (s : List α) (n : Int) : Option (List α) :=
  if 0 ≤ n ∧ n ≤ (s.length : Int) then some (s.take n.toNat) else none

/-- `func trim(users GithubUserList, numTop int) GithubUserList`. -/
def trim (users : List User) (numTop : Int) : Option (List User) :=
  let numTop := if numTop = 0 then 256 else numTop
  let numTop := if (users.length : Int) < numTop then (users.length : Int) else numTop
  sliceTo users numTop

/-- `func clone(users GithubUserList) GithubUserList`: a fresh slice of the same
length holding the same records. -/
def clone (users : List User) : List User :=
  (List.range users.length).map (fun i => users.getD i default)

/-- The loop `for _, u := range cloned { if userFilter(u) { filtered = append(filtered, u) } }`. -/
def filterLoop (userFilter : User → Bool) : List User → List User → List User
  | [], filtered => filtered
  | u :: rest, filtered =>
    if userFilter u then filterLoop userFilter rest (filtered ++ [u])
    else filterLoop userFilter rest filtered

/-- `func (users GithubUserList) TopBy(selector, userFilter, amount) GithubUserList`. -/
def TopBy (rt : GoRuntime) (users : List User) (selector : ContributionsSelector)
    (userFilter : Filter) (amount : Int) : Option (List User) :=
  let cloned := clone users
  let cloned :=
    match userFilter with
    | some f => filterLoop f cloned []
    | none => cloned
  let cloned := rt.sortSlice User (fun a b => decide (selector a > selector b)) cloned
  trim cloned amount

/-- `func (slice GithubUserList) MinFollowers() int`; `math.MaxInt32` is
`2147483647`. -/
def MinFollowers (slice : List User) : Int :=
  if slice.length = 0 then 0
  else slice.foldl
    (fun followers user => if user.FollowerCount < followers then user.FollowerCount else followers)
    2147483647

/-- `strings.Trim(s, cutset)`: `s` without the leading and the trailing code
points that occur in `cutset`. -/
def stringsTrim (s : String) (cutset : String) : String :=
  String.mk
    (((s.data.dropWhile (fun c => cutset.data.contains c)).reverse.dropWhile
      (fun c => cutset.data.contains c)).reverse)

/-- `strings.ToLower(s)`: `unicode.ToLower` applied to every code point. -/
def stringsToLower (rt : GoRuntime) (s : String) : String :=
  String.mk (s.data.map rt.toLowerRune)

/-- The character class `[a-zA-Z0-9]`, by code point: `a`-`z` is 97-122, `A`-`Z` is
65-90, `0`-`9` is 48-57. -/
def isAlnum (c : Char) : Bool :=
  (decide (97 ≤ c.toNat) && decide (c.toNat ≤ 122))
    || (decide (65 ≤ c.toNat) && decide (c.toNat ≤ 90))
    || (decide (48 ≤ c.toNat) && decide (c.toNat ≤ 57))

/-- `companyLogin.FindStringSubmatch(s)` for
`companyLogin = regexp.MustCompile("^\\@([a-zA-Z0-9]+)$")`: the empty slice
(`nil`) when `s` does not match, and otherwise the whole match followed by the
text of the one capture group. -/
def companyLoginFindStringSubmatch (s : String) : List String :=
  match s.data with
  | c :: h => if c = '@' ∧ h ≠ [] ∧ h.all isAlnum = true then [s, String.mk h] else []
  | [] => []

/-- `func contains(s []string, e string) bool`. -/
def contains : List String → String → Bool
  | [], _ => false
  | a :: rest, e => if a = e then true else contains rest e

/-- The value `m[k]` of a `map[string]int` held as a list of entries with
distinct keys: the zero value when `k` is absent. -/
def mapGet : List (String × Int) → String → Int
  | [], _ => 0
  | (k', v) :: rest, k => if k' = k then v else mapGet rest k

/-- The assignment `m[k] = v`. -/
def mapSet : List (String × Int) → String → Int → List (String × Int)
  | [], k, v => [(k, v)]
  | (k', v') :: rest, k, v =>
    if k' = k then (k, v) :: rest else (k', v') :: mapSet rest k v

/-- Lines 203-210 of `TopOrgs`: the affiliations of one user, namely the declared
organizations and, when the space-trimmed company matches `companyLogin`, the
captured login unless `contains` finds it among the declared ones.  The index
expression `[1]` panics on a slice shorter than two. -/
def userOrgsOf (user : User) : Option (List String) :=
  let userOrgs := user.Organizations
  let orgMatches := companyLoginFindStringSubmatch (stringsTrim user.Company " ")
  if orgMatches.length > 0 then
    match (companyLoginFindStringSubmatch (stringsTrim user.Company " "))[1]? with
    | none => none
    | some orgLogin =>
      if orgLogin.data.length > 0 ∧ contains userOrgs orgLogin = false then
        some (userOrgs ++ [orgLogin])
      else some userOrgs
  else some userOrgs

/-- Lines 212-215 of `TopOrgs`: `for _, o := range userOrgs { org := strings.ToLower(o); orgsMap[org] = orgsMap[org] + 1 }`. -/
def tallyLoop (rt : GoRuntime) : List String → List (String × Int) → List (String × Int)
  | [], orgsMap => orgsMap
  | o :: rest, orgsMap =>
    let org := stringsToLower rt o
    tallyLoop rt rest (mapSet orgsMap org (mapGet orgsMap org + 1))

/-- Lines 202-216 of `TopOrgs` on records by value: the loop over the users,
each record being the record as the loop reads it.  What the `append` of line
208 writes to memory, and what a record read later then shows, is in
`usersLoopM`; `usersLoopM_eq` relates the two loops. -/
def usersLoop (rt : GoRuntime) : List User → List (String × Int) → Option (List (String × Int))
  | [], orgsMap => some orgsMap
  | user :: rest, orgsMap =>
    match userOrgsOf user with
    | none => none
    | some userOrgs => usersLoop rt rest (tallyLoop rt userOrgs orgsMap)

/-- `func (slice GithubUserList) TopOrgs(count int) Organizations`, on records
by value (`TopOrgsM` is the function on memory). -/
def TopOrgs (rt : GoRuntime) (slice : List User) (count : Int) : Option (List Organization) :=
  match usersLoop rt slice [] with
  | none => none
  | some orgsMap =>
    let orgs := (rt.mapRange 0 orgsMap).map (fun kv => Organization.mk kv.1 kv.2)
    let orgs := rt.sortSlice Organization (fun a b => decide (a.MemberCount > b.MemberCount)) orgs
    if (orgs.length : Int) > count then sliceTo orgs count else some orgs

/-- One concrete runtime: insertion sort, maps visited in insertion order,
ASCII lower-casing, capacities that double, quoting by enclosing in double
quotes (what `strconv.QuoteToASCII` does to printable ASCII text without quotes
and backslashes), a fixed clock, and a `csv.Writer` whose `Write` never fails. -/
def refRuntime : GoRuntime where
  sortSlice := fun _ less l => l.insertionSort (fun a b => less b a = false)
  sortSlice_perm := fun _ less l => List.perm_insertionSort (fun a b => less b a = false) l
  sortSlice_sorted := by
    intro α less l h
    haveI : IsTotal α (fun a b => less b a = false) := ⟨fun a b => by
      cases hab : less a b
      · exact Or.inr rfl
      · left
        cases hba : less b a
        · rfl
        · have := h.trans a b a hab hba
          rw [h.irrefl a] at this
          exact absurd this (by decide)⟩
    haveI : IsTrans α (fun a b => less b a = false) := ⟨fun a b c hab hbc => h.incomp c b a hbc hab⟩
    exact List.sorted_insertionSort (fun a b => less b a = false) l
  mapRange := fun _ kvs => kvs
  mapRange_perm := fun _ kvs => List.Perm.refl kvs
  toLowerRune := Char.toLower
  toLowerRune_ascii := fun _ _ => rfl
  toLowerRune_idem := by
    intro c
    by_cases h : 65 ≤ c.toNat ∧ c.toNat ≤ 90
    · have hc : c = Char.ofNat c.toNat := (Char.ofNat_toNat c).symm
      generalize c.toNat = n at h hc
      subst hc
      obtain ⟨h1, h2⟩ := h
      interval_cases n <;> decide
    · have hl : c.toLower = c := by
        unfold Char.toLower
        simp only [ge_iff_le]
        rw [if_neg h]
      rw [hl, hl]
  growCap := fun cap => 2 * cap + 1
  growCap_gt := fun cap => by
    show cap < 2 * cap + 1
    omega
  quoteToASCII := fun s => "\"" ++ s ++ "\""
  timeNowRFC3339 := "2006-01-02T15:04:05Z"
  csvWriteError := fun _ _ _ => none

/-- A second concrete runtime: as `refRuntime`, but maps are visited in the
reverse of the insertion order. -/
def revRuntime : GoRuntime :=
  { refRuntime with
    mapRange := fun _ kvs => kvs.reverse
    mapRange_perm := fun _ kvs => List.reverse_perm kvs }

/-- The runtime as it is once `k` more `range` loops over maps have run: its next
such loop is the `k`-th from now. -/
def GoRuntime.afterRanges (rt : GoRuntime) (k : Nat) : GoRuntime :=
  { rt with
    mapRange := fun n kvs => rt.mapRange (n + k) kvs
    mapRange_perm := fun n kvs => rt.mapRange_perm (n + k) kvs }

/-- A third concrete runtime: as `refRuntime`, but every second `range` loop
over a map visits it in the reverse of the insertion order. -/
def altRuntime : GoRuntime :=
  { refRuntime with
    mapRange := fun n kvs => if n % 2 = 0 then kvs else kvs.reverse
    mapRange_perm := fun n kvs => by
      show (if n % 2 = 0 then kvs else kvs.reverse).Perm kvs
      split
      · exact List.Perm.refl kvs
      · exact List.reverse_perm kvs }

/-! ## Slices with backing arrays

`sort.Slice` in `TopBy` permutes in place.  To state what the call leaves
untouched, slices of records are modelled once more with their backing
arrays. -/

/-- A Go slice value: a window of `len` elements, with room for `cap`, that
starts at offset `off` of the backing array number `arr`. -/
structure Slice where
  arr : Nat
  off : Nat
  len : Nat
  cap : Nat
deriving DecidableEq, Repr

/-- The backing arrays allocated so far, in allocation order. -/
abbrev Heap := List (List User)

/-- The `nil` slice: no backing array, length and capacity `0`. -/
def nilSlice : Slice := ⟨0, 0, 0, 0⟩

/-- The elements a slice shows. -/
def readSlice (h : Heap) (s : Slice) : List User :=
  ((h.getD s.arr []).drop s.off).take s.len

/-- The element `s[i]`. -/
def readAt (h : Heap) (s : Slice) (i : Nat) : User :=
  (h.getD s.arr []).getD (s.off + i) default

/-- Overwrite the elements of array `arr` from position `pos` on with `xs`
(which must fit in the array). -/
def writeArr (h : Heap) (arr pos : Nat) (xs : List User) : Heap :=
  h.set arr ((h.getD arr []).take pos ++ xs ++ (h.getD arr []).drop (pos + xs.length))

/-- A slice lies within an allocated backing array. -/
def ValidSlice (h : Heap) (s : Slice) : Prop :=
  s.arr < h.length ∧ s.len ≤ s.cap ∧ s.off + s.cap ≤ (h.getD s.arr []).length

/-- `make(GithubUserList, n)`: a new zero-filled array of `n` records. -/
def makeSlice (h : Heap) (n : Nat) : Heap × Slice :=
  (h ++ [List.replicate n default], ⟨h.length, 0, n, n⟩)

/-- `copy(dst, src)`: the first `min(len(dst), len(src))` elements of `src` are
written to the start of `dst`. -/
def copySlice (h : Heap) (dst src : Slice) : Heap :=
  writeArr h dst.arr dst.off ((readSlice h src).take dst.len)

/-- `func clone(users GithubUserList) GithubUserList`, with its allocation. -/
def cloneM (h : Heap) (users : Slice) : Heap × Slice :=
  let r := makeSlice h users.len
  (copySlice r.1 r.2 users, r.2)

/-- `append(s, x)`: written in place when the capacity allows, and otherwise into a
newly allocated array of capacity `growCap`. -/
def appendM (rt : GoRuntime) (h : Heap) (s : Slice) (x : User) : Heap × Slice :=
  if s.len < s.cap then
    (writeArr h s.arr (s.off + s.len) [x], { s with len := s.len + 1 })
  else
    (h ++ [readSlice h s ++ [x] ++ List.replicate (rt.growCap s.cap - (s.len + 1)) default],
      ⟨h.length, 0, s.len + 1, rt.growCap s.cap⟩)

/-- The filter loop of `TopBy` on slices: `n` iterations remain, the next one
reads `cloned[i]`. -/
def filterLoopM (rt : GoRuntime) (userFilter : User → Bool) (cloned : Slice) :
    Nat → Nat → Heap → Slice → Heap × Slice
  | 0, _, h, filtered => (h, filtered)
  | n + 1, i, h, filtered =>
    let u := readAt h cloned i
    if userFilter u then
      let r := appendM rt h filtered u
      filterLoopM rt userFilter cloned n (i + 1) r.1 r.2
    else filterLoopM rt userFilter cloned n (i + 1) h filtered

/-- `sort.Slice(s, less)`: the elements of `s` are rearranged in place. -/
def sortM (rt : GoRuntime) (h : Heap) (s : Slice) (less : User → User → Bool) : Heap :=
  writeArr h s.arr s.off (rt.sortSlice User less (readSlice h s))

/-- `func trim(users GithubUserList, numTop int) GithubUserList` on slices; the
bound of `users[:numTop]` is checked against the capacity. -/
def trimM (users : Slice) (numTop : Int) : Option Slice :=
  let numTop := if numTop = 0 then 256 else numTop
  let numTop := if (users.len : Int) < numTop then (users.len : Int) else numTop
  if 0 ≤ numTop ∧ numTop ≤ (users.cap : Int) then some { users with len := numTop.toNat }
  else none

/-- `TopBy` on slices: the memory after the call and the returned slice (`none`
on a panic). -/
def TopByM (rt : GoRuntime) (h : Heap) (users : Slice) (selector : ContributionsSelector)
    (userFilter : Filter) (amount : Int) : Heap × Option Slice :=
  let c := cloneM h users
  let f :=
    match userFilter with
    | some g => filterLoopM rt g c.2 c.2.len 0 c.1 nilSlice
    | none => c
  let h3 := sortM rt f.1 f.2 (fun a b => decide (selector a > selector b))
  (h3, trimM f.2 amount)

/-! ## The organization aggregator on slices with backing arrays

`TopOrgs` copies the slice header `user.Organizations` into `userOrgs` and
appends the inferred login to it.  When that slice has spare capacity, `append`
writes the login into the backing array of the caller's record, where a record
read later may show it.  To state what the loop reads and what it leaves in
memory, the loop is modelled once more on `[]string` slices with their backing
arrays. -/

/-- The memory of the `[]string` backing arrays: `cells a i` is element `i` of
array number `a`; the arrays numbered `next` and above are not allocated yet. -/
structure StrHeap where
  cells : Nat → Nat → String
  next : Nat

/-- A `github.User` record as it lies in memory: `Organizations` is a slice
header, the other fields are values. -/
structure UserM where
  Name : String
  Login : String
  AvatarURL : String
  Company : String
  Organizations : Slice
  CommitsCount : Int
  PublicContributionCount : Int
  ContributionCount : Int
  FollowerCount : Int
deriving DecidableEq, Repr

/-- The elements a `[]string` slice shows. -/
def readStr (h : StrHeap) (s : Slice) : List String :=
  (List.range s.len).map (fun i => h.cells s.arr (s.off + i))

/-- The assignment `a[pos] = x` to array number `arr`. -/
def StrHeap.store (h : StrHeap) (arr pos : Nat) (x : String) : StrHeap :=
  { h with cells := fun a i => if a = arr ∧ i = pos then x else h.cells a i }

/-- A new array holding `xs`, numbered `h.next`. -/
def StrHeap.alloc (h : StrHeap) (xs : List String) : StrHeap :=
  { cells := fun a i => if a = h.next then xs.getD i "" else h.cells a i
    next := h.next + 1 }

/-- `append(s, x)` for a `[]string`: written in place, right after the elements
`s` shows, when the capacity allows, and otherwise into a newly allocated array
of capacity `growCap` to which the elements of `s` are copied. -/
def appendStr (rt : GoRuntime) (h : StrHeap) (s : Slice) (x : String) : StrHeap × Slice :=
  if s.len < s.cap then
    (h.store s.arr (s.off + s.len) x, { s with len := s.len + 1 })
  else
    (h.alloc (readStr h s ++ [x]), ⟨h.next, 0, s.len + 1, rt.growCap s.cap⟩)

/-- Lines 203-210 of `TopOrgs` on memory: the memory after them and the slice
`userOrgs`.  The index expression `[1]` panics on a slice shorter than two. -/
def userOrgsOfM (rt : GoRuntime) (h : StrHeap) (user : UserM) : Option (StrHeap × Slice) :=
  let userOrgs := user.Organizations
  let orgMatches := companyLoginFindStringSubmatch (stringsTrim user.Company " ")
  if orgMatches.length > 0 then
    match (companyLoginFindStringSubmatch (stringsTrim user.Company " "))[1]? with
    | none => none
    | some orgLogin =>
      if orgLogin.data.length > 0 ∧ contains (readStr h userOrgs) orgLogin = false then
        some (appendStr rt h userOrgs orgLogin)
      else some (h, userOrgs)
  else some (h, userOrgs)

/-- Lines 202-216 of `TopOrgs` on memory: the loop over the users.  Every
iteration reads its record's `Organizations` from the memory the iterations
before it have left. -/
def usersLoopM (rt : GoRuntime) :
    List UserM → StrHeap → List (String × Int) → Option (StrHeap × List (String × Int))
  | [], h, orgsMap => some (h, orgsMap)
  | user :: rest, h, orgsMap =>
    match userOrgsOfM rt h user with
    | none => none
    | some (h, userOrgs) => usersLoopM rt rest h (tallyLoop rt (readStr h userOrgs) orgsMap)

/-- `func (slice GithubUserList) TopOrgs(count int) Organizations` on memory: the
memory after the call and the returned organizations (`orgs` lives in an array
of its own, which only this call writes). -/
def TopOrgsM (rt : GoRuntime) (h : StrHeap) (slice : List UserM) (count : Int) :
    Option (StrHeap × List Organization) :=
  match usersLoopM rt slice h [] with
  | none => none
  | some (h, orgsMap) =>
    let orgs := (rt.mapRange 0 orgsMap).map (fun kv => Organization.mk kv.1 kv.2)
    let orgs := rt.sortSlice Organization (fun a b => decide (a.MemberCount > b.MemberCount)) orgs
    if (orgs.length : Int) > count then (sliceTo orgs count).map (fun o => (h, o))
    else some (h, orgs)

/-! ## Output renderers

Every `fmt.Fprintln` and `fmt.Fprintf` call formats its text and hands it to the
sink in one `Write` call.  The verb `%+v` prints an `int` in decimal and a
`string` as it is. -/

/-- Modelled from the spec: `github.GithubSearchResults`, declared in package
`github` (not among the sources); the fields are the ones `output.go` reads. -/
structure GithubSearchResults where
  Users : List User
  MinimumFollowerCount : Int
  TotalUserCount : Int

/-- Modelled from the spec: `top.Options`, declared in package `top` (not among
the sources); the fields are the ones `output.go` reads. -/
structure Options where
  Amount : Int
  PresetTitle : String
  PresetChecksum : String

/-- The method `Write` of the sink: the call is recorded and the sink answers. -/
def Sink.Write (w : Sink) (p : String) : Sink × Option GoError :=
  ({ w with calls := w.calls ++ [p] }, w.answer w.calls p)

/-- A call `fmt.Fprintln(writer, ...)` or `fmt.Fprintf(writer, ...)` whose results
are dropped: `text` is the formatted text. -/
def Fprint (writer : Sink) (text : String) : Sink := (writer.Write text).1

/-- The decimal text of an `int`: `strconv.Itoa`, and `%+v` applied to an `int`. -/
def strconvItoa (n : Int) : String := toString n

/-- `strings.Join(elems, sep)`. -/
def stringsJoin (elems : List String) (sep : String) : String := sep.intercalate elems

/-- The text of `"#%+v: %+v (%+v):%+v (%+v) %+v\n"` in `PlainOutput`. -/
def plainUserLine (rank : Int) (user : User) : String :=
  "#" ++ strconvItoa rank ++ ": " ++ user.Name ++ " (" ++ user.Login ++ "):" ++
    strconvItoa user.ContributionCount ++ " (" ++ user.Company ++ ") " ++
    stringsJoin user.Organizations "," ++ "\n"

/-- The text of `"#%+v: %+v (%+v)\n"` in `PlainOutput`. -/
def plainOrgLine (rank : Int) (org : Organization) : String :=
  "#" ++ strconvItoa rank ++ ": " ++ org.Name ++ " (" ++ strconvItoa org.MemberCount ++ ")\n"

/-- The loop `for i, user := range users` of `PlainOutput`, from index `i` on. -/
def plainUsersLoop : List User → Nat → Sink → Sink
  | [], _, writer => writer
  | user :: rest, i, writer =>
    plainUsersLoop rest (i + 1) (Fprint writer (plainUserLine ((i : Int) + 1) user))

/-- The loop `for i, org := range users.TopOrgs(10)` of `PlainOutput`. -/
def plainOrgsLoop : List Organization → Nat → Sink → Sink
  | [], _, writer => writer
  | org :: rest, i, writer =>
    plainOrgsLoop rest (i + 1) (Fprint writer (plainOrgLine ((i : Int) + 1) org))

/-- `func PlainOutput(results, writer, options) error`: the sink after the call
and the returned error; `none` on a panic. -/
def PlainOutput (rt : GoRuntime) (results : GithubSearchResults) (writer : Sink)
    (_options : Options) : Option (Sink × Option GoError) := do
  let users := results.Users
  let writer := Fprint writer "USERS\n--------\n"
  let writer := plainUsersLoop users 0 writer
  let writer := Fprint writer "\nORGANIZATIONS\n--------\n"
  let orgs ← TopOrgs rt users 10
  let writer := plainOrgsLoop orgs 0 writer
  pure (writer, none)

/-- Modelled from the spec: a `csv.Writer` of the standard library, created over
the sink `w`: the records passed to `Write` so far, and whether `Flush` was
called.  The bytes that reach the sink are not modelled. -/
structure CsvWriter where
  w : Sink
  records : List (List String)
  flushed : Bool

/-- `csv.NewWriter(writer)`. -/
def csvNewWriter (writer : Sink) : CsvWriter := ⟨writer, [], false⟩

/-- The method `Write(record)` of a `csv.Writer`. -/
def CsvWriter.Write (rt : GoRuntime) (c : CsvWriter) (record : List String) :
    CsvWriter × Option GoError :=
  ({ c with records := c.records ++ [record] }, rt.csvWriteError c.w c.records record)

/-- The method `Flush()` of a `csv.Writer`; it returns nothing. -/
def CsvWriter.Flush (c : CsvWriter) : CsvWriter := { c with flushed := true }

/-- The loop `for i, user := range users` of `CsvOutput`, from index `i` on; a
failed `Write` returns its error at once. -/
def csvRowsLoop (rt : GoRuntime) : List User → Nat → CsvWriter → CsvWriter × Option GoError
  | [], _, w => (w, none)
  | user :: rest, i, w =>
    let rank := strconvItoa ((i : Int) + 1)
    let name := user.Name
    let login := user.Login
    let contribs := strconvItoa user.ContributionCount
    let orgs := stringsJoin user.Organizations ","
    let company := user.Company
    match w.Write rt [rank, name, login, contribs, company, orgs] with
    | (w, some err) => (w, some err)
    | (w, none) => csvRowsLoop rt rest (i + 1) w

/-- `func CsvOutput(results, writer, options) error`: the `csv.Writer` after the
call and the returned error. -/
def CsvOutput (rt : GoRuntime) (results : GithubSearchResults) (writer : Sink)
    (_options : Options) : CsvWriter × Option GoError :=
  let users := results.Users
  let w := csvNewWriter writer
  match w.Write rt ["rank", "name", "login", "contributions", "company", "organizations"] with
  | (w, some err) => (w, some err)
  | (w, none) =>
    match csvRowsLoop rt users 0 w with
    | (w, some err) => (w, some err)
    | (w, none) => (w.Flush, none)

/-- The text written by `outputOrganizations` for one organization. -/
def yamlOrgEntry (rt : GoRuntime) (rank : Int) (org : Organization) : String :=
  "\n  - rank: " ++ strconvItoa rank ++ "\n    name: " ++ rt.quoteToASCII org.Name ++
    "\n    membercount: " ++ strconvItoa org.MemberCount ++ "\n"

/-- The text written by `outputUsers` for one user. -/
def yamlUserEntry (rt : GoRuntime) (rank : Int) (u : User) (contributionCount : Int) : String :=
  "\n  - rank: " ++ strconvItoa rank ++ "\n    name: " ++ rt.quoteToASCII u.Name ++
    "\n    login: " ++ rt.quoteToASCII u.Login ++ "\n    avatarUrl: " ++ u.AvatarURL ++
    "\n    contributions: " ++ strconvItoa contributionCount ++
    "\n    company: " ++ rt.quoteToASCII u.Company ++
    "\n    organizations: " ++ rt.quoteToASCII (stringsJoin u.Organizations ",") ++ "\n"

/-- The closure `outputOrganizations` of `YamlOutput`, from index `i` on. -/
def outputOrganizations (rt : GoRuntime) : List Organization → Nat → Sink → Sink
  | [], _, writer => writer
  | org :: rest, i, writer =>
    outputOrganizations rt rest (i + 1) (Fprint writer (yamlOrgEntry rt ((i : Int) + 1) org))

/-- The closure `outputUsers` of `YamlOutput`, from index `i` on. -/
def outputUsers (rt : GoRuntime) (cs : ContributionsSelector) : List User → Nat → Sink → Sink
  | [], _, writer => writer
  | u :: rest, i, writer =>
    let contributionCount := cs u
    outputUsers rt cs rest (i + 1)
      (Fprint writer (yamlUserEntry rt ((i : Int) + 1) u contributionCount))

/-- `func YamlOutput(results, writer, options) error`: the sink after the call and
the returned error; `none` on a panic.  Each of the three `TopOrgs` calls runs
one `range` loop over its own map, so the second call meets the runtime after
one such loop and the third after two. -/
def YamlOutput (rt : GoRuntime) (results : GithubSearchResults) (writer : Sink)
    (options : Options) : Option (Sink × Option GoError) := do
  let users := results.Users
  let topCommits ← TopBy rt users (fun u => u.CommitsCount) none options.Amount
  let writer := Fprint writer "users:\n"
  let writer := outputUsers rt (fun u => u.CommitsCount) topCommits 0 writer
  let topPublic ← TopBy rt users (fun u => u.PublicContributionCount) none options.Amount
  let writer := Fprint writer "users_public_contributions:\n"
  let writer := outputUsers rt (fun u => u.PublicContributionCount) topPublic 0 writer
  let topTotal ← TopBy rt users (fun u => u.ContributionCount) none options.Amount
  let writer := Fprint writer "\nprivate_users:\n"
  let writer := outputUsers rt (fun u => u.ContributionCount) topTotal 0 writer
  let writer := Fprint writer "\norganizations:\n"
  let orgs ← TopOrgs rt topCommits 10
  let writer := outputOrganizations rt orgs 0 writer
  let writer := Fprint writer "\npublic_contributions_organizations:\n"
  let orgs ← TopOrgs (rt.afterRanges 1) topPublic 10
  let writer := outputOrganizations rt orgs 0 writer
  let writer := Fprint writer "\nprivate_organizations:\n"
  let orgs ← TopOrgs (rt.afterRanges 2) topTotal 10
  let writer := outputOrganizations rt orgs 0 writer
  let writer := Fprint writer ("generated: " ++ rt.timeNowRFC3339 ++ "\n")
  let writer := Fprint writer
    ("min_followers_required: " ++ strconvItoa results.MinimumFollowerCount ++ "\n")
  let writer := Fprint writer ("total_user_count: " ++ strconvItoa results.TotalUserCount ++ "\n")
  let writer :=
    if options.PresetTitle ≠ "" ∧ options.PresetChecksum ≠ "" then
      Fprint (Fprint writer ("title: " ++ options.PresetTitle ++ "\n"))
        ("definition_checksum: " ++ options.PresetChecksum ++ "\n")
    else writer
  pure (writer, none)

/-! ## Specification-level notions used to state the properties -/

/-- Specification-level: the records of a population that pass an optional filter,
in their original order. -/
def retained (users : List User) : Filter → List User
  | some f => users.filter f
  | none => users

/-- Specification-level: the limit a caller's `amount` stands for, `256` for the
sentinel `0`. -/
def effectiveLimit (amount : Int) : Int := if amount = 0 then 256 else amount

/-- Specification-level: `s` has the `@handle` shape with handle `h`, that is, `s`
is an `@` sign followed by `h`, and `h` is one or more ASCII letters or digits. -/
def IsHandle (s h : String) : Prop :=
  s.data = '@' :: h.data ∧ h.data ≠ [] ∧ ∀ c ∈ h.data, c.isAlphanum = true

/-- Specification-level: the affiliations `TopOrgs` tallies for a user (the value
of `userOrgs` when the inner loop starts). -/
def talliedOrgs (user : User) : List String := (userOrgsOf user).getD []

/-- Specification-level: the normalized identifiers tallied for a population, one
per tallied affiliation, in tally order. -/
def normalizedIds (rt : GoRuntime) (slice : List User) : List String :=
  ((slice.map talliedOrgs).flatten).map (stringsToLower rt)

/-- Specification-level: the login inferred from a user's company, if any. -/
def inferredLogin (user : User) : Option String :=
  (companyLoginFindStringSubmatch (stringsTrim user.Company " "))[1]?

/-- Specification-level: the user has at least one affiliation, declared or
inferred from company, whose lowercase form is `n`. -/
def affiliatedWith (rt : GoRuntime) (user : User) (n : String) : Bool :=
  user.Organizations.any (fun a => decide (stringsToLower rt a = n)) ||
    (match inferredLogin user with
     | some h => decide (stringsToLower rt h = n)
     | none => false)

/-- Specification-level: the texts `f 1 x₁, f 2 x₂, ...` for the elements of `l`
in order, numbered from `1`. -/
def numbered {α : Type} (f : Int → α → String) (l : List α) : List String :=
  l.enum.map (fun p => f ((p.1 : Int) + 1) p.2)

/-- Specification-level: the two lines `YamlOutput` writes for a preset, present
exactly when both the title and the checksum are non-empty. -/
def presetLines (title checksum : String) : List String :=
  if title ≠ "" ∧ checksum ≠ "" then
    ["title: " ++ title ++ "\n", "definition_checksum: " ++ checksum ++ "\n"]
  else []

/-- Specification-level: the three user sections of the structured output for the
views `c` (by commits), `p` (by public contributions) and `t` (by total
contributions). -/
def yamlUserSections (rt : GoRuntime) (c p t : List User) : List String :=
  ["users:\n"] ++ numbered (fun r u => yamlUserEntry rt r u u.CommitsCount) c ++
    ["users_public_contributions:\n"] ++
    numbered (fun r u => yamlUserEntry rt r u u.PublicContributionCount) p ++
    ["\nprivate_users:\n"] ++
    numbered (fun r u => yamlUserEntry rt r u u.ContributionCount) t

/-- Specification-level: the three organization sections of the structured
output for the organization rankings `oc`, `op`, `ot`. -/
def yamlOrgSections (rt : GoRuntime) (oc op ot : List Organization) : List String :=
  ["\norganizations:\n"] ++ numbered (yamlOrgEntry rt) oc ++
    ["\npublic_contributions_organizations:\n"] ++ numbered (yamlOrgEntry rt) op ++
    ["\nprivate_organizations:\n"] ++ numbered (yamlOrgEntry rt) ot

/-- Specification-level: the provenance lines of the structured output. -/
def yamlProvenance (rt : GoRuntime) (results : GithubSearchResults) : List String :=
  ["generated: " ++ rt.timeNowRFC3339 ++ "\n",
    "min_followers_required: " ++ strconvItoa results.MinimumFollowerCount ++ "\n",
    "total_user_count: " ++ strconvItoa results.TotalUserCount ++ "\n"]

/-- Specification-level: the data row of the tabular output for a user. -/
def csvRow (rank : Int) (user : User) : List String :=
  [strconvItoa rank, user.Name, user.Login, strconvItoa user.ContributionCount, user.Company,
    stringsJoin user.Organizations ","]

/-- Specification-level: the header row of the tabular output. -/
def csvHeader : List String :=
  ["rank", "name", "login", "contributions", "company", "organizations"]

/-- The keys of a map held as a list of entries. -/
def mapKeys (m : List (String × Int)) : List String := m.map Prod.fst

/-- The value of `orgsMap` in `TopOrgs` after the loop over the users. -/
def orgsMapOf (rt : GoRuntime) (slice : List User) : List (String × Int) :=
  tallyLoop rt ((slice.map talliedOrgs).flatten) []

/-- The value of `orgs` in `TopOrgs` after `sort.Sort(orgs)`. -/
def rankedOrgs (rt : GoRuntime) (slice : List User) : List Organization :=
  rt.sortSlice Organization (fun a b => decide (a.MemberCount > b.MemberCount))
    ((rt.mapRange 0 (orgsMapOf rt slice)).map (fun kv => Organization.mk kv.1 kv.2))

/-- Specification-level: the record, by value, that a record in memory shows. -/
def UserM.view (h : StrHeap) (u : UserM) : User :=
  { Name := u.Name
    Login := u.Login
    AvatarURL := u.AvatarURL
    Company := u.Company
    Organizations := readStr h u.Organizations
    CommitsCount := u.CommitsCount
    PublicContributionCount := u.PublicContributionCount
    ContributionCount := u.ContributionCount
    FollowerCount := u.FollowerCount }

/-- The memory after the iteration of the users loop for `user`. -/
def heapAfterUser (rt : GoRuntime) (h : StrHeap) (user : UserM) : StrHeap :=
  match userOrgsOfM rt h user with
  | some r => r.1
  | none => h

/-- The memory after the users loop. -/
def heapAfterUsers (rt : GoRuntime) : List UserM → StrHeap → StrHeap
  | [], h => h
  | user :: rest, h => heapAfterUsers rt rest (heapAfterUser rt h user)

/-- Specification-level: the records as the users loop reads them, each shown by
the memory the iterations before it have left. -/
def seenUsers (rt : GoRuntime) : List UserM → StrHeap → List User
  | [], _ => []
  | user :: rest, h => user.view h :: seenUsers rt rest (heapAfterUser rt h user)

/-- Specification-level: the users loop reads every record as the caller passed
it, that is, no login appended in place has overwritten an element that a
record read later shows. -/
def ReadsAsGiven (rt : GoRuntime) (h : StrHeap) (slice : List UserM) : Prop :=
  seenUsers rt slice h = slice.map (UserM.view h)

/-! ## Sample records -/

/-- The user `A` of the end-to-end scenario: 50 contributions, company `"@Foo"`. -/
def userA : User :=
  { (default : User) with Login := "A", ContributionCount := 50, Company := "@Foo" }

/-- The user `B` of the end-to-end scenario: 80 contributions, member of `"Foo"`. -/
def userB : User :=
  { (default : User) with Login := "B", ContributionCount := 80, Organizations := ["Foo"] }

/-- The user `C` of the end-to-end scenario: 10 contributions, no affiliation. -/
def userC : User :=
  { (default : User) with Login := "C", ContributionCount := 10 }

/-- A user whose declared organizations hold one name in two casings. -/
def userTwoCasings : User :=
  { (default : User) with Login := "D", Organizations := ["Acme", "acme"] }

/-- A user whose company names a declared organization in another casing. -/
def userInferredCasing : User :=
  { (default : User) with Login := "E", Organizations := ["Acme"], Company := "@acme" }

/-- A user whose company names a declared organization in the same casing. -/
def userInferredSame : User :=
  { (default : User) with Login := "F", Organizations := ["Acme"], Company := "@Acme" }

/-- A user with company `"@Acme"` and no declared organization. -/
def userOnlyCompany : User :=
  { (default : User) with Login := "G", Company := "@Acme" }

/-- A slice that the running call owns: either it has no backing array yet
(length and capacity `0`), or it covers, from offset `0`, a whole array whose
number is at least `n`. -/
def Owned (n : Nat) (h : Heap) (s : Slice) : Prop :=
  (s.len = 0 ∧ s.cap = 0) ∨
    (n ≤ s.arr ∧ s.arr < h.length ∧ s.off = 0 ∧ s.len ≤ s.cap ∧
      (h.getD s.arr []).length = s.cap)

/-- A memory with one array holding the users `A`, `B`, `C` of the scenario. -/
def sampleHeap : Heap := [[userA, userB, userC]]

/-- The caller's slice over the whole array of `sampleHeap`. -/
def sampleSlice : Slice := ⟨0, 0, 3, 3⟩

/-- A sink that accepts every write. -/
def okSink : Sink := ⟨[], fun _ _ => none⟩

/-- A sink that fails every write. -/
def failingSink : Sink := ⟨[], fun _ _ => some "write failed"⟩

/-- The search results of the end-to-end scenario: the users `A`, `B`, `C`. -/
def sampleResults : GithubSearchResults := ⟨[userA, userB, userC], 0, 3⟩

/-- The options of the end-to-end scenario: amount `2`, no preset. -/
def sampleOptions : Options := ⟨2, "", ""⟩

/-- A user who leads by commits and is a member of `"X"`. -/
def userP : User :=
  { (default : User) with
    Login := "P"
    CommitsCount := 9
    PublicContributionCount := 1
    ContributionCount := 5
    Organizations := ["X"] }

/-- A user who leads by public contributions and is a member of `"Y"`. -/
def userQ : User :=
  { (default : User) with
    Login := "Q"
    CommitsCount := 1
    PublicContributionCount := 9
    ContributionCount := 4
    Organizations := ["Y"] }

/-- A user who leads by total contributions and is a member of `"Z"`. -/
def userR : User :=
  { (default : User) with
    Login := "R"
    CommitsCount := 5
    PublicContributionCount := 5
    ContributionCount := 9
    Organizations := ["Z"] }

/-- Search results with the users `P`, `Q`, `R`. -/
def scopedResults : GithubSearchResults := ⟨[userP, userQ, userR], 7, 3⟩

/-- A user with company `"\t@Acme\n"` and no declared organization. -/
def userTabCompany : User :=
  { (default : User) with Login := "H", Company := "\t@Acme\n" }

/-- A user with company `"  @Acme "` and no declared organization. -/
def userSpacedCompany : User :=
  { (default : User) with Login := "I", Company := "  @Acme " }

/-- Users whose company does not have the `@handle` shape and who declare no
organization. -/
def usersNoHandle : List User :=
  ["", "Acme", "@", "@foo-bar", "@a b", "x@foo"].map
    (fun c => { (default : User) with Company := c })

/-- A user declaring `"Acme"`, with an empty company. -/
def userDeclAcme : User :=
  { (default : User) with Login := "J", Organizations := ["Acme"] }

/-- A user declaring `"acme"`, with an empty company. -/
def userDeclacme : User :=
  { (default : User) with Login := "K", Organizations := ["acme"] }

/-- Specification-level: the cell right after the elements `u.Organizations`
shows is, when the capacity of that slice leaves room for it, not one of the
cells `v.Organizations` shows. -/
def SpareCellUnshown (u v : UserM) : Prop :=
  ¬ (u.Organizations.len < u.Organizations.cap ∧
      v.Organizations.arr = u.Organizations.arr ∧
      v.Organizations.off ≤ u.Organizations.off + u.Organizations.len ∧
      u.Organizations.off + u.Organizations.len < v.Organizations.off + v.Organizations.len)

/-- A memory with one array holding `"Acme"` and `"Zeta"`. -/
def sharedHeap : StrHeap :=
  { cells := fun a i => if a = 0 then ["Acme", "Zeta"].getD i "" else ""
    next := 1 }

/-- A record whose `Organizations` is the first element of the array of
`sharedHeap`, with room for a second (`base[:1]`), and whose company is `"@Foo"`. -/
def userShort : UserM :=
  { Name := ""
    Login := "S"
    AvatarURL := ""
    Company := "@Foo"
    Organizations := ⟨0, 0, 1, 2⟩
    CommitsCount := 0
    PublicContributionCount := 0
    ContributionCount := 0
    FollowerCount := 0 }

/-- A record whose `Organizations` is the whole array of `sharedHeap` (`base[:2]`). -/
def userLong : UserM :=
  { userShort with
    Login := "L"
    Company := ""
    Organizations := ⟨0, 0, 2, 2⟩ }

/-- A memory with two arrays: number `0` holds `"Acme"` and `"acme"`, number `1`
holds `"Foo"`. -/
def sampleStrHeap : StrHeap :=
  { cells := fun a i =>
      if a = 0 then ["Acme", "acme"].getD i "" else if a = 1 then ["Foo"].getD i "" else ""
    next := 2 }

/-- The record of `userTwoCasings` in `sampleStrHeap`: its `Organizations` is the
whole array number `0`. -/
def userTwoCasingsM : UserM :=
  { userShort with
    Login := "D"
    Company := ""
    Organizations := ⟨0, 0, 2, 2⟩ }

/-- The record of `userB` in `sampleStrHeap`: its `Organizations` is the whole
array number `1`. -/
def userBM : UserM :=
  { userShort with
    Login := "B"
    Company := ""
    Organizations := ⟨1, 0, 1, 1⟩
    ContributionCount := 80 }

/-- The record of `userA` in memory: its `Organizations` is the nil slice. -/
def userAM : UserM :=
  { userShort with
    Login := "A"
    Company := "@Foo"
    Organizations := nilSlice
    ContributionCount := 50 }

/-- A user with `5` for each of the three metrics, member of `"M"`. -/
def userM5 : User :=
  { (default : User) with
    Login := "M5"
    CommitsCount := 5
    PublicContributionCount := 5
    ContributionCount := 5
    Organizations := ["M"] }

/-- A user with `3` for each of the three metrics, member of `"N"`. -/
def userN3 : User :=
  { (default : User) with
    Login := "N3"
    CommitsCount := 3
    PublicContributionCount := 3
    ContributionCount := 3
    Organizations := ["N"] }

/-- Search results whose three rankings are the same view `[M5, N3]`. -/
def equalViewsResults : GithubSearchResults := ⟨[userM5, userN3], 0, 2⟩

/-! ## Ranking engine: auxiliary facts -/

theorem clone_eq (users : List User) : clone users = users := by
  apply List.ext_getElem
  · simp [clone]
  · intro i h1 h2
    simp only [clone, List.length_map, List.length_range] at h1
    simp [clone, List.getD_eq_getElem?_getD, List.getElem?_eq_getElem h1]

theorem filterLoop_eq (f : User → Bool) (l filtered : List User) :
    filterLoop f l filtered = filtered ++ l.filter f := by
  induction l generalizing filtered with
  | nil => simp [filterLoop]
  | cons u rest ih =>
    by_cases hu : f u = true
    · simp [filterLoop, hu, ih]
    · simp [filterLoop, hu, ih]

/-- The comparison `selector(a) > selector(b)` is a strict weak order. -/
theorem strictWeak_key {α : Type} (key : α → Int) :
    StrictWeak (fun a b => decide (key a > key b)) where
  irrefl := fun a => by simp
  trans := fun a b c h1 h2 => by
    simp only [gt_iff_lt, decide_eq_true_eq] at *
    omega
  incomp := fun a b c h1 h2 => by
    simp only [gt_iff_lt, decide_eq_false_iff_not, not_lt] at *
    omega

/-- What `sort.Slice` guarantees for a descending integer key. -/
theorem sortSlice_key_sorted (rt : GoRuntime) {α : Type} (key : α → Int) (l : List α) :
    (rt.sortSlice α (fun a b => decide (key a > key b)) l).Pairwise
      (fun a b => key b ≤ key a) := by
  have h := rt.sortSlice_sorted α _ l (strictWeak_key key)
  refine h.imp ?_
  intro a b hab
  simpa using hab

theorem sortSlice_length (rt : GoRuntime) {α : Type} (less : α → α → Bool) (l : List α) :
    (rt.sortSlice α less l).length = l.length :=
  (rt.sortSlice_perm α less l).length_eq

theorem trim_of_nonneg (users : List User) (numTop : Int) (h : 0 ≤ numTop) :
    trim users numTop = some (users.take (min (effectiveLimit numTop) users.length).toNat) := by
  unfold trim sliceTo effectiveLimit
  by_cases h0 : numTop = 0
  · subst h0
    by_cases hl : (users.length : Int) < 256
    · have hm : min (256 : Int) users.length = users.length := by omega
      simp [hl, hm]
    · have hm : min (256 : Int) users.length = 256 := by omega
      have : (256 : Int) ≤ users.length := by omega
      simp [hl, hm, this]
  · by_cases hl : (users.length : Int) < numTop
    · have hm : min numTop (users.length : Int) = users.length := by omega
      simp [h0, hl, hm]
    · have hm : min numTop (users.length : Int) = numTop := by omega
      have h2 : numTop ≤ users.length := by omega
      simp [h0, hl, hm, h, h2]

theorem TopBy_eq (rt : GoRuntime) (users : List User) (selector : ContributionsSelector)
    (userFilter : Filter) (amount : Int) :
    TopBy rt users selector userFilter amount =
      trim (rt.sortSlice User (fun a b => decide (selector a > selector b))
        (retained users userFilter)) amount := by
  cases userFilter with
  | none => simp [TopBy, retained, clone_eq]
  | some f => simp [TopBy, retained, clone_eq, filterLoop_eq]

theorem TopBy_of_nonneg (rt : GoRuntime) (users : List User) (selector : ContributionsSelector)
    (userFilter : Filter) (amount : Int) (h : 0 ≤ amount) :
    TopBy rt users selector userFilter amount =
      some ((rt.sortSlice User (fun a b => decide (selector a > selector b))
        (retained users userFilter)).take
          (min (effectiveLimit amount) (retained users userFilter).length).toNat) := by
  rw [TopBy_eq, trim_of_nonneg _ _ h, sortSlice_length]

/-! ## Ranking engine: properties -/

/-- C1: for every population `P`, metric and limit `L > 0`, `TopBy` without a
filter returns a view of length exactly `min L (len P)`; the empty population
yields the empty view. -/
theorem TopBy_length_nil_filter (rt : GoRuntime) (P : List User)
    (metric : ContributionsSelector) (L : Int) (hL : 0 < L) :
    (∃ view, TopBy rt P metric none L = some view ∧
        (view.length : Int) = min L (P.length : Int)) ∧
      TopBy rt [] metric none L = some [] := by
  have hne : L ≠ 0 := by omega
  constructor
  · refine ⟨_, TopBy_of_nonneg rt P metric none L (by omega), ?_⟩
    simp only [retained, effectiveLimit, hne, if_false, List.length_take, sortSlice_length]
    omega
  · rw [TopBy_of_nonneg rt [] metric none L (by omega)]
    have : rt.sortSlice User (fun a b => decide (metric a > metric b)) [] = [] :=
      List.length_eq_zero.mp (by rw [sortSlice_length]; rfl)
    simp [retained, this]

/-- C2: for every population, metric, optional filter and limit `L ≥ 0`, the
view `TopBy` returns is descending by the metric: each record's metric is at
least the metric of the record that follows it. -/
theorem TopBy_sorted_desc (rt : GoRuntime) (P : List User) (m : ContributionsSelector)
    (f : Filter) (L : Int) (hL : 0 ≤ L) :
    ∃ view, TopBy rt P m f L = some view ∧
      ∀ (i : Nat) (h : i + 1 < view.length),
        m (view.get ⟨i + 1, h⟩) ≤ m (view.get ⟨i, Nat.lt_of_succ_lt h⟩) := by
  refine ⟨_, TopBy_of_nonneg rt P m f L hL, ?_⟩
  intro i h
  have hs := (sortSlice_key_sorted rt m (retained P f)).sublist
    (List.take_sublist (min (effectiveLimit L) (retained P f).length).toNat _)
  exact List.pairwise_iff_get.mp hs ⟨i, Nat.lt_of_succ_lt h⟩ ⟨i + 1, h⟩ (Nat.lt_succ_self i)

/-- C3: for every population (of any size), metric and filter, `TopBy` with
limit `0` returns exactly what it returns with limit `256`, a view of
`min 256 (number of retained records)` records: `0` is not "unbounded". -/
theorem TopBy_zero_eq_256 (rt : GoRuntime) (P : List User) (m : ContributionsSelector)
    (f : Filter) :
    TopBy rt P m f 0 = TopBy rt P m f 256 ∧
      ∃ view, TopBy rt P m f 0 = some view ∧
        view.length = min 256 (retained P f).length := by
  refine ⟨?_, _, TopBy_of_nonneg rt P m f 0 (by decide), ?_⟩
  · rw [TopBy_eq, TopBy_eq]
    rfl
  · simp only [effectiveLimit, if_true, List.length_take, sortSlice_length]
    omega


/-! ## Organization aggregator: auxiliary facts -/

theorem isAlnum_eq (c : Char) : isAlnum c = c.isAlphanum := by
  simp only [isAlnum, Char.isAlphanum, Char.isAlpha, Char.isUpper, Char.isLower, Char.isDigit,
    ge_iff_le, UInt32.le_def, Char.toNat, UInt32.toNat]
  rw [Bool.eq_iff_iff]
  simp [BitVec.le_def]
  tauto

theorem isAlnum_val_lt (c : Char) (h : isAlnum c = true) : c.val < 128 := by
  simp only [isAlnum, Char.toNat, Bool.or_eq_true, Bool.and_eq_true, decide_eq_true_eq] at h
  rw [UInt32.lt_def]
  show c.val.toNat < 128
  omega

theorem isAlnum_ne_space (c : Char) (h : isAlnum c = true) : c ≠ ' ' := by
  rintro rfl
  revert h
  decide

theorem find_of_isHandle {s h : String} (hs : IsHandle s h) :
    companyLoginFindStringSubmatch s = [s, h] := by
  obtain ⟨h1, h2, h3⟩ := hs
  have hall : h.data.all isAlnum = true := by
    rw [List.all_eq_true]
    intro c hc
    rw [isAlnum_eq]
    exact h3 c hc
  simp [companyLoginFindStringSubmatch, h1, h2, hall]

theorem find_nil_or_isHandle (s : String) :
    companyLoginFindStringSubmatch s = [] ∨
      ∃ h, IsHandle s h ∧ companyLoginFindStringSubmatch s = [s, h] := by
  unfold companyLoginFindStringSubmatch
  cases hd : s.data with
  | nil => exact Or.inl rfl
  | cons c t =>
    by_cases hc : c = '@' ∧ t ≠ [] ∧ t.all isAlnum = true
    · right
      refine ⟨String.mk t, ⟨?_, hc.2.1, ?_⟩, by simp [hc]⟩
      · rw [hd, hc.1]
      · intro x hx
        rw [← isAlnum_eq]
        exact List.all_eq_true.mp hc.2.2 x hx
    · left
      simp only [hc, if_false]

theorem find_eq_nil_of_not_isHandle (s : String) (hs : ¬ ∃ h, IsHandle s h) :
    companyLoginFindStringSubmatch s = [] := by
  rcases find_nil_or_isHandle s with h | ⟨h, hh, _⟩
  · exact h
  · exact absurd ⟨h, hh⟩ hs

theorem contains_iff (s : List String) (e : String) : contains s e = true ↔ e ∈ s := by
  induction s with
  | nil => simp [contains]
  | cons a rest ih =>
    by_cases hae : a = e
    · simp [contains, hae]
    · have : ¬ e = a := fun h => hae h.symm
      simp [contains, hae, ih, this]

theorem userOrgsOf_of_isHandle (user : User) (h : String)
    (hs : IsHandle (stringsTrim user.Company " ") h) :
    userOrgsOf user =
      some (if h ∈ user.Organizations then user.Organizations
            else user.Organizations ++ [h]) := by
  have hne : h.data.length > 0 := List.length_pos.mpr hs.2.1
  have hne2 : ¬ h.length = 0 := by
    have : h.length = h.data.length := rfl
    omega
  unfold userOrgsOf
  simp only [find_of_isHandle hs]
  by_cases hmem : h ∈ user.Organizations
  · have hc : contains user.Organizations h = true := (contains_iff _ _).mpr hmem
    simp [hmem, hc]
  · have hc : contains user.Organizations h = false := by
      rw [← Bool.not_eq_true, contains_iff]
      exact hmem
    simp [hmem, hc, hne2]

theorem userOrgsOf_of_not_isHandle (user : User)
    (hs : ¬ ∃ h, IsHandle (stringsTrim user.Company " ") h) :
    userOrgsOf user = some user.Organizations := by
  unfold userOrgsOf
  simp [find_eq_nil_of_not_isHandle _ hs]

theorem userOrgsOf_eq_some (user : User) : userOrgsOf user = some (talliedOrgs user) := by
  by_cases hs : ∃ h, IsHandle (stringsTrim user.Company " ") h
  · obtain ⟨h, hh⟩ := hs
    simp [talliedOrgs, userOrgsOf_of_isHandle user h hh]
  · simp [talliedOrgs, userOrgsOf_of_not_isHandle user hs]

theorem mapGet_mapSet (m : List (String × Int)) (k : String) (v : Int) (k' : String) :
    mapGet (mapSet m k v) k' = if k = k' then v else mapGet m k' := by
  induction m with
  | nil => simp [mapSet, mapGet]
  | cons e rest ih =>
    obtain ⟨a, b⟩ := e
    by_cases hak : a = k
    · subst hak
      by_cases h2 : a = k' <;> simp [mapSet, mapGet, h2]
    · by_cases h2 : a = k'
      · subst h2
        have : ¬ k = a := fun h => hak h.symm
        simp [mapSet, mapGet, hak, this]
      · simp [mapSet, mapGet, hak, h2, ih]

theorem mapKeys_mapSet (m : List (String × Int)) (k : String) (v : Int) :
    mapKeys (mapSet m k v) = if k ∈ mapKeys m then mapKeys m else mapKeys m ++ [k] := by
  induction m with
  | nil => simp [mapSet, mapKeys]
  | cons e rest ih =>
    obtain ⟨a, b⟩ := e
    by_cases hak : a = k
    · subst hak
      simp [mapSet, mapKeys]
    · have hka : ¬ k = a := fun h => hak h.symm
      simp only [mapKeys] at ih
      by_cases hmem : k ∈ List.map Prod.fst rest
      · simp [mapSet, mapKeys, hak, hka, ih, hmem]
      · simp [mapSet, mapKeys, hak, hka, ih, hmem]

theorem mem_mapKeys_mapSet (m : List (String × Int)) (k : String) (v : Int) (k' : String) :
    k' ∈ mapKeys (mapSet m k v) ↔ k' ∈ mapKeys m ∨ k' = k := by
  rw [mapKeys_mapSet]
  by_cases hmem : k ∈ mapKeys m
  · simp only [hmem, if_true]
    constructor
    · exact Or.inl
    · rintro (h | rfl)
      · exact h
      · exact hmem
  · simp [hmem]

theorem nodup_mapKeys_mapSet (m : List (String × Int)) (k : String) (v : Int)
    (hm : (mapKeys m).Nodup) : (mapKeys (mapSet m k v)).Nodup := by
  rw [mapKeys_mapSet]
  by_cases hmem : k ∈ mapKeys m
  · simpa [hmem] using hm
  · simp only [hmem, if_false]
    rw [List.nodup_append]
    refine ⟨hm, List.nodup_singleton k, ?_⟩
    intro a ha hb
    rw [List.mem_singleton] at hb
    exact hmem (hb ▸ ha)

theorem mapGet_of_mem (m : List (String × Int)) (hm : (mapKeys m).Nodup)
    (k : String) (v : Int) (h : (k, v) ∈ m) : mapGet m k = v := by
  induction m with
  | nil => simp at h
  | cons e rest ih =>
    obtain ⟨a, b⟩ := e
    simp only [mapKeys, List.map_cons, List.nodup_cons] at hm
    rcases List.mem_cons.mp h with h1 | h1
    · cases h1
      simp [mapGet]
    · have hne : ¬ a = k := by
        rintro rfl
        exact hm.1 (List.mem_map.mpr ⟨(a, v), h1, rfl⟩)
      simp only [mapGet, hne, if_false]
      exact ih hm.2 h1

theorem tallyLoop_append (rt : GoRuntime) (xs ys : List String) (m : List (String × Int)) :
    tallyLoop rt (xs ++ ys) m = tallyLoop rt ys (tallyLoop rt xs m) := by
  induction xs generalizing m with
  | nil => rfl
  | cons o rest ih => simp [tallyLoop, ih]

theorem mapGet_tallyLoop (rt : GoRuntime) (os : List String) (m : List (String × Int))
    (n : String) :
    mapGet (tallyLoop rt os m) n =
      mapGet m n + ((os.map (stringsToLower rt)).count n : Int) := by
  induction os generalizing m with
  | nil => simp [tallyLoop]
  | cons o rest ih =>
    simp only [tallyLoop, ih, mapGet_mapSet, List.map_cons, List.count_cons]
    by_cases h : stringsToLower rt o = n
    · subst h
      simp
      omega
    · simp [h]

theorem mem_mapKeys_tallyLoop (rt : GoRuntime) (os : List String) (m : List (String × Int))
    (k : String) :
    k ∈ mapKeys (tallyLoop rt os m) ↔ k ∈ mapKeys m ∨ k ∈ os.map (stringsToLower rt) := by
  induction os generalizing m with
  | nil => simp [tallyLoop]
  | cons o rest ih =>
    simp only [tallyLoop, ih, mem_mapKeys_mapSet, List.map_cons, List.mem_cons]
    tauto

theorem nodup_mapKeys_tallyLoop (rt : GoRuntime) (os : List String) (m : List (String × Int))
    (hm : (mapKeys m).Nodup) : (mapKeys (tallyLoop rt os m)).Nodup := by
  induction os generalizing m with
  | nil => simpa [tallyLoop] using hm
  | cons o rest ih =>
    simp only [tallyLoop]
    exact ih _ (nodup_mapKeys_mapSet _ _ _ hm)

theorem usersLoop_eq (rt : GoRuntime) (slice : List User) (m : List (String × Int)) :
    usersLoop rt slice m = some (tallyLoop rt ((slice.map talliedOrgs).flatten) m) := by
  induction slice generalizing m with
  | nil => simp [usersLoop, tallyLoop]
  | cons u rest ih =>
    simp only [usersLoop, userOrgsOf_eq_some, ih, List.map_cons, List.flatten_cons,
      tallyLoop_append]


theorem stringsToLower_ascii (rt : GoRuntime) (s : String) (h : ∀ c ∈ s.data, c.val < 128) :
    stringsToLower rt s = s.toLower := by
  unfold stringsToLower String.toLower
  rw [String.map_eq]
  congr 1
  exact List.map_congr_left (fun c hc => rt.toLowerRune_ascii c (h c hc))

theorem dropWhile_space_of_alnum_last (l : List Char) (c : Char) (hc : c.isAlphanum = true) :
    ((l ++ [c]).reverse.dropWhile (fun x => " ".data.contains x)).reverse = l ++ [c] := by
  have hne : c ≠ ' ' := isAlnum_ne_space c (by rw [isAlnum_eq]; exact hc)
  have hf : (" ".data.contains c) = false := by
    show ([' '].contains c) = false
    simp [hne]
  simp [List.dropWhile_cons, hne]

theorem stringsTrim_of_isHandle {s h : String} (hs : IsHandle s h) : stringsTrim s " " = s := by
  obtain ⟨h1, h2, h3⟩ := hs
  have hat : (" ".data.contains '@') = false := by decide
  obtain ⟨l, c, hl⟩ : ∃ l c, h.data = l ++ [c] :=
    ⟨h.data.dropLast, h.data.getLast h2, (List.dropLast_append_getLast h2).symm⟩
  have hc : c.isAlphanum = true := h3 c (by rw [hl]; simp)
  have key := dropWhile_space_of_alnum_last ('@' :: l) c hc
  unfold stringsTrim
  rw [h1, hl, List.dropWhile_cons, hat]
  simp only [Bool.false_eq_true, if_false]
  have e : '@' :: (l ++ [c]) = ('@' :: l) ++ [c] := rfl
  rw [e, key]
  show String.mk (('@' :: l) ++ [c]) = s
  rw [← e, ← hl, ← h1]

theorem isHandle_at_append {h : String} (h2 : h.data ≠ [])
    (h3 : ∀ c ∈ h.data, c.isAlphanum = true) : IsHandle ("@" ++ h) h :=
  ⟨by rw [String.data_append]; rfl, h2, h3⟩

theorem affiliatedWith_iff (rt : GoRuntime) (user : User) (n : String) :
    affiliatedWith rt user n = true ↔ n ∈ (talliedOrgs user).map (stringsToLower rt) := by
  by_cases hs : ∃ h, IsHandle (stringsTrim user.Company " ") h
  · obtain ⟨h, hh⟩ := hs
    have hi : inferredLogin user = some h := by
      simp [inferredLogin, find_of_isHandle hh]
    have ht : talliedOrgs user =
        if h ∈ user.Organizations then user.Organizations else user.Organizations ++ [h] := by
      simp [talliedOrgs, userOrgsOf_of_isHandle user h hh]
    rw [ht]
    simp only [affiliatedWith, hi, Bool.or_eq_true, List.any_eq_true, decide_eq_true_eq]
    by_cases hmem : h ∈ user.Organizations
    · simp only [hmem, if_true, List.mem_map]
      constructor
      · rintro (⟨a, ha, rfl⟩ | rfl)
        · exact ⟨a, ha, rfl⟩
        · exact ⟨h, hmem, rfl⟩
      · rintro ⟨a, ha, rfl⟩
        exact Or.inl ⟨a, ha, rfl⟩
    · simp only [hmem, if_false, List.map_append, List.mem_append, List.mem_map,
        List.map_cons, List.map_nil, List.mem_singleton]
      constructor
      · rintro (⟨a, ha, rfl⟩ | rfl)
        · exact Or.inl ⟨a, ha, rfl⟩
        · exact Or.inr rfl
      · rintro (⟨a, ha, rfl⟩ | rfl)
        · exact Or.inl ⟨a, ha, rfl⟩
        · exact Or.inr rfl
  · have hi : inferredLogin user = none := by
      simp [inferredLogin, find_eq_nil_of_not_isHandle _ hs]
    have ht : talliedOrgs user = user.Organizations := by
      simp [talliedOrgs, userOrgsOf_of_not_isHandle user hs]
    rw [ht]
    simp only [affiliatedWith, hi, Bool.or_false, List.any_eq_true, decide_eq_true_eq,
      List.mem_map]

theorem count_normalizedIds_of_nodup (rt : GoRuntime) (slice : List User) (n : String)
    (hd : ∀ u ∈ slice, ((talliedOrgs u).map (stringsToLower rt)).Nodup) :
    (normalizedIds rt slice).count n =
      (slice.filter (fun u => affiliatedWith rt u n)).length := by
  induction slice with
  | nil => simp [normalizedIds]
  | cons u rest ih =>
    have hu := hd u (List.mem_cons_self u rest)
    have ih2 := ih (fun v hv => hd v (List.mem_cons_of_mem u hv))
    simp only [normalizedIds, List.map_cons, List.flatten_cons, List.map_append,
      List.count_append] at ih2 ⊢
    rw [ih2, List.filter_cons]
    by_cases ha : affiliatedWith rt u n = true
    · have hm := (affiliatedWith_iff rt u n).mp ha
      rw [List.count_eq_one_of_mem hu hm]
      simp [ha]
      omega
    · have hm : n ∉ (talliedOrgs u).map (stringsToLower rt) :=
        fun h => ha ((affiliatedWith_iff rt u n).mpr h)
      rw [List.count_eq_zero_of_not_mem hm]
      simp [ha]

/-- The keys of the tally map are the distinct normalized identifiers. -/
theorem mapKeys_orgsMapOf_perm (rt : GoRuntime) (slice : List User) :
    (mapKeys (orgsMapOf rt slice)).Perm (normalizedIds rt slice).dedup := by
  have hn : (mapKeys (orgsMapOf rt slice)).Nodup :=
    nodup_mapKeys_tallyLoop rt _ [] (by simp [mapKeys])
  rw [List.perm_ext_iff_of_nodup hn (List.nodup_dedup _)]
  intro k
  rw [List.mem_dedup]
  rw [orgsMapOf, mem_mapKeys_tallyLoop]
  simp [normalizedIds, mapKeys]

theorem rankedOrgs_perm (rt : GoRuntime) (slice : List User) :
    (rankedOrgs rt slice).Perm
      ((orgsMapOf rt slice).map (fun kv => Organization.mk kv.1 kv.2)) :=
  (rt.sortSlice_perm _ _ _).trans ((rt.mapRange_perm 0 _).map _)

theorem rankedOrgs_length (rt : GoRuntime) (slice : List User) :
    (rankedOrgs rt slice).length = (normalizedIds rt slice).dedup.length := by
  rw [(rankedOrgs_perm rt slice).length_eq, List.length_map,
    ← (mapKeys_orgsMapOf_perm rt slice).length_eq]
  simp [mapKeys]

theorem mem_rankedOrgs (rt : GoRuntime) (slice : List User) (o : Organization) :
    o ∈ rankedOrgs rt slice ↔ (o.Name, o.MemberCount) ∈ orgsMapOf rt slice := by
  rw [(rankedOrgs_perm rt slice).mem_iff, List.mem_map]
  constructor
  · rintro ⟨kv, hkv, rfl⟩
    exact hkv
  · intro h
    exact ⟨(o.Name, o.MemberCount), h, rfl⟩

theorem memberCount_of_mem_rankedOrgs (rt : GoRuntime) (slice : List User) (o : Organization)
    (ho : o ∈ rankedOrgs rt slice) :
    o.MemberCount = ((normalizedIds rt slice).count o.Name : Int) := by
  have hmem := (mem_rankedOrgs rt slice o).mp ho
  have hn : (mapKeys (orgsMapOf rt slice)).Nodup :=
    nodup_mapKeys_tallyLoop rt _ [] (by simp [mapKeys])
  have hg := mapGet_of_mem _ hn _ _ hmem
  rw [← hg]
  simp [orgsMapOf, mapGet_tallyLoop, mapGet, normalizedIds]

theorem TopOrgs_eq (rt : GoRuntime) (slice : List User) (count : Int) :
    TopOrgs rt slice count =
      if ((rankedOrgs rt slice).length : Int) > count then sliceTo (rankedOrgs rt slice) count
      else some (rankedOrgs rt slice) := by
  simp only [TopOrgs, usersLoop_eq, rankedOrgs, orgsMapOf]

theorem TopOrgs_of_nonneg (rt : GoRuntime) (slice : List User) (count : Int) (h : 0 ≤ count) :
    TopOrgs rt slice count = some ((rankedOrgs rt slice).take count.toNat) := by
  rw [TopOrgs_eq]
  by_cases hl : ((rankedOrgs rt slice).length : Int) > count
  · have : count ≤ ((rankedOrgs rt slice).length : Int) := by omega
    simp [hl, sliceTo, h, this]
  · simp only [hl, if_false]
    congr 1
    symm
    apply List.take_of_length_le
    omega


/-! ## `MinFollowers` -/

theorem foldl_minFollowers_le (slice : List User) (init : Int) :
    slice.foldl
      (fun followers user =>
        if user.FollowerCount < followers then user.FollowerCount else followers) init ≤ init ∧
    ∀ u ∈ slice, slice.foldl
      (fun followers user =>
        if user.FollowerCount < followers then user.FollowerCount else followers) init
        ≤ u.FollowerCount := by
  induction slice generalizing init with
  | nil => simp
  | cons a rest ih =>
    simp only [List.foldl_cons, List.mem_cons, forall_eq_or_imp]
    have h := ih (if a.FollowerCount < init then a.FollowerCount else init)
    refine ⟨?_, ?_, h.2⟩
    · by_cases hlt : a.FollowerCount < init
      · simp only [hlt, if_true] at h ⊢
        omega
      · simp only [hlt, if_false] at h ⊢
        omega
    · by_cases hlt : a.FollowerCount < init
      · simp only [hlt, if_true] at h ⊢
        omega
      · simp only [hlt, if_false] at h ⊢
        omega

theorem foldl_minFollowers_mem (slice : List User) (init : Int) :
    slice.foldl
      (fun followers user =>
        if user.FollowerCount < followers then user.FollowerCount else followers) init = init ∨
    ∃ u ∈ slice, slice.foldl
      (fun followers user =>
        if user.FollowerCount < followers then user.FollowerCount else followers) init
        = u.FollowerCount := by
  induction slice generalizing init with
  | nil => simp
  | cons a rest ih =>
    simp only [List.foldl_cons, List.mem_cons, exists_eq_or_imp]
    rcases ih (if a.FollowerCount < init then a.FollowerCount else init) with h | ⟨u, hu, h⟩
    · by_cases hlt : a.FollowerCount < init
      · simp only [hlt, if_true] at h ⊢
        exact Or.inr (Or.inl h)
      · simp only [hlt, if_false] at h ⊢
        exact Or.inl h
    · exact Or.inr (Or.inr ⟨u, hu, h⟩)

/-- Where `MinFollowers` is right: on a population with a record of at most
`math.MaxInt32` followers it returns the minimum follower count. -/
theorem MinFollowers_of_some_le_MaxInt32 (slice : List User)
    (hb : ∃ u ∈ slice, u.FollowerCount ≤ 2147483647) :
    (∃ u ∈ slice, MinFollowers slice = u.FollowerCount) ∧
      ∀ u ∈ slice, MinFollowers slice ≤ u.FollowerCount := by
  obtain ⟨w, hw, hwb⟩ := hb
  have hne : ¬ slice.length = 0 := by
    intro h
    rw [List.length_eq_zero] at h
    simp [h] at hw
  simp only [MinFollowers, hne, if_false]
  refine ⟨?_, (foldl_minFollowers_le slice 2147483647).2⟩
  rcases foldl_minFollowers_mem slice 2147483647 with h | h
  · refine ⟨w, hw, ?_⟩
    have := (foldl_minFollowers_le slice 2147483647).2 w hw
    omega
  · exact h

/-- C5: `MinFollowers` on the empty population is `0` and on follower counts
`[5, 2]` is `2`, but on the one-record population with `2147483648` followers
(a value a 64-bit `int` holds) it returns `2147483647` (`math.MaxInt32`, the
initial value of the loop), which is the follower count of no record and is
not the minimum. -/
theorem MinFollowers_above_MaxInt32 :
    MinFollowers [] = 0 ∧
    MinFollowers [{ (default : User) with FollowerCount := 5 },
      { (default : User) with FollowerCount := 2 }] = 2 ∧
    MinFollowers [{ (default : User) with FollowerCount := 2147483648 }] = 2147483647 ∧
    ¬ ∃ u ∈ [{ (default : User) with FollowerCount := 2147483648 }],
        u.FollowerCount = MinFollowers [{ (default : User) with FollowerCount := 2147483648 }] := by
  refine ⟨by decide, by decide, by decide, ?_⟩
  decide

/-! ## Organization aggregator: properties -/

/-- C7: for every population and every `count ≥ 0`, `TopOrgs` returns a
sequence that is descending by memberCount: each entry's MemberCount is at
least that of the entry that follows it. -/
theorem TopOrgs_sorted_desc (rt : GoRuntime) (slice : List User) (count : Int)
    (hc : 0 ≤ count) :
    ∃ orgs, TopOrgs rt slice count = some orgs ∧
      ∀ (i : Nat) (h : i + 1 < orgs.length),
        (orgs.get ⟨i + 1, h⟩).MemberCount ≤ (orgs.get ⟨i, Nat.lt_of_succ_lt h⟩).MemberCount := by
  refine ⟨_, TopOrgs_of_nonneg rt slice count hc, ?_⟩
  intro i h
  have hs := (sortSlice_key_sorted rt (fun o : Organization => o.MemberCount)
    ((rt.mapRange 0 (orgsMapOf rt slice)).map (fun kv => Organization.mk kv.1 kv.2))).sublist
    (List.take_sublist count.toNat _)
  exact List.pairwise_iff_get.mp hs ⟨i, Nat.lt_of_succ_lt h⟩ ⟨i + 1, h⟩ (Nat.lt_succ_self i)

/-- C8: for every population and every `count ≥ 0`, `TopOrgs` returns exactly
`min count d` entries, `d` the number of distinct normalized identifiers
tallied; the empty population yields the empty sequence. -/
theorem TopOrgs_length (rt : GoRuntime) (slice : List User) (count : Int) (hc : 0 ≤ count) :
    (∃ orgs, TopOrgs rt slice count = some orgs ∧
      (orgs.length : Int) = min count ((normalizedIds rt slice).dedup.length : Int)) ∧
    TopOrgs rt [] count = some [] := by
  constructor
  · refine ⟨_, TopOrgs_of_nonneg rt slice count hc, ?_⟩
    rw [List.length_take, rankedOrgs_length]
    omega
  · rw [TopOrgs_of_nonneg rt [] count hc]
    have h0 : rankedOrgs rt [] = [] :=
      List.length_eq_zero.mp (by rw [rankedOrgs_length]; simp [normalizedIds])
    simp [h0]

/-- C9: a population of one user who declares no organizations and whose
company is `"@"` followed by a non-empty string `h` of ASCII letters and digits
gives, for every `count ≥ 1`, exactly one tally, named by the lowercase form of
`h`, with memberCount `1`; `h` is the user's only affiliation. -/
theorem TopOrgs_single_inferred (rt : GoRuntime) (user : User) (h : String) (count : Int)
    (hne : h.data ≠ []) (hal : ∀ c ∈ h.data, c.isAlphanum = true)
    (hco : user.Company = "@" ++ h) (hor : user.Organizations = []) (hc : 1 ≤ count) :
    TopOrgs rt [user] count = some [⟨h.toLower, 1⟩] ∧ userOrgsOf user = some [h] := by
  have hh : IsHandle (stringsTrim user.Company " ") h := by
    rw [hco, stringsTrim_of_isHandle (isHandle_at_append hne hal)]
    exact isHandle_at_append hne hal
  have hu : userOrgsOf user = some [h] := by
    rw [userOrgsOf_of_isHandle user h hh, hor]
    simp
  have ht : talliedOrgs user = [h] := by simp [talliedOrgs, hu]
  have hl : stringsToLower rt h = h.toLower :=
    stringsToLower_ascii rt h
      (fun c hc => isAlnum_val_lt c (by rw [isAlnum_eq]; exact hal c hc))
  have hm : orgsMapOf rt [user] = [(h.toLower, 1)] := by
    simp [orgsMapOf, ht, tallyLoop, mapSet, mapGet, hl]
  have hr : rankedOrgs rt [user] = [⟨h.toLower, 1⟩] := by
    have hp := rankedOrgs_perm rt [user]
    rw [hm] at hp
    exact List.perm_singleton.mp hp
  refine ⟨?_, hu⟩
  rw [TopOrgs_eq, hr]
  have : ¬ ((1 : Int) > count) := by omega
  simp [this]

/-- C10: for a user whose space-trimmed company has the `@handle` shape with
handle `h`, the affiliations `TopOrgs` tallies are the declared organizations
followed by `h` exactly when no declared organization is string-identical to
`h`, and the declared organizations alone otherwise; the loop over the users
tallies that list. -/
theorem userOrgsOf_handle (rt : GoRuntime) (user : User) (h : String)
    (hs : IsHandle (stringsTrim user.Company " ") h) :
    (userOrgsOf user = some (user.Organizations ++ [h]) ↔ h ∉ user.Organizations) ∧
    (h ∈ user.Organizations → userOrgsOf user = some user.Organizations) ∧
    ∀ (rest : List User) (orgsMap : List (String × Int)),
      usersLoop rt (user :: rest) orgsMap =
        usersLoop rt rest
          (tallyLoop rt
            (if h ∈ user.Organizations then user.Organizations
             else user.Organizations ++ [h]) orgsMap) := by
  have hu := userOrgsOf_of_isHandle user h hs
  refine ⟨?_, ?_, ?_⟩
  · by_cases hmem : h ∈ user.Organizations
    · simp [hu, hmem]
    · simp [hu, hmem]
  · intro hmem
    simp [hu, hmem]
  · intro rest orgsMap
    simp only [usersLoop, hu]



/-! ## Slices with backing arrays: auxiliary facts -/

theorem writeArr_length (h : Heap) (arr pos : Nat) (xs : List User) :
    (writeArr h arr pos xs).length = h.length := by
  simp [writeArr]

theorem writeArr_nil (h : Heap) (arr pos : Nat) : writeArr h arr pos [] = h := by
  unfold writeArr
  simp only [List.append_nil, List.length_nil, Nat.add_zero, List.take_append_drop]
  by_cases ha : arr < h.length
  · apply List.ext_getElem?
    intro i
    by_cases hi : arr = i
    · subst hi
      simp [List.getElem?_set_self ha, List.getD_eq_getElem?_getD, List.getElem?_eq_getElem ha]
    · simp [List.getElem?_set_ne hi]
  · exact List.set_eq_of_length_le (by omega)

theorem getD_writeArr_self (h : Heap) (arr pos : Nat) (xs : List User) (ha : arr < h.length) :
    (writeArr h arr pos xs).getD arr [] =
      (h.getD arr []).take pos ++ xs ++ (h.getD arr []).drop (pos + xs.length) := by
  unfold writeArr
  rw [List.getD_eq_getElem?_getD, List.getElem?_set_self ha]
  rfl

theorem getD_writeArr_ne (h : Heap) (arr pos : Nat) (xs : List User) (i : Nat) (hi : arr ≠ i) :
    (writeArr h arr pos xs).getD i [] = h.getD i [] := by
  unfold writeArr
  rw [List.getD_eq_getElem?_getD, List.getElem?_set_ne hi, ← List.getD_eq_getElem?_getD]

theorem writeArr_extends (base h : Heap) (arr pos : Nat) (xs : List User)
    (hp : base <+: h) (ha : base.length ≤ arr) : base <+: writeArr h arr pos xs := by
  obtain ⟨t, rfl⟩ := hp
  unfold writeArr
  rw [List.set_append_right _ _ ha]
  exact List.prefix_append _ _

theorem getD_of_extends (base h : Heap) (hp : base <+: h) (i : Nat) (hi : i < base.length) :
    h.getD i [] = base.getD i [] := by
  obtain ⟨t, rfl⟩ := hp
  exact List.getD_append _ _ _ _ hi

theorem readSlice_of_extends (base h : Heap) (hp : base <+: h) (s : Slice)
    (hs : s.arr < base.length) : readSlice h s = readSlice base s := by
  unfold readSlice
  rw [getD_of_extends base h hp s.arr hs]

theorem readSlice_length_of_valid (h : Heap) (s : Slice) (hv : ValidSlice h s) :
    (readSlice h s).length = s.len := by
  obtain ⟨_, h2, h3⟩ := hv
  simp only [readSlice, List.length_take, List.length_drop]
  omega

theorem readSlice_length_of_owned (n : Nat) (h : Heap) (s : Slice) (ho : Owned n h s) :
    (readSlice h s).length = s.len := by
  rcases ho with ⟨h1, _⟩ | ⟨_, _, h3, h4, h5⟩
  · simp [readSlice, h1]
  · simp only [readSlice, List.length_take, List.length_drop, h3]
    omega

theorem owned_mono (n m : Nat) (h : Heap) (s : Slice) (hnm : m ≤ n) (ho : Owned n h s) :
    Owned m h s := by
  rcases ho with h1 | ⟨h1, h2⟩
  · exact Or.inl h1
  · exact Or.inr ⟨by omega, h2⟩

theorem cloneM_eq (h : Heap) (users : Slice) (hv : ValidSlice h users) :
    cloneM h users = (h ++ [readSlice h users], ⟨h.length, 0, users.len, users.len⟩) := by
  have hlen := readSlice_length_of_valid h users hv
  have hread : readSlice (h ++ [List.replicate users.len default]) users = readSlice h users :=
    readSlice_of_extends h _ (List.prefix_append _ _) users hv.1
  unfold cloneM makeSlice copySlice
  simp only [hread]
  rw [List.take_of_length_le (by omega)]
  unfold writeArr
  have hg : (h ++ [List.replicate users.len (default : User)]).getD h.length [] =
      List.replicate users.len default := by
    rw [List.getD_append_right _ _ _ _ (Nat.le_refl _)]
    simp
  rw [hg, hlen]
  simp only [List.take_zero, List.nil_append, Nat.zero_add]
  rw [List.drop_of_length_le (by simp), List.append_nil,
    List.set_append_right _ _ (Nat.le_refl _)]
  simp

theorem appendM_spec (rt : GoRuntime) (base h : Heap) (s : Slice) (x : User)
    (hp : base <+: h) (ho : Owned base.length h s) :
    base <+: (appendM rt h s x).1 ∧ Owned base.length (appendM rt h s x).1 (appendM rt h s x).2 ∧
      readSlice (appendM rt h s x).1 (appendM rt h s x).2 = readSlice h s ++ [x] := by
  have hrl := readSlice_length_of_owned _ h s ho
  unfold appendM
  by_cases hlt : s.len < s.cap
  · simp only [hlt, if_true]
    rcases ho with ⟨h1, h2⟩ | ⟨h1, h2, h3, h4, h5⟩
    · omega
    · refine ⟨writeArr_extends base h _ _ _ hp h1, Or.inr ⟨h1, ?_, h3, ?_, ?_⟩, ?_⟩
      · rw [writeArr_length]
        exact h2
      · show s.len + 1 ≤ s.cap
        omega
      · show ((writeArr h s.arr (s.off + s.len) [x]).getD s.arr []).length = s.cap
        rw [getD_writeArr_self h _ _ _ h2]
        simp only [List.length_append, List.length_take, List.length_drop, List.length_singleton]
        omega
      · show (((writeArr h s.arr (s.off + s.len) [x]).getD s.arr []).drop s.off).take (s.len + 1)
          = readSlice h s ++ [x]
        rw [getD_writeArr_self h _ _ _ h2, h3]
        simp only [readSlice, h3, List.drop_zero, Nat.zero_add, List.append_assoc]
        have hl : ((h.getD s.arr []).take s.len).length = s.len := by
          rw [List.length_take]
          omega
        rw [List.take_append_eq_append_take, hl]
        have e1 : List.take (s.len + 1) (List.take s.len (h.getD s.arr [])) =
            List.take s.len (h.getD s.arr []) :=
          List.take_of_length_le (by omega)
        rw [e1]
        simp
  · simp only [hlt, if_false]
    have hle : s.len ≤ s.cap := by
      rcases ho with ⟨h1, h2⟩ | ⟨_, _, _, h4, _⟩ <;> omega
    have hg := rt.growCap_gt s.cap
    have hget : (h ++ [readSlice h s ++ [x] ++
          List.replicate (rt.growCap s.cap - (s.len + 1)) default]).getD h.length [] =
        readSlice h s ++ [x] ++ List.replicate (rt.growCap s.cap - (s.len + 1)) default := by
      rw [List.getD_append_right _ _ _ _ (Nat.le_refl _)]
      simp
    refine ⟨hp.trans (List.prefix_append _ _), Or.inr ⟨?_, ?_, rfl, ?_, ?_⟩, ?_⟩
    · exact hp.length_le
    · simp
    · show s.len + 1 ≤ rt.growCap s.cap
      omega
    · show ((h ++ [readSlice h s ++ [x] ++
          List.replicate (rt.growCap s.cap - (s.len + 1)) default]).getD h.length []).length
          = rt.growCap s.cap
      rw [hget]
      simp only [List.length_append, List.length_singleton, List.length_replicate, hrl]
      omega
    · show (((h ++ [readSlice h s ++ [x] ++
          List.replicate (rt.growCap s.cap - (s.len + 1)) default]).getD h.length []).drop 0).take
          (s.len + 1) = readSlice h s ++ [x]
      rw [hget, List.drop_zero]
      have hl : (readSlice h s ++ [x]).length = s.len + 1 := by simp [hrl]
      rw [List.take_append_eq_append_take, hl, List.take_of_length_le (by omega)]
      simp

theorem filterLoopM_spec (rt : GoRuntime) (f : User → Bool) (base : Heap) (C : List User)
    (cloned : Slice) (hc1 : cloned.arr < base.length) (hc2 : cloned.off = 0)
    (hc3 : base.getD cloned.arr [] = C) :
    ∀ (n i : Nat) (h : Heap) (s : Slice), i + n = C.length → base <+: h →
      Owned base.length h s →
      base <+: (filterLoopM rt f cloned n i h s).1 ∧
      Owned base.length (filterLoopM rt f cloned n i h s).1 (filterLoopM rt f cloned n i h s).2 ∧
      readSlice (filterLoopM rt f cloned n i h s).1 (filterLoopM rt f cloned n i h s).2 =
        readSlice h s ++ (C.drop i).filter f := by
  intro n
  induction n with
  | zero =>
    intro i h s hi hp ho
    have : C.drop i = [] := List.drop_of_length_le (by omega)
    simp [filterLoopM, hp, ho, this]
  | succ n ih =>
    intro i h s hi hp ho
    have hil : i < C.length := by omega
    have hread : readAt h cloned i = C[i] := by
      unfold readAt
      rw [getD_of_extends base h hp _ hc1, hc3, hc2, Nat.zero_add,
        List.getD_eq_getElem?_getD, List.getElem?_eq_getElem hil]
      rfl
    have hdrop : C.drop i = C[i] :: C.drop (i + 1) := List.drop_eq_getElem_cons hil
    simp only [filterLoopM, hread]
    by_cases hf : f C[i] = true
    · simp only [hf, if_true]
      obtain ⟨a1, a2, a3⟩ := appendM_spec rt base h s C[i] hp ho
      obtain ⟨b1, b2, b3⟩ := ih (i + 1) _ _ (by omega) a1 a2
      refine ⟨b1, b2, ?_⟩
      rw [b3, a3, hdrop, List.filter_cons_of_pos hf]
      simp
    · have hf2 : f C[i] = false := by simpa using hf
      simp only [hf2, Bool.false_eq_true, if_false]
      obtain ⟨b1, b2, b3⟩ := ih (i + 1) h s (by omega) hp ho
      refine ⟨b1, b2, ?_⟩
      rw [b3, hdrop, List.filter_cons_of_neg hf]

theorem sortM_spec (rt : GoRuntime) (base h : Heap) (s : Slice) (less : User → User → Bool)
    (hp : base <+: h) (ho : Owned base.length h s) :
    base <+: sortM rt h s less ∧
      readSlice (sortM rt h s less) s = rt.sortSlice User less (readSlice h s) := by
  have hrl := readSlice_length_of_owned _ h s ho
  have hsl : (rt.sortSlice User less (readSlice h s)).length = s.len := by
    rw [sortSlice_length, hrl]
  unfold sortM
  rcases ho with ⟨h1, _⟩ | ⟨h1, h2, h3, h4, h5⟩
  · have hnil : rt.sortSlice User less (readSlice h s) = [] :=
      List.length_eq_zero.mp (by rw [hsl, h1])
    rw [hnil, writeArr_nil]
    exact ⟨hp, by simp [readSlice, h1]⟩
  · refine ⟨writeArr_extends base h _ _ _ hp h1, ?_⟩
    show (((writeArr h s.arr s.off (rt.sortSlice User less (readSlice h s))).getD s.arr []).drop
      s.off).take s.len = rt.sortSlice User less (readSlice h s)
    rw [getD_writeArr_self h _ _ _ h2, h3]
    simp only [List.take_zero, List.nil_append, List.drop_zero]
    rw [List.take_append_eq_append_take, hsl, List.take_of_length_le (by omega)]
    simp

theorem trimM_spec (h : Heap) (s : Slice) (amount : Int)
    (hl : (readSlice h s).length = s.len) (hc : s.len ≤ s.cap) :
    (trimM s amount).map (readSlice h) = trim (readSlice h s) amount := by
  unfold trimM trim sliceTo
  simp only [hl]
  generalize hn : (if (s.len : Int) < (if amount = 0 then 256 else amount) then (s.len : Int)
      else (if amount = 0 then 256 else amount)) = n
  have hle : n ≤ (s.len : Int) := by
    rw [← hn]
    split <;> omega
  by_cases h0 : 0 ≤ n
  · have c1 : 0 ≤ n ∧ n ≤ (s.cap : Int) := ⟨h0, by omega⟩
    have c2 : 0 ≤ n ∧ n ≤ (s.len : Int) := ⟨h0, hle⟩
    simp only [c1, c2, and_self, if_true, Option.map_some']
    congr 1
    show ((h.getD s.arr []).drop s.off).take n.toNat =
      (((h.getD s.arr []).drop s.off).take s.len).take n.toNat
    rw [List.take_take, Nat.min_eq_left (by omega)]
  · have c1 : ¬ (0 ≤ n ∧ n ≤ (s.cap : Int)) := fun c => h0 c.1
    have c2 : ¬ (0 ≤ n ∧ n ≤ (s.len : Int)) := fun c => h0 c.1
    simp only [c1, c2, if_false, Option.map_none']

theorem TopByM_spec (rt : GoRuntime) (h : Heap) (users : Slice)
    (selector : ContributionsSelector) (userFilter : Filter) (amount : Int)
    (hv : ValidSlice h users) :
    h <+: (TopByM rt h users selector userFilter amount).1 ∧
      (TopByM rt h users selector userFilter amount).2.map
          (readSlice (TopByM rt h users selector userFilter amount).1) =
        TopBy rt (readSlice h users) selector userFilter amount := by
  have hlen := readSlice_length_of_valid h users hv
  have hbase : h <+: h ++ [readSlice h users] := List.prefix_append _ _
  have hgetC : (h ++ [readSlice h users]).getD h.length [] = readSlice h users := by
    rw [List.getD_append_right _ _ _ _ (Nat.le_refl _)]
    simp
  unfold TopByM
  rw [cloneM_eq h users hv, TopBy_eq]
  cases userFilter with
  | none =>
    have ho : Owned h.length (h ++ [readSlice h users])
        ⟨h.length, 0, users.len, users.len⟩ :=
      Or.inr ⟨Nat.le_refl _, by simp, rfl, Nat.le_refl _, by rw [hgetC, hlen]⟩
    have hr : readSlice (h ++ [readSlice h users]) ⟨h.length, 0, users.len, users.len⟩ =
        readSlice h users := by
      show (((h ++ [readSlice h users]).getD h.length []).drop 0).take users.len = _
      rw [hgetC, List.drop_zero, List.take_of_length_le (by omega)]
    obtain ⟨s1, s2⟩ := sortM_spec rt h _ _
      (fun a b => decide (selector a > selector b)) hbase ho
    refine ⟨s1, ?_⟩
    simp only [retained]
    rw [trimM_spec _ _ amount (by rw [s2, sortSlice_length, hr, hlen]) (Nat.le_refl _), s2, hr]
  | some g =>
    have hnil : Owned (h ++ [readSlice h users]).length (h ++ [readSlice h users]) nilSlice :=
      Or.inl ⟨rfl, rfl⟩
    obtain ⟨f1, f2, f3⟩ := filterLoopM_spec rt g (h ++ [readSlice h users]) (readSlice h users)
      ⟨h.length, 0, users.len, users.len⟩ (by simp) rfl hgetC users.len 0
      (h ++ [readSlice h users]) nilSlice (by simp [hlen]) (List.prefix_refl _) hnil
    have f2' := owned_mono _ h.length _ _ (by simp) f2
    have hread0 : readSlice (h ++ [readSlice h users]) nilSlice = [] := by
      simp [readSlice, nilSlice]
    rw [hread0, List.drop_zero, List.nil_append] at f3
    obtain ⟨s1, s2⟩ := sortM_spec rt h _ _
      (fun a b => decide (selector a > selector b)) (hbase.trans f1) f2'
    refine ⟨s1, ?_⟩
    simp only [retained]
    have hcap : ∀ (hh : Heap) (s : Slice), Owned h.length hh s → s.len ≤ s.cap := by
      intro hh s ho
      rcases ho with ⟨a, b⟩ | ⟨_, _, _, d, _⟩ <;> omega
    rw [trimM_spec _ _ amount
      (by rw [s2, sortSlice_length]; exact readSlice_length_of_owned _ _ _ f2')
      (hcap _ _ f2'), s2, f3]

/-! ## Ranking engine: the caller's collection -/

/-- C6: `TopBy` called on a slice of a memory of backing arrays leaves every
array that existed before the call as it was (the memory after the call is the
memory before it followed by newly allocated arrays), so the caller's slice shows
the same records in the same order; the returned slice shows what the
list-level `TopBy` computes from the caller's records. -/
theorem TopByM_preserves_caller (rt : GoRuntime) (h : Heap) (users : Slice)
    (selector : ContributionsSelector) (userFilter : Filter) (amount : Int)
    (hv : ValidSlice h users) :
    (∃ fresh, (TopByM rt h users selector userFilter amount).1 = h ++ fresh) ∧
    readSlice (TopByM rt h users selector userFilter amount).1 users = readSlice h users ∧
    (TopByM rt h users selector userFilter amount).2.map
        (readSlice (TopByM rt h users selector userFilter amount).1) =
      TopBy rt (readSlice h users) selector userFilter amount := by
  obtain ⟨hp, hr⟩ := TopByM_spec rt h users selector userFilter amount hv
  refine ⟨?_, readSlice_of_extends h _ hp users hv.1, hr⟩
  obtain ⟨t, ht⟩ := hp
  exact ⟨t, ht.symm⟩

/-- The memory model does tell a mutation: sorting the caller's slice in place,
without `clone`, changes the order the caller sees. -/
theorem sortM_in_place_changes_caller :
    readSlice (sortM refRuntime sampleHeap sampleSlice
        (fun a b => decide (a.ContributionCount > b.ContributionCount))) sampleSlice
      = [userB, userA, userC] ∧
    readSlice sampleHeap sampleSlice = [userA, userB, userC] := by
  decide


/-- A filtered call on the sample memory: the clone and the arrays grown by
`append` are added after the caller's array, which is left as it was. -/
theorem TopByM_filter_example :
    TopByM refRuntime sampleHeap sampleSlice (fun u => u.ContributionCount)
        (some (fun u => decide (u.ContributionCount < 60))) 0 =
      ([[userA, userB, userC], [userA, userB, userC], [userA], [userA, userC, default]],
        some ⟨3, 0, 2, 3⟩) := by
  decide

/-! ## Organization aggregator: further facts -/

theorem not_isHandle_of_find_nil (s : String) (h : companyLoginFindStringSubmatch s = []) :
    ¬ ∃ x, IsHandle s x := by
  rintro ⟨x, hx⟩
  rw [find_of_isHandle hx] at h
  simp at h

theorem talliedOrgs_of_not_isHandle (user : User)
    (hs : ¬ ∃ h, IsHandle (stringsTrim user.Company " ") h) :
    talliedOrgs user = user.Organizations := by
  simp [talliedOrgs, userOrgsOf_of_not_isHandle user hs]

theorem not_isHandle_of_company_empty (user : User) (hc : user.Company = "") :
    ¬ ∃ h, IsHandle (stringsTrim user.Company " ") h := by
  rw [hc]
  exact not_isHandle_of_find_nil _ (by decide)

theorem inferredLogin_of_not_isHandle (user : User)
    (hs : ¬ ∃ h, IsHandle (stringsTrim user.Company " ") h) : inferredLogin user = none := by
  simp [inferredLogin, find_eq_nil_of_not_isHandle _ hs]

theorem rankedOrgs_names_nodup (rt : GoRuntime) (slice : List User) :
    ((rankedOrgs rt slice).map (fun o => o.Name)).Nodup := by
  have hn : (mapKeys (orgsMapOf rt slice)).Nodup :=
    nodup_mapKeys_tallyLoop rt _ [] (by simp [mapKeys])
  have hp := (rankedOrgs_perm rt slice).map (fun o => o.Name)
  rw [List.map_map] at hp
  exact hp.nodup_iff.mpr (by simpa [mapKeys, Function.comp_def] using hn)

theorem mem_rankedOrgs_of_tallied (rt : GoRuntime) (slice : List User) (u : User)
    (hu : u ∈ slice) (a : String) (ha : a ∈ talliedOrgs u) :
    ∃ e ∈ rankedOrgs rt slice, e.Name = stringsToLower rt a := by
  have hk : stringsToLower rt a ∈ mapKeys (orgsMapOf rt slice) := by
    rw [(mapKeys_orgsMapOf_perm rt slice).mem_iff, List.mem_dedup]
    simp only [normalizedIds, List.map_flatten, List.mem_flatten, List.mem_map]
    exact ⟨_, ⟨_, ⟨u, hu, rfl⟩, rfl⟩, List.mem_map.mpr ⟨a, ha, rfl⟩⟩
  obtain ⟨kv, hkv, hkn⟩ := List.mem_map.mp hk
  exact ⟨⟨kv.1, kv.2⟩, (mem_rankedOrgs rt slice _).mpr hkv, hkn⟩

theorem take_eq_self_of_le {α : Type} (l : List α) (count : Int)
    (h : (l.length : Int) ≤ count) : l.take count.toNat = l := by
  apply List.take_of_length_le
  omega

/-- A sort by a descending integer key has one possible result when the keys
are pairwise distinct. -/
theorem sortSlice_eq_of_strictly_sorted (rt : GoRuntime) {α : Type} (key : α → Int)
    (l target : List α) (hp : target.Perm l)
    (hs : target.Pairwise (fun a b => key a > key b)) :
    rt.sortSlice α (fun a b => decide (key a > key b)) l = target := by
  have h1 := sortSlice_key_sorted rt key l
  have h2 : (rt.sortSlice α (fun a b => decide (key a > key b)) l).Perm target :=
    (rt.sortSlice_perm α _ l).trans hp.symm
  have hne : target.Pairwise (fun a b => key a ≠ key b) := hs.imp (fun h => by omega)
  have hne2 : (rt.sortSlice α (fun a b => decide (key a > key b)) l).Pairwise
      (fun a b => key a ≠ key b) :=
    (h2.pairwise_iff (fun {a b} (h : key a ≠ key b) => h.symm)).mpr hne
  have h3 : (rt.sortSlice α (fun a b => decide (key a > key b)) l).Pairwise
      (fun a b => key a > key b) :=
    (h1.and hne2).imp (fun h => by omega)
  haveI : IsAntisymm α (fun a b => key a > key b) := ⟨fun a b hab hba => by omega⟩
  exact List.eq_of_perm_of_sorted h2 h3 hs

theorem dropWhile_space_replicate (n : Nat) (l : List Char) :
    (List.replicate n ' ' ++ l).dropWhile (fun c => " ".data.contains c) =
      l.dropWhile (fun c => " ".data.contains c) := by
  induction n with
  | zero => simp
  | succ n ih =>
    rw [List.replicate_succ, List.cons_append, List.dropWhile_cons]
    have : (" ".data.contains ' ') = true := by decide
    simp only [this, if_true]
    exact ih

/-- Removing the surrounding spaces of a handle padded with spaces gives the
handle text back. -/
theorem stringsTrim_padded (a b : Nat) (s h : String) (hs : IsHandle s h) :
    stringsTrim (String.mk (List.replicate a ' ' ++ s.data ++ List.replicate b ' ')) " " = s := by
  have hself := stringsTrim_of_isHandle hs
  have hat : (" ".data.contains '@') = false := by decide
  have hfront : (s.data.dropWhile (fun c => " ".data.contains c)) = s.data := by
    rw [hs.1, List.dropWhile_cons, hat]
    simp
  unfold stringsTrim at hself ⊢
  rw [hfront] at hself
  show String.mk (((List.replicate a ' ' ++ s.data ++ List.replicate b ' ').dropWhile
    (fun c => " ".data.contains c)).reverse.dropWhile (fun c => " ".data.contains c)).reverse = s
  rw [List.append_assoc, dropWhile_space_replicate]
  have hfront2 : (s.data ++ List.replicate b ' ').dropWhile (fun c => " ".data.contains c) =
      s.data ++ List.replicate b ' ' := by
    rw [hs.1, List.cons_append, List.dropWhile_cons, hat]
    simp
  rw [hfront2, List.reverse_append, List.reverse_replicate, dropWhile_space_replicate]
  exact hself


theorem TopOrgs_of_orgsMap_singleton (rt : GoRuntime) (slice : List User) (k : String) (v : Int)
    (count : Int) (hm : orgsMapOf rt slice = [(k, v)]) (hc : 1 ≤ count) :
    TopOrgs rt slice count = some [⟨k, v⟩] := by
  have hr : rankedOrgs rt slice = [⟨k, v⟩] := by
    have hp := rankedOrgs_perm rt slice
    rw [hm] at hp
    exact List.perm_singleton.mp hp
  rw [TopOrgs_eq, hr]
  have : ¬ ((1 : Int) > count) := by omega
  simp [this]

theorem TopOrgs_of_no_tallied (rt : GoRuntime) (slice : List User) (count : Int)
    (hc : 0 ≤ count) (hs : ∀ u ∈ slice, talliedOrgs u = []) :
    TopOrgs rt slice count = some [] := by
  have hn : normalizedIds rt slice = [] := by
    simp only [normalizedIds, List.map_eq_nil_iff, List.flatten_eq_nil_iff, List.mem_map]
    rintro l ⟨u, hu, rfl⟩
    exact hs u hu
  have h0 : rankedOrgs rt slice = [] :=
    List.length_eq_zero.mp (by rw [rankedOrgs_length, hn]; rfl)
  rw [TopOrgs_of_nonneg rt slice count hc, h0]
  simp

/-! ## Organization aggregator: properties, continued -/

/-- C11: in a population whose users all have an empty company and declare
exactly one organization, the tallies have pairwise distinct names, the
memberCount of a tally is the number of users whose declared name has the
tally's name as its lowercase form, and (when `count` does not truncate) every
declared name falls into the tally named by its lowercase form. -/
theorem TopOrgs_single_declared (rt : GoRuntime) (slice : List User) (count : Int)
    (hc : 0 ≤ count)
    (hs : ∀ u ∈ slice, u.Company = "" ∧ ∃ o, u.Organizations = [o]) :
    ∃ orgs, TopOrgs rt slice count = some orgs ∧
      (orgs.map (fun e => e.Name)).Nodup ∧
      (∀ e ∈ orgs, e.MemberCount =
        ((slice.filter (fun u =>
          u.Organizations.any (fun o => decide (stringsToLower rt o = e.Name)))).length : Int)) ∧
      (((normalizedIds rt slice).dedup.length : Int) ≤ count →
        ∀ u ∈ slice, ∀ o ∈ u.Organizations, ∃ e ∈ orgs, e.Name = stringsToLower rt o) := by
  have hnh : ∀ u ∈ slice, ¬ ∃ h, IsHandle (stringsTrim u.Company " ") h :=
    fun u hu => not_isHandle_of_company_empty u (hs u hu).1
  have hd : ∀ u ∈ slice, ((talliedOrgs u).map (stringsToLower rt)).Nodup := by
    intro u hu
    obtain ⟨o, ho⟩ := (hs u hu).2
    rw [talliedOrgs_of_not_isHandle u (hnh u hu), ho]
    simp
  refine ⟨_, TopOrgs_of_nonneg rt slice count hc, ?_, ?_, ?_⟩
  · exact ((rankedOrgs_names_nodup rt slice).sublist
      ((List.take_sublist count.toNat (rankedOrgs rt slice)).map _))
  · intro e he
    rw [memberCount_of_mem_rankedOrgs rt slice e (List.mem_of_mem_take he),
      count_normalizedIds_of_nodup rt slice e.Name hd]
    congr 2
    apply List.filter_congr
    intro u hu
    simp [affiliatedWith, inferredLogin_of_not_isHandle u (hnh u hu)]
  · intro hlen u hu o ho
    rw [take_eq_self_of_le _ _ (by rw [rankedOrgs_length]; exact hlen)]
    exact mem_rankedOrgs_of_tallied rt slice u hu o
      (by rw [talliedOrgs_of_not_isHandle u (hnh u hu)]; exact ho)

/-- C12: for the population `[A, B, C]` of the scenario, `TopBy` by
ContributionCount with no filter and limit `2` returns `[B, A]`, and `TopOrgs(10)`
over that view returns exactly `[{"foo", 2}]`, whatever the sort and the map
iteration order do with ties. -/
theorem scenario_TopBy_TopOrgs (rt : GoRuntime) :
    TopBy rt [userA, userB, userC] (fun u => u.ContributionCount) none 2
        = some [userB, userA] ∧
      TopOrgs rt [userB, userA] 10 = some [⟨"foo", 2⟩] := by
  constructor
  · rw [TopBy_of_nonneg rt _ _ _ 2 (by decide)]
    have hsort : rt.sortSlice User
        (fun a b => decide (a.ContributionCount > b.ContributionCount))
        (retained [userA, userB, userC] none) = [userB, userA, userC] :=
      sortSlice_eq_of_strictly_sorted rt (fun u => u.ContributionCount) _ _
        (List.Perm.swap userA userB [userC]) (by decide)
    rw [hsort]
    rfl
  · have hl : stringsToLower rt "Foo" = "foo" := by
      rw [stringsToLower_ascii rt "Foo" (by decide), String.toLower, String.map_eq]
      decide
    have hB : talliedOrgs userB = ["Foo"] := by decide
    have hA : talliedOrgs userA = ["Foo"] := by decide
    apply TopOrgs_of_orgsMap_singleton rt _ _ _ _ _ (by decide)
    unfold orgsMapOf
    rw [List.map_cons, List.map_cons, hA, hB]
    simp [tallyLoop, mapSet, mapGet, hl]

/-- C13 (as stated, refuted): only spaces are removed around the company text.
The company `"\t@Acme\n"` is left as it is, does not match the pattern, and a
single user with that company and no declared organization yields no tally. -/
theorem TopOrgs_tab_company_not_inferred :
    stringsTrim "\t@Acme\n" " " = "\t@Acme\n" ∧
    userOrgsOf userTabCompany = some [] ∧
    TopOrgs refRuntime [userTabCompany] 10 = some [] := by
  decide

/-- C13 (amended): for every company string that is `"@"` followed by one or
more ASCII letters or digits `h`, with any number of space characters before and
after it, `TopOrgs` infers `h` as an organization login of the user (it is
added to the declared organizations unless a string-identical one is declared);
a single user with such a company and no declared organization yields the one
tally named by the lowercase form of `h`, with memberCount `1`. -/
theorem TopOrgs_space_padded_company (rt : GoRuntime) (user : User) (h : String)
    (a b : Nat) (count : Int)
    (hne : h.data ≠ []) (hal : ∀ c ∈ h.data, c.isAlphanum = true)
    (hco : user.Company =
      String.mk (List.replicate a ' ' ++ ('@' :: h.data) ++ List.replicate b ' ')) :
    userOrgsOf user =
        some (if h ∈ user.Organizations then user.Organizations
              else user.Organizations ++ [h]) ∧
      (user.Organizations = [] → 1 ≤ count →
        TopOrgs rt [user] count = some [⟨h.toLower, 1⟩]) := by
  have hh0 : IsHandle ("@" ++ h) h := isHandle_at_append hne hal
  have hd : ("@" ++ h).data = '@' :: h.data := by
    rw [String.data_append]
    rfl
  have hh : IsHandle (stringsTrim user.Company " ") h := by
    rw [hco, ← hd, stringsTrim_padded a b _ h hh0]
    exact hh0
  have hu := userOrgsOf_of_isHandle user h hh
  refine ⟨hu, ?_⟩
  intro hor hc
  have ht : talliedOrgs user = [h] := by simp [talliedOrgs, hu, hor]
  have hl : stringsToLower rt h = h.toLower :=
    stringsToLower_ascii rt h
      (fun c hc => isAlnum_val_lt c (by rw [isAlnum_eq]; exact hal c hc))
  apply TopOrgs_of_orgsMap_singleton rt _ _ _ _ _ hc
  simp [orgsMapOf, ht, tallyLoop, mapSet, mapGet, hl]

/-- C14: for `count ≥ 0`, `TopOrgs` returns on every population; for a user
whose space-trimmed company does not have the `@handle` shape nothing is
inferred, the affiliations tallied being exactly the declared organizations; and
a population in which every user has such a company and declares no
organization yields the empty sequence. -/
theorem TopOrgs_total_and_lenient (rt : GoRuntime) (slice : List User) (count : Int)
    (hc : 0 ≤ count) :
    (∃ orgs, TopOrgs rt slice count = some orgs) ∧
    (∀ u : User, (¬ ∃ h, IsHandle (stringsTrim u.Company " ") h) →
      userOrgsOf u = some u.Organizations) ∧
    ((∀ u ∈ slice, (¬ ∃ h, IsHandle (stringsTrim u.Company " ") h) ∧ u.Organizations = []) →
      TopOrgs rt slice count = some []) := by
  refine ⟨⟨_, TopOrgs_of_nonneg rt slice count hc⟩, ?_, ?_⟩
  · intro u hu
    exact userOrgsOf_of_not_isHandle u hu
  · intro hs
    apply TopOrgs_of_no_tallied rt slice count hc
    intro u hu
    rw [talliedOrgs_of_not_isHandle u (hs u hu).1]
    exact (hs u hu).2


/-! ## Output renderers: auxiliary facts -/

theorem Fprint_eq (w : Sink) (t : String) : Fprint w t = ⟨w.calls ++ [t], w.answer⟩ := rfl

theorem numbered_eq {α : Type} (f : Int → α → String) (l : List α) :
    numbered f l = (l.enumFrom 0).map (fun p => f ((p.1 : Int) + 1) p.2) := rfl

theorem plainUsersLoop_eq (l : List User) (i : Nat) (w : Sink) :
    plainUsersLoop l i w =
      ⟨w.calls ++ (l.enumFrom i).map (fun p => plainUserLine ((p.1 : Int) + 1) p.2),
        w.answer⟩ := by
  induction l generalizing i w with
  | nil => simp [plainUsersLoop]
  | cons u rest ih => simp [plainUsersLoop, ih, Fprint_eq, List.enumFrom_cons]

theorem plainOrgsLoop_eq (l : List Organization) (i : Nat) (w : Sink) :
    plainOrgsLoop l i w =
      ⟨w.calls ++ (l.enumFrom i).map (fun p => plainOrgLine ((p.1 : Int) + 1) p.2),
        w.answer⟩ := by
  induction l generalizing i w with
  | nil => simp [plainOrgsLoop]
  | cons u rest ih => simp [plainOrgsLoop, ih, Fprint_eq, List.enumFrom_cons]

theorem outputUsers_eq (rt : GoRuntime) (cs : ContributionsSelector) (l : List User) (i : Nat)
    (w : Sink) :
    outputUsers rt cs l i w =
      ⟨w.calls ++ (l.enumFrom i).map (fun p => yamlUserEntry rt ((p.1 : Int) + 1) p.2 (cs p.2)),
        w.answer⟩ := by
  induction l generalizing i w with
  | nil => simp [outputUsers]
  | cons u rest ih => simp [outputUsers, ih, Fprint_eq, List.enumFrom_cons]

theorem outputOrganizations_eq (rt : GoRuntime) (l : List Organization) (i : Nat) (w : Sink) :
    outputOrganizations rt l i w =
      ⟨w.calls ++ (l.enumFrom i).map (fun p => yamlOrgEntry rt ((p.1 : Int) + 1) p.2),
        w.answer⟩ := by
  induction l generalizing i w with
  | nil => simp [outputOrganizations]
  | cons u rest ih => simp [outputOrganizations, ih, Fprint_eq, List.enumFrom_cons]

/-- What `PlainOutput` does on every input: it writes the two headers, one line
per record of the input in input order, and one line per entry of `TopOrgs(10)`
of the whole input; the answers of the sink are not looked at and the returned
error is nil. -/
theorem PlainOutput_eq (rt : GoRuntime) (results : GithubSearchResults) (writer : Sink)
    (options : Options) :
    PlainOutput rt results writer options =
      some (⟨writer.calls ++ (["USERS\n--------\n"] ++ numbered plainUserLine results.Users ++
          ["\nORGANIZATIONS\n--------\n"] ++
          numbered plainOrgLine ((rankedOrgs rt results.Users).take 10)), writer.answer⟩,
        none) := by
  have ht := TopOrgs_of_nonneg rt results.Users 10 (by decide)
  have h10 : (10 : Int).toNat = 10 := rfl
  rw [h10] at ht
  simp [PlainOutput, ht, plainUsersLoop_eq, plainOrgsLoop_eq, Fprint_eq, numbered_eq]

theorem csvRowsLoop_eq_of_no_error (rt : GoRuntime) (l : List User) (i : Nat) (w : CsvWriter)
    (hok : ∀ recs r, rt.csvWriteError w.w recs r = none) :
    csvRowsLoop rt l i w =
      (⟨w.w, w.records ++ (l.enumFrom i).map (fun p => csvRow ((p.1 : Int) + 1) p.2),
        w.flushed⟩, none) := by
  induction l generalizing i w with
  | nil => simp [csvRowsLoop]
  | cons u rest ih =>
    simp only [csvRowsLoop, CsvWriter.Write, hok]
    refine (ih (i + 1) _ ?_).trans ?_
    · exact hok
    · simp [List.enumFrom_cons, csvRow]

/-- What `CsvOutput` does when no `Write` of the `csv.Writer` fails: it writes the
header row and one row per record of the input, in input order, and flushes. -/
theorem CsvOutput_eq_of_no_error (rt : GoRuntime) (results : GithubSearchResults)
    (writer : Sink) (options : Options)
    (hok : ∀ recs r, rt.csvWriteError writer recs r = none) :
    CsvOutput rt results writer options =
      (⟨writer, csvHeader :: (results.Users.enum.map (fun p => csvRow ((p.1 : Int) + 1) p.2)),
        true⟩, none) := by
  simp only [CsvOutput, csvNewWriter, CsvWriter.Write, hok]
  rw [csvRowsLoop_eq_of_no_error rt _ _ _ hok]
  simp [CsvWriter.Flush, csvHeader, List.enum]

/-- The one write result the renderers look at: when the `Write` of the header row
fails, `CsvOutput` returns that error at once, writes no data row and does not
flush. -/
theorem CsvOutput_of_header_error (rt : GoRuntime) (results : GithubSearchResults)
    (writer : Sink) (options : Options) (e : GoError)
    (h : rt.csvWriteError writer [] csvHeader = some e) :
    CsvOutput rt results writer options = (⟨writer, [csvHeader], false⟩, some e) := by
  have h2 : rt.csvWriteError writer []
      ["rank", "name", "login", "contributions", "company", "organizations"] = some e := h
  simp [CsvOutput, csvNewWriter, CsvWriter.Write, h2, csvHeader]

/-- What `YamlOutput` does once its three rankings and their organization
rankings are known. -/
theorem YamlOutput_eq_of (rt : GoRuntime) (results : GithubSearchResults) (writer : Sink)
    (options : Options) (c p t : List User) (oc op ot : List Organization)
    (hc : TopBy rt results.Users (fun u => u.CommitsCount) none options.Amount = some c)
    (hp : TopBy rt results.Users (fun u => u.PublicContributionCount) none options.Amount
      = some p)
    (ht : TopBy rt results.Users (fun u => u.ContributionCount) none options.Amount = some t)
    (hoc : TopOrgs rt c 10 = some oc) (hop : TopOrgs (rt.afterRanges 1) p 10 = some op)
    (hot : TopOrgs (rt.afterRanges 2) t 10 = some ot) :
    YamlOutput rt results writer options =
      some (⟨writer.calls ++ (yamlUserSections rt c p t ++ yamlOrgSections rt oc op ot ++
          yamlProvenance rt results ++
          presetLines options.PresetTitle options.PresetChecksum), writer.answer⟩, none) := by
  by_cases hpre : options.PresetTitle ≠ "" ∧ options.PresetChecksum ≠ ""
  · simp [YamlOutput, hc, hp, ht, hoc, hop, hot, outputUsers_eq, outputOrganizations_eq,
      Fprint_eq, numbered_eq, yamlUserSections, yamlOrgSections, yamlProvenance, presetLines,
      hpre]
  · simp [YamlOutput, hc, hp, ht, hoc, hop, hot, outputUsers_eq, outputOrganizations_eq,
      Fprint_eq, numbered_eq, yamlUserSections, yamlOrgSections, yamlProvenance, presetLines,
      hpre]

theorem length_numbered {α : Type} (f : Int → α → String) (l : List α) :
    (numbered f l).length = l.length := by
  simp [numbered]

theorem length_yamlUserSections (rt : GoRuntime) (c p t : List User) :
    (yamlUserSections rt c p t).length = 3 + c.length + p.length + t.length := by
  simp only [yamlUserSections, List.length_append, length_numbered, List.length_cons,
    List.length_nil]
  omega

theorem length_yamlOrgSections (rt : GoRuntime) (oc op ot : List Organization) :
    (yamlOrgSections rt oc op ot).length = 3 + oc.length + op.length + ot.length := by
  simp only [yamlOrgSections, List.length_append, length_numbered, List.length_cons,
    List.length_nil]
  omega

theorem numbered_getElem? {α : Type} (f : Int → α → String) (l : List α) (i : Nat)
    (hi : i < l.length) :
    (numbered f l)[i]? = some (f ((i : Int) + 1) l[i]) := by
  rw [numbered_eq, List.getElem?_map, List.getElem?_enumFrom, List.getElem?_eq_getElem hi]
  simp

theorem TopBy_none_of_neg (rt : GoRuntime) (users : List User) (selector : ContributionsSelector)
    (userFilter : Filter) (amount : Int) (h : amount < 0) :
    TopBy rt users selector userFilter amount = none := by
  rw [TopBy_eq]
  unfold trim sliceTo
  have h0 : amount ≠ 0 := by omega
  simp only [h0, if_false]
  split
  · omega
  · simp only [ite_eq_right_iff]
    intro hc
    omega

/-- A negative amount makes the first `TopBy` call of `YamlOutput` panic, before
anything is written. -/
theorem YamlOutput_none_of_neg (rt : GoRuntime) (results : GithubSearchResults)
    (writer : Sink) (options : Options) (h : options.Amount < 0) :
    YamlOutput rt results writer options = none := by
  simp [YamlOutput, TopBy_none_of_neg rt _ _ none _ h]

/-! ## Output renderers: properties -/

/-- C15: on the users `A` (50 contributions), `B` (80), `C` (10) with amount `2`,
`PlainOutput` writes a line for each of `A`, `B`, `C`, in the order of the
input, whereas the ranking by total contribution count with limit `2` is
`[B, A]`. -/
theorem PlainOutput_writes_input_unranked :
    (PlainOutput refRuntime sampleResults okSink sampleOptions).map (fun r => r.1.calls) =
      some ["USERS\n--------\n", plainUserLine 1 userA, plainUserLine 2 userB,
        plainUserLine 3 userC, "\nORGANIZATIONS\n--------\n", plainOrgLine 1 ⟨"foo", 2⟩] ∧
    TopBy refRuntime sampleResults.Users (fun u => u.ContributionCount) none
      sampleOptions.Amount = some [userB, userA] := by
  decide

/-- C16: on the users `A` (50 contributions), `B` (80), `C` (10) with amount `2`,
`CsvOutput` writes the header row and then three data rows, for `A`, `B`, `C` in
the order of the input, whereas the ranking by total contribution count with
limit `2` is `[B, A]`. -/
theorem CsvOutput_writes_input_unranked :
    (CsvOutput refRuntime sampleResults okSink sampleOptions).1.records =
      [["rank", "name", "login", "contributions", "company", "organizations"],
        ["1", "", "A", "50", "@Foo", ""], ["2", "", "B", "80", "", "Foo"],
        ["3", "", "C", "10", "", ""]] ∧
    (CsvOutput refRuntime sampleResults okSink sampleOptions).2 = none ∧
    TopBy refRuntime sampleResults.Users (fun u => u.ContributionCount) none
      sampleOptions.Amount = some [userB, userA] := by
  decide

/-- C17: with a sink that fails every write, `PlainOutput` still makes all of its
six `Write` calls on the scenario and returns a nil error, `YamlOutput` makes
all of its eighteen and returns a nil error, and `CsvOutput`, whose records stay
in the buffer of the `csv.Writer` until `Flush`, returns a nil error too. -/
theorem renderers_return_nil_on_failing_sink :
    failingSink.answer [] "USERS\n--------\n" = some "write failed" ∧
    (PlainOutput refRuntime sampleResults failingSink sampleOptions).map
      (fun r => (r.1.calls.length, r.2)) = some (6, none) ∧
    (YamlOutput refRuntime sampleResults failingSink sampleOptions).map
      (fun r => (r.1.calls.length, r.2)) = some (18, none) ∧
    (CsvOutput refRuntime sampleResults failingSink sampleOptions).2 = none := by
  decide

/-- C18: for every input and every amount `≥ 0`, the entries `YamlOutput` writes
under `organizations` are the entries of `TopOrgs(10)` of the view by
CommitsCount, in order, each showing its rank from `1`, its quoted name and its
memberCount; those under `public_contributions_organizations` are in the same
way the entries of `TopOrgs(10)` of the view by PublicContributionCount, and those
under `private_organizations` the entries of `TopOrgs(10)` of the view by
ContributionCount.  Each tally is computed from the members of its own view, in
a `range` loop of its own over its own map.  The writes of the three user
sections come before, the provenance and preset lines after. -/
theorem YamlOutput_org_sections (rt : GoRuntime) (results : GithubSearchResults)
    (writer : Sink) (options : Options) (h : 0 ≤ options.Amount) :
    ∃ c p t oc op ot,
      TopBy rt results.Users (fun u => u.CommitsCount) none options.Amount = some c ∧
      TopBy rt results.Users (fun u => u.PublicContributionCount) none options.Amount
        = some p ∧
      TopBy rt results.Users (fun u => u.ContributionCount) none options.Amount = some t ∧
      TopOrgs rt c 10 = some oc ∧ TopOrgs (rt.afterRanges 1) p 10 = some op ∧
      TopOrgs (rt.afterRanges 2) t 10 = some ot ∧
      ∃ out before, YamlOutput rt results writer options = some (out, none) ∧
        before.length = 3 + c.length + p.length + t.length ∧
        out.calls = writer.calls ++ before ++
          (["\norganizations:\n"] ++
            oc.enum.map (fun e =>
              "\n  - rank: " ++ toString ((e.1 : Int) + 1) ++
              "\n    name: " ++ rt.quoteToASCII e.2.Name ++
              "\n    membercount: " ++ toString e.2.MemberCount ++ "\n") ++
            ["\npublic_contributions_organizations:\n"] ++
            op.enum.map (fun e =>
              "\n  - rank: " ++ toString ((e.1 : Int) + 1) ++
              "\n    name: " ++ rt.quoteToASCII e.2.Name ++
              "\n    membercount: " ++ toString e.2.MemberCount ++ "\n") ++
            ["\nprivate_organizations:\n"] ++
            ot.enum.map (fun e =>
              "\n  - rank: " ++ toString ((e.1 : Int) + 1) ++
              "\n    name: " ++ rt.quoteToASCII e.2.Name ++
              "\n    membercount: " ++ toString e.2.MemberCount ++ "\n")) ++
          yamlProvenance rt results ++
          presetLines options.PresetTitle options.PresetChecksum := by
  obtain ⟨c, hc⟩ : ∃ c, TopBy rt results.Users (fun u => u.CommitsCount) none
      options.Amount = some c := ⟨_, TopBy_of_nonneg rt _ _ none _ h⟩
  obtain ⟨p, hp⟩ : ∃ p, TopBy rt results.Users (fun u => u.PublicContributionCount) none
      options.Amount = some p := ⟨_, TopBy_of_nonneg rt _ _ none _ h⟩
  obtain ⟨t, ht⟩ : ∃ t, TopBy rt results.Users (fun u => u.ContributionCount) none
      options.Amount = some t := ⟨_, TopBy_of_nonneg rt _ _ none _ h⟩
  have hoc := TopOrgs_of_nonneg rt c 10 (by decide)
  have hop := TopOrgs_of_nonneg (rt.afterRanges 1) p 10 (by decide)
  have hot := TopOrgs_of_nonneg (rt.afterRanges 2) t 10 (by decide)
  have hy := YamlOutput_eq_of rt results writer options _ _ _ _ _ _ hc hp ht hoc hop hot
  refine ⟨_, _, _, _, _, _, hc, hp, ht, hoc, hop, hot, _, yamlUserSections rt c p t, hy,
    length_yamlUserSections rt c p t, ?_⟩
  simp only [yamlOrgSections, List.append_assoc]
  rfl

/-- C19: for every input and every amount `≥ 0`, `YamlOutput` writes under
`users`, `users_public_contributions` and `private_users` the rankings of the
whole input by CommitsCount, PublicContributionCount and ContributionCount, each
the result of its own `TopBy` call with nil filter and limit amount; the entry
written for the record at position `i` (from `0`) of a ranking shows the rank
`i + 1` and, as `contributions`, the value of the metric its own section is
ranked by. -/
theorem YamlOutput_user_sections (rt : GoRuntime) (results : GithubSearchResults)
    (writer : Sink) (options : Options) (h : 0 ≤ options.Amount) :
    ∃ vc vp vt,
      TopBy rt results.Users (fun u => u.CommitsCount) none options.Amount = some vc ∧
      TopBy rt results.Users (fun u => u.PublicContributionCount) none options.Amount
        = some vp ∧
      TopBy rt results.Users (fun u => u.ContributionCount) none options.Amount = some vt ∧
      ∃ out rest, YamlOutput rt results writer options = some (out, none) ∧
        out.calls = writer.calls ++
          (["users:\n"] ++
            vc.enum.map (fun e =>
              "\n  - rank: " ++ toString ((e.1 : Int) + 1) ++
              "\n    name: " ++ rt.quoteToASCII e.2.Name ++
              "\n    login: " ++ rt.quoteToASCII e.2.Login ++
              "\n    avatarUrl: " ++ e.2.AvatarURL ++
              "\n    contributions: " ++ toString e.2.CommitsCount ++
              "\n    company: " ++ rt.quoteToASCII e.2.Company ++
              "\n    organizations: " ++
                rt.quoteToASCII (",".intercalate e.2.Organizations) ++ "\n") ++
            ["users_public_contributions:\n"] ++
            vp.enum.map (fun e =>
              "\n  - rank: " ++ toString ((e.1 : Int) + 1) ++
              "\n    name: " ++ rt.quoteToASCII e.2.Name ++
              "\n    login: " ++ rt.quoteToASCII e.2.Login ++
              "\n    avatarUrl: " ++ e.2.AvatarURL ++
              "\n    contributions: " ++ toString e.2.PublicContributionCount ++
              "\n    company: " ++ rt.quoteToASCII e.2.Company ++
              "\n    organizations: " ++
                rt.quoteToASCII (",".intercalate e.2.Organizations) ++ "\n") ++
            ["\nprivate_users:\n"] ++
            vt.enum.map (fun e =>
              "\n  - rank: " ++ toString ((e.1 : Int) + 1) ++
              "\n    name: " ++ rt.quoteToASCII e.2.Name ++
              "\n    login: " ++ rt.quoteToASCII e.2.Login ++
              "\n    avatarUrl: " ++ e.2.AvatarURL ++
              "\n    contributions: " ++ toString e.2.ContributionCount ++
              "\n    company: " ++ rt.quoteToASCII e.2.Company ++
              "\n    organizations: " ++
                rt.quoteToASCII (",".intercalate e.2.Organizations) ++ "\n")) ++ rest := by
  obtain ⟨c, hc⟩ : ∃ c, TopBy rt results.Users (fun u => u.CommitsCount) none
      options.Amount = some c := ⟨_, TopBy_of_nonneg rt _ _ none _ h⟩
  obtain ⟨p, hp⟩ : ∃ p, TopBy rt results.Users (fun u => u.PublicContributionCount) none
      options.Amount = some p := ⟨_, TopBy_of_nonneg rt _ _ none _ h⟩
  obtain ⟨t, ht⟩ : ∃ t, TopBy rt results.Users (fun u => u.ContributionCount) none
      options.Amount = some t := ⟨_, TopBy_of_nonneg rt _ _ none _ h⟩
  have hoc := TopOrgs_of_nonneg rt c 10 (by decide)
  have hop := TopOrgs_of_nonneg (rt.afterRanges 1) p 10 (by decide)
  have hot := TopOrgs_of_nonneg (rt.afterRanges 2) t 10 (by decide)
  have hy := YamlOutput_eq_of rt results writer options _ _ _ _ _ _ hc hp ht hoc hop hot
  refine ⟨c, p, t, hc, hp, ht,
    _, yamlOrgSections rt ((rankedOrgs rt c).take 10)
        ((rankedOrgs (rt.afterRanges 1) p).take 10)
        ((rankedOrgs (rt.afterRanges 2) t).take 10) ++ yamlProvenance rt results ++
        presetLines options.PresetTitle options.PresetChecksum, hy, ?_⟩
  simp only [yamlUserSections, List.append_assoc]
  rfl

/-- C20: for every input and every amount `≥ 0`, the output of `YamlOutput` is a
body that does not depend on the preset title and checksum, followed by the
`title:` and `definition_checksum:` lines exactly when both the title and the
checksum are non-empty, and by nothing otherwise. -/
theorem YamlOutput_preset_lines (rt : GoRuntime) (results : GithubSearchResults)
    (writer : Sink) (amount : Int) (h : 0 ≤ amount) :
    ∃ body : List String, ∀ title checksum : String,
      YamlOutput rt results writer ⟨amount, title, checksum⟩ =
        some (⟨writer.calls ++ body ++
          (if title ≠ "" ∧ checksum ≠ "" then
            ["title: " ++ title ++ "\n", "definition_checksum: " ++ checksum ++ "\n"]
           else []), writer.answer⟩, none) := by
  obtain ⟨c, hc⟩ : ∃ c, TopBy rt results.Users (fun u => u.CommitsCount) none
      amount = some c := ⟨_, TopBy_of_nonneg rt _ _ none _ h⟩
  obtain ⟨p, hp⟩ : ∃ p, TopBy rt results.Users (fun u => u.PublicContributionCount) none
      amount = some p := ⟨_, TopBy_of_nonneg rt _ _ none _ h⟩
  obtain ⟨t, ht⟩ : ∃ t, TopBy rt results.Users (fun u => u.ContributionCount) none
      amount = some t := ⟨_, TopBy_of_nonneg rt _ _ none _ h⟩
  refine ⟨yamlUserSections rt c p t ++
    yamlOrgSections rt ((rankedOrgs rt c).take 10) ((rankedOrgs (rt.afterRanges 1) p).take 10)
      ((rankedOrgs (rt.afterRanges 2) t).take 10) ++ yamlProvenance rt results,
    fun title checksum => ?_⟩
  rw [YamlOutput_eq_of rt results writer ⟨amount, title, checksum⟩ c p t _ _ _ hc hp ht
      (TopOrgs_of_nonneg rt c 10 (by decide))
      (TopOrgs_of_nonneg (rt.afterRanges 1) p 10 (by decide))
      (TopOrgs_of_nonneg (rt.afterRanges 2) t 10 (by decide))]
  simp only [presetLines, List.append_assoc]
  rfl

/-! ## Ranking engine: further properties -/

theorem mem_retained_iff (P : List User) (g : User → Bool) (u : User) :
    u ∈ retained P (some g) ↔ u ∈ P ∧ g u = true := by
  simp [retained, List.mem_filter]

theorem retained_always_true (P : List User) :
    retained P (some (fun _ => true)) = retained P none := by
  simp [retained]

/-- C21: for every population, metric, limit `L ≥ 0` and filter, every record of
the view satisfies the filter and the view has `min L' r` records, `r` the
number of records that satisfy the filter and `L'` the limit (`256` for `0`); a
nil filter drops nothing, `TopBy` with a nil filter being `TopBy` with the filter
that accepts every record. -/
theorem TopBy_filter_contract (rt : GoRuntime) (P : List User) (m : ContributionsSelector)
    (f : Filter) (L : Int) (hL : 0 ≤ L) :
    (∃ view, TopBy rt P m f L = some view ∧
      (∀ g, f = some g → ∀ u ∈ view, u ∈ P ∧ g u = true) ∧
      (f = none → ∀ u ∈ view, u ∈ P) ∧
      (view.length : Int) = min (effectiveLimit L) ((retained P f).length : Int)) ∧
    TopBy rt P m none L = TopBy rt P m (some (fun _ => true)) L := by
  have hmem : ∀ u ∈ (rt.sortSlice User (fun a b => decide (m a > m b)) (retained P f)).take
      (min (effectiveLimit L) (retained P f).length).toNat, u ∈ retained P f := by
    intro u hu
    exact (rt.sortSlice_perm User _ _).mem_iff.mp (List.mem_of_mem_take hu)
  refine ⟨⟨_, TopBy_of_nonneg rt P m f L hL, ?_, ?_, ?_⟩, ?_⟩
  · intro g hg u hu
    subst hg
    exact (mem_retained_iff P g u).mp (hmem u hu)
  · intro hf u hu
    subst hf
    exact hmem u hu
  · rw [List.length_take, sortSlice_length]
    have h0 : 0 ≤ effectiveLimit L := by
      unfold effectiveLimit
      split <;> omega
    omega
  · rw [TopBy_eq, TopBy_eq, retained_always_true]

/-- C23: for every population, metric, filter and limit `L ≥ 0`, the view is the
top of the retained records: the view followed by some list of omitted records
is a rearrangement of the records of the population that satisfy the filter,
and no omitted record has a larger metric than a record of the view. -/
theorem TopBy_is_top (rt : GoRuntime) (P : List User) (m : ContributionsSelector)
    (f : Filter) (L : Int) (hL : 0 ≤ L) :
    ∃ view omitted, TopBy rt P m f L = some view ∧
      (view ++ omitted).Perm (retained P f) ∧
      ∀ a ∈ view, ∀ b ∈ omitted, m b ≤ m a := by
  refine ⟨_, (rt.sortSlice User (fun a b => decide (m a > m b)) (retained P f)).drop
    (min (effectiveLimit L) (retained P f).length).toNat, TopBy_of_nonneg rt P m f L hL, ?_, ?_⟩
  · rw [List.take_append_drop]
    exact rt.sortSlice_perm User _ _
  · have hs := sortSlice_key_sorted rt m (retained P f)
    rw [← List.take_append_drop (min (effectiveLimit L) (retained P f).length).toNat
      (rt.sortSlice User (fun a b => decide (m a > m b)) (retained P f))] at hs
    exact (List.pairwise_append.mp hs).2.2

/-- C26: the bound of the slice expression `users[:numTop]` in `trim` is within
`0 ≤ numTop ≤ len(users)` exactly when the limit is `≥ 0`; so `TopBy` returns a
view for every limit `≥ 0`, and for a negative limit the bound is the limit
itself and the call fails. -/
theorem trim_bound_iff (rt : GoRuntime) (P : List User) (m : ContributionsSelector)
    (f : Filter) (L : Int) (users : List User) :
    (∃ b : Int, trim users L = sliceTo users b ∧
      ((0 ≤ b ∧ b ≤ (users.length : Int)) ↔ 0 ≤ L) ∧ (L < 0 → b = L)) ∧
    ((∃ view, TopBy rt P m f L = some view) ↔ 0 ≤ L) ∧
    (L < 0 → TopBy rt P m f L = none) := by
  refine ⟨?_, ?_, fun h => TopBy_none_of_neg rt P m f L h⟩
  · refine ⟨if (users.length : Int) < (if L = 0 then 256 else L) then (users.length : Int)
      else (if L = 0 then 256 else L), rfl, ?_, ?_⟩
    · by_cases h0 : L = 0
      · subst h0
        simp only [if_true]
        split <;> omega
      · simp only [h0, if_false]
        split <;> omega
    · intro hneg
      have h0 : L ≠ 0 := by omega
      simp only [h0, if_false]
      split <;> omega
  · constructor
    · rintro ⟨view, hv⟩
      by_contra hneg
      rw [TopBy_none_of_neg rt P m f L (by omega)] at hv
      exact Option.noConfusion hv
    · intro h
      exact ⟨_, TopBy_of_nonneg rt P m f L h⟩

/-- C27: for limits `0 < L1 ≤ L2`, the view for `L1` is an initial segment of the
view for `L2`. -/
theorem TopBy_limit_monotone (rt : GoRuntime) (P : List User) (m : ContributionsSelector)
    (f : Filter) (L1 L2 : Int) (h1 : 0 < L1) (h2 : L1 ≤ L2) :
    ∃ v1 v2, TopBy rt P m f L1 = some v1 ∧ TopBy rt P m f L2 = some v2 ∧
      v1 <+: v2 ∧ v1 = v2.take v1.length := by
  have hn1 : L1 ≠ 0 := by omega
  have hn2 : L2 ≠ 0 := by omega
  have hle : (min (effectiveLimit L1) ((retained P f).length : Int)).toNat ≤
      (min (effectiveLimit L2) ((retained P f).length : Int)).toNat := by
    simp only [effectiveLimit, hn1, hn2, if_false]
    omega
  refine ⟨_, _, TopBy_of_nonneg rt P m f L1 (by omega), TopBy_of_nonneg rt P m f L2 (by omega),
    List.take_prefix_take_left _ hle, ?_⟩
  rw [List.take_take, List.length_take, sortSlice_length]
  congr 1
  omega


/-! ## Organization aggregator: tallies as counts -/

theorem stringsToLower_congr (rt1 rt2 : GoRuntime) (h : rt1.toLowerRune = rt2.toLowerRune)
    (s : String) : stringsToLower rt1 s = stringsToLower rt2 s := by
  simp [stringsToLower, h]

theorem tallyLoop_congr (rt1 rt2 : GoRuntime) (h : rt1.toLowerRune = rt2.toLowerRune)
    (os : List String) (m : List (String × Int)) : tallyLoop rt1 os m = tallyLoop rt2 os m := by
  induction os generalizing m with
  | nil => rfl
  | cons o rest ih => simp [tallyLoop, stringsToLower_congr rt1 rt2 h, ih]

theorem orgsMapOf_congr (rt1 rt2 : GoRuntime) (h : rt1.toLowerRune = rt2.toLowerRune)
    (slice : List User) : orgsMapOf rt1 slice = orgsMapOf rt2 slice :=
  tallyLoop_congr rt1 rt2 h _ _

theorem stringsToLower_idem (rt : GoRuntime) (s : String) :
    stringsToLower rt (stringsToLower rt s) = stringsToLower rt s := by
  unfold stringsToLower
  congr 1
  rw [List.map_map]
  exact List.map_congr_left (fun c _ => rt.toLowerRune_idem c)

theorem nodup_mapKeys_orgsMapOf (rt : GoRuntime) (slice : List User) :
    (mapKeys (orgsMapOf rt slice)).Nodup :=
  nodup_mapKeys_tallyLoop rt _ [] (by simp [mapKeys])

theorem mem_mapKeys_orgsMapOf (rt : GoRuntime) (slice : List User) (k : String) :
    k ∈ mapKeys (orgsMapOf rt slice) ↔ k ∈ normalizedIds rt slice := by
  rw [(mapKeys_orgsMapOf_perm rt slice).mem_iff, List.mem_dedup]

/-- The entries of the tally map: one per normalized identifier, with the number
of its occurrences among the tallied affiliations. -/
theorem mem_orgsMapOf_iff (rt : GoRuntime) (slice : List User) (k : String) (v : Int) :
    (k, v) ∈ orgsMapOf rt slice ↔
      k ∈ normalizedIds rt slice ∧ v = ((normalizedIds rt slice).count k : Int) := by
  have hget : ∀ k', mapGet (orgsMapOf rt slice) k' = ((normalizedIds rt slice).count k' : Int) := by
    intro k'
    simp [orgsMapOf, mapGet_tallyLoop, mapGet, normalizedIds]
  constructor
  · intro h
    refine ⟨(mem_mapKeys_orgsMapOf rt slice k).mp (List.mem_map.mpr ⟨(k, v), h, rfl⟩), ?_⟩
    rw [← hget, mapGet_of_mem _ (nodup_mapKeys_orgsMapOf rt slice) k v h]
  · rintro ⟨hk, hv⟩
    obtain ⟨kv, hkv, hkn⟩ := List.mem_map.mp ((mem_mapKeys_orgsMapOf rt slice k).mpr hk)
    obtain ⟨k2, v2⟩ := kv
    simp only at hkn
    subst hkn
    have := mapGet_of_mem _ (nodup_mapKeys_orgsMapOf rt slice) k2 v2 hkv
    rw [hget] at this
    rw [hv, this]
    exact hkv

theorem mem_rankedOrgs_iff (rt : GoRuntime) (slice : List User) (o : Organization) :
    o ∈ rankedOrgs rt slice ↔
      o.Name ∈ normalizedIds rt slice ∧
        o.MemberCount = ((normalizedIds rt slice).count o.Name : Int) := by
  rw [mem_rankedOrgs, mem_orgsMapOf_iff]

theorem normalizedIds_perm (rt : GoRuntime) (P P' : List User) (hp : P'.Perm P) :
    (normalizedIds rt P').Perm (normalizedIds rt P) :=
  ((hp.map talliedOrgs).flatten).map _

theorem rankedOrgs_nodup (rt : GoRuntime) (slice : List User) : (rankedOrgs rt slice).Nodup :=
  List.Nodup.of_map _ (rankedOrgs_names_nodup rt slice)

theorem count_map_eq_length_filter (rt : GoRuntime) (l : List String) (n : String) :
    (l.map (stringsToLower rt)).count n =
      (l.filter (fun e => decide (stringsToLower rt e = n))).length := by
  induction l with
  | nil => rfl
  | cons a rest ih =>
    by_cases h : stringsToLower rt a = n
    · simp [List.count_cons, List.filter_cons, h, ih]
    · simp [List.count_cons, List.filter_cons, h, ih]

theorem count_normalizedIds_eq_sum (rt : GoRuntime) (slice : List User) (n : String) :
    (((normalizedIds rt slice).count n : Nat) : Int) =
      (slice.map (fun u =>
        (((talliedOrgs u).filter (fun e => decide (stringsToLower rt e = n))).length : Int))).sum := by
  induction slice with
  | nil => simp [normalizedIds]
  | cons u rest ih =>
    simp only [normalizedIds, List.map_cons, List.flatten_cons, List.map_append,
      List.count_append, List.sum_cons] at ih ⊢
    rw [← ih, count_map_eq_length_filter]
    push_cast
    rfl

theorem length_normalizedIds_eq_sum (rt : GoRuntime) (slice : List User) :
    (((normalizedIds rt slice).length : Nat) : Int) =
      (slice.map (fun u => ((talliedOrgs u).length : Int))).sum := by
  induction slice with
  | nil => simp [normalizedIds]
  | cons u rest ih =>
    simp only [normalizedIds, List.map_cons, List.flatten_cons, List.map_append,
      List.length_append, List.length_map, List.sum_cons] at ih ⊢
    rw [← ih]
    push_cast
    rfl

theorem sum_snd_orgsMapOf (rt : GoRuntime) (slice : List User) :
    ((orgsMapOf rt slice).map Prod.snd).sum = ((normalizedIds rt slice).length : Int) := by
  have hmap : (orgsMapOf rt slice).map Prod.snd =
      (mapKeys (orgsMapOf rt slice)).map (fun k => ((normalizedIds rt slice).count k : Int)) := by
    rw [mapKeys, List.map_map]
    apply List.map_congr_left
    intro kv hkv
    exact ((mem_orgsMapOf_iff rt slice kv.1 kv.2).mp hkv).2
  rw [hmap, ((mapKeys_orgsMapOf_perm rt slice).map _).sum_eq]
  have h := List.sum_map_count_dedup_eq_length (normalizedIds rt slice)
  have h2 : ((normalizedIds rt slice).dedup.map
      (fun k => ((normalizedIds rt slice).count k : Int))).sum =
      ((((normalizedIds rt slice).dedup.map
        (fun k => (normalizedIds rt slice).count k)).sum : Nat) : Int) := by
    rw [Nat.cast_list_sum, List.map_map]
    rfl
  rw [h2, h]


theorem talliedOrgs_eq (user : User) :
    talliedOrgs user =
      match inferredLogin user with
      | some h => if h ∈ user.Organizations then user.Organizations
                  else user.Organizations ++ [h]
      | none => user.Organizations := by
  by_cases hs : ∃ h, IsHandle (stringsTrim user.Company " ") h
  · obtain ⟨h, hh⟩ := hs
    have hi : inferredLogin user = some h := by
      simp [inferredLogin, find_of_isHandle hh]
    simp [hi, talliedOrgs, userOrgsOf_of_isHandle user h hh]
  · rw [inferredLogin_of_not_isHandle user hs, talliedOrgs_of_not_isHandle user hs]

theorem rankedOrgs_counts_eq (rt1 rt2 : GoRuntime) (h : rt1.toLowerRune = rt2.toLowerRune)
    (slice : List User) :
    (rankedOrgs rt1 slice).map (fun e => e.MemberCount) =
      (rankedOrgs rt2 slice).map (fun e => e.MemberCount) := by
  have hp : ((rankedOrgs rt1 slice).map (fun e => e.MemberCount)).Perm
      ((rankedOrgs rt2 slice).map (fun e => e.MemberCount)) := by
    have p1 := rankedOrgs_perm rt1 slice
    have p2 := rankedOrgs_perm rt2 slice
    rw [orgsMapOf_congr rt1 rt2 h] at p1
    exact (p1.trans p2.symm).map _
  have s1 : ((rankedOrgs rt1 slice).map (fun e => e.MemberCount)).Pairwise
      (fun x y => y ≤ x) :=
    List.pairwise_map.mpr (sortSlice_key_sorted rt1 (fun o : Organization => o.MemberCount) _)
  have s2 : ((rankedOrgs rt2 slice).map (fun e => e.MemberCount)).Pairwise
      (fun x y => y ≤ x) :=
    List.pairwise_map.mpr (sortSlice_key_sorted rt2 (fun o : Organization => o.MemberCount) _)
  haveI : IsAntisymm Int (fun x y => y ≤ x) := ⟨fun a b hab hba => by omega⟩
  exact List.eq_of_perm_of_sorted hp s1 s2

theorem rankedOrgs_eq_of_distinct (rt1 rt2 : GoRuntime) (h : rt1.toLowerRune = rt2.toLowerRune)
    (slice : List User) (hd : ((orgsMapOf rt1 slice).map Prod.snd).Nodup) :
    rankedOrgs rt1 slice = rankedOrgs rt2 slice := by
  have p2 := rankedOrgs_perm rt2 slice
  rw [← orgsMapOf_congr rt1 rt2 h] at p2
  have hnd : ((rankedOrgs rt2 slice).map (fun e => e.MemberCount)).Nodup := by
    have := (p2.map (fun e : Organization => e.MemberCount)).nodup_iff.mpr
      (by simpa [List.map_map, Function.comp_def] using hd)
    exact this
  have hne : (rankedOrgs rt2 slice).Pairwise (fun a b => a.MemberCount ≠ b.MemberCount) :=
    List.pairwise_map.mp hnd
  have hs : (rankedOrgs rt2 slice).Pairwise (fun a b => a.MemberCount > b.MemberCount) :=
    ((sortSlice_key_sorted rt2 (fun o : Organization => o.MemberCount) _).and hne).imp
      (fun h => by omega)
  exact sortSlice_eq_of_strictly_sorted rt1 (fun o : Organization => o.MemberCount) _ _
    (p2.trans (((rt1.mapRange_perm 0 _).map _).symm)) hs

/-! ## Organization aggregator: properties, concluded -/

/-- C22: two runs that differ in the order in which the tally map is visited (and
in what the unstable sort does with ties) return sequences with the same
memberCounts position by position and with entries of one and the same tally, so
they can differ only in entries of equal memberCount; when the memberCounts of
the tallies are pairwise distinct the two sequences are equal. -/
theorem TopOrgs_iteration_order (rt1 rt2 : GoRuntime) (slice : List User) (count : Int)
    (hc : 0 ≤ count) (hl : rt1.toLowerRune = rt2.toLowerRune) :
    ∃ o1 o2, TopOrgs rt1 slice count = some o1 ∧ TopOrgs rt2 slice count = some o2 ∧
      o1.map (fun e => e.MemberCount) = o2.map (fun e => e.MemberCount) ∧
      (∀ e, e ∈ o1 ∨ e ∈ o2 → (e.Name, e.MemberCount) ∈ orgsMapOf rt1 slice) ∧
      (((orgsMapOf rt1 slice).map Prod.snd).Nodup → o1 = o2) := by
  refine ⟨_, _, TopOrgs_of_nonneg rt1 slice count hc, TopOrgs_of_nonneg rt2 slice count hc,
    ?_, ?_, ?_⟩
  · rw [List.map_take, List.map_take, rankedOrgs_counts_eq rt1 rt2 hl slice]
  · intro e he
    rcases he with he | he
    · exact (mem_rankedOrgs rt1 slice e).mp (List.mem_of_mem_take he)
    · rw [orgsMapOf_congr rt1 rt2 hl]
      exact (mem_rankedOrgs rt2 slice e).mp (List.mem_of_mem_take he)
  · intro hd
    rw [rankedOrgs_eq_of_distinct rt1 rt2 hl slice hd]

/-- On records by value, that is, on the records as the loop reads them: the
memberCount `TopOrgs` reports for a name is the total number of entries, over
all users, of the user's tallied list (the declared organizations, followed by
the inferred login unless a string-identical entry is declared) whose lowercase
form is the name, repeated entries counted separately; the memberCounts of the
untruncated result add up to the total number of tallied entries. -/
theorem TopOrgs_memberCount_counts_all (rt : GoRuntime) (slice : List User) (count : Int)
    (hc : 0 ≤ count) :
    (∀ u : User, talliedOrgs u =
      match inferredLogin u with
      | some h => if h ∈ u.Organizations then u.Organizations else u.Organizations ++ [h]
      | none => u.Organizations) ∧
    ∃ orgs, TopOrgs rt slice count = some orgs ∧
      (∀ o ∈ orgs, o.MemberCount =
        (slice.map (fun u => (((talliedOrgs u).filter
          (fun e => decide (stringsToLower rt e = o.Name))).length : Int))).sum) ∧
      (((normalizedIds rt slice).dedup.length : Int) ≤ count →
        (orgs.map (fun o => o.MemberCount)).sum =
          (slice.map (fun u => ((talliedOrgs u).length : Int))).sum) := by
  refine ⟨talliedOrgs_eq, _, TopOrgs_of_nonneg rt slice count hc, ?_, ?_⟩
  · intro o ho
    rw [memberCount_of_mem_rankedOrgs rt slice o (List.mem_of_mem_take ho),
      count_normalizedIds_eq_sum]
  · intro hlen
    rw [take_eq_self_of_le _ _ (by rw [rankedOrgs_length]; exact hlen),
      ((rankedOrgs_perm rt slice).map (fun o => o.MemberCount)).sum_eq, List.map_map]
    have : ((fun o : Organization => o.MemberCount) ∘
        (fun kv : String × Int => Organization.mk kv.1 kv.2)) = Prod.snd := rfl
    rw [this, sum_snd_orgsMapOf, length_normalizedIds_eq_sum]

/-- C25: for every population and `count ≥ 0`, the entries `TopOrgs` returns have
pairwise distinct names, every name is left unchanged by `strings.ToLower`, and
every memberCount is at least `1`. -/
theorem TopOrgs_entries_invariants (rt : GoRuntime) (slice : List User) (count : Int)
    (hc : 0 ≤ count) :
    ∃ orgs, TopOrgs rt slice count = some orgs ∧
      (orgs.map (fun o => o.Name)).Nodup ∧
      ∀ o ∈ orgs, stringsToLower rt o.Name = o.Name ∧ 1 ≤ o.MemberCount := by
  refine ⟨_, TopOrgs_of_nonneg rt slice count hc, ?_, ?_⟩
  · exact (rankedOrgs_names_nodup rt slice).sublist
      ((List.take_sublist count.toNat (rankedOrgs rt slice)).map _)
  · intro o ho
    obtain ⟨hk, hv⟩ := (mem_rankedOrgs_iff rt slice o).mp (List.mem_of_mem_take ho)
    constructor
    · obtain ⟨a, _, ha⟩ := List.mem_map.mp hk
      rw [← ha, stringsToLower_idem]
    · rw [hv]
      have := List.one_le_count_iff.mpr hk
      omega

/-- On records by value, that is, on the records as the loop reads them: for a
rearrangement `P'` of `P` and a `count` that does not truncate, `TopOrgs` over
`P'` and over `P` return the same (name, memberCount) entries, possibly in
another order. -/
theorem TopOrgs_perm_invariant (rt : GoRuntime) (P P' : List User) (count : Int)
    (hp : P'.Perm P) (hc : ((normalizedIds rt P).dedup.length : Int) ≤ count) :
    ∃ o1 o2, TopOrgs rt P' count = some o1 ∧ TopOrgs rt P count = some o2 ∧
      (∀ e, e ∈ o1 ↔ e ∈ o2) ∧ o1.Perm o2 := by
  have hn := normalizedIds_perm rt P P' hp
  have hc' : ((normalizedIds rt P').dedup.length : Int) ≤ count := by
    rw [hn.dedup.length_eq]
    exact hc
  have hmem : ∀ e, e ∈ rankedOrgs rt P' ↔ e ∈ rankedOrgs rt P := by
    intro e
    rw [mem_rankedOrgs_iff, mem_rankedOrgs_iff, hn.mem_iff, hn.count_eq]
  refine ⟨_, _, TopOrgs_of_nonneg rt P' count (by omega), TopOrgs_of_nonneg rt P count (by omega),
    ?_, ?_⟩
  · rw [take_eq_self_of_le _ _ (by rw [rankedOrgs_length]; exact hc'),
      take_eq_self_of_le _ _ (by rw [rankedOrgs_length]; exact hc)]
    exact hmem
  · rw [take_eq_self_of_le _ _ (by rw [rankedOrgs_length]; exact hc'),
      take_eq_self_of_le _ _ (by rw [rankedOrgs_length]; exact hc)]
    exact (List.perm_ext_iff_of_nodup (rankedOrgs_nodup rt P') (rankedOrgs_nodup rt P)).mpr hmem



/-! ## The organization aggregator on memory: auxiliary facts -/

theorem readStr_length (h : StrHeap) (s : Slice) : (readStr h s).length = s.len := by
  simp [readStr]

theorem readStr_store_append (h : StrHeap) (s : Slice) (x : String) :
    readStr (h.store s.arr (s.off + s.len) x) { s with len := s.len + 1 } =
      readStr h s ++ [x] := by
  have h1 : (List.range s.len).map
      (fun i => (h.store s.arr (s.off + s.len) x).cells s.arr (s.off + i)) =
      (List.range s.len).map (fun i => h.cells s.arr (s.off + i)) := by
    apply List.map_congr_left
    intro i hi
    have hlt : i < s.len := List.mem_range.mp hi
    have hne : ¬ (s.arr = s.arr ∧ s.off + i = s.off + s.len) := by
      rintro ⟨_, he⟩
      omega
    show (if s.arr = s.arr ∧ s.off + i = s.off + s.len then x
      else h.cells s.arr (s.off + i)) = _
    rw [if_neg hne]
  have h2 : (h.store s.arr (s.off + s.len) x).cells s.arr (s.off + s.len) = x := by
    show (if s.arr = s.arr ∧ s.off + s.len = s.off + s.len then x
      else h.cells s.arr (s.off + s.len)) = x
    rw [if_pos ⟨rfl, rfl⟩]
  show (List.range (s.len + 1)).map
      (fun i => (h.store s.arr (s.off + s.len) x).cells s.arr (s.off + i)) = _
  rw [List.range_succ, List.map_append, h1, List.map_cons, List.map_nil, h2]
  rfl

theorem readStr_alloc (h : StrHeap) (xs : List String) (c : Nat) :
    readStr (h.alloc xs) ⟨h.next, 0, xs.length, c⟩ = xs := by
  unfold readStr StrHeap.alloc
  simp only [if_true, Nat.zero_add]
  apply List.ext_getElem
  · simp
  · intro i h1 h2
    simp only [List.length_map, List.length_range] at h1
    simp [List.getD_eq_getElem _ _ h1, List.getElem?_eq_getElem h2]

theorem readStr_appendStr (rt : GoRuntime) (h : StrHeap) (s : Slice) (x : String) :
    readStr (appendStr rt h s x).1 (appendStr rt h s x).2 = readStr h s ++ [x] := by
  unfold appendStr
  by_cases hc : s.len < s.cap
  · simp only [hc, if_true]
    exact readStr_store_append h s x
  · simp only [hc, if_false]
    have hl : s.len + 1 = (readStr h s ++ [x]).length := by
      simp [readStr_length]
    rw [hl]
    exact readStr_alloc h _ _

/-- One iteration of the users loop on memory tallies what the loop by value
tallies for the record the memory shows. -/
theorem userOrgsOfM_eq (rt : GoRuntime) (h : StrHeap) (user : UserM) :
    ∃ userOrgs, userOrgsOfM rt h user = some (heapAfterUser rt h user, userOrgs) ∧
      readStr (heapAfterUser rt h user) userOrgs = talliedOrgs (user.view h) := by
  have hv := userOrgsOf_eq_some (user.view h)
  unfold heapAfterUser
  unfold userOrgsOfM
  unfold userOrgsOf at hv
  simp only [UserM.view] at hv
  by_cases hm : (companyLoginFindStringSubmatch (stringsTrim user.Company " ")).length > 0
  · simp only [hm, if_true] at hv ⊢
    cases hl : (companyLoginFindStringSubmatch (stringsTrim user.Company " "))[1]? with
    | none =>
      rw [hl] at hv
      exact Option.noConfusion hv
    | some orgLogin =>
      rw [hl] at hv
      simp only at hv ⊢
      by_cases hcond : orgLogin.data.length > 0 ∧
          contains (readStr h user.Organizations) orgLogin = false
      · simp only [hcond, and_self, if_true] at hv ⊢
        refine ⟨(appendStr rt h user.Organizations orgLogin).2, rfl, ?_⟩
        rw [readStr_appendStr]
        exact Option.some.inj hv
      · simp only [hcond, if_false] at hv ⊢
        exact ⟨_, rfl, Option.some.inj hv⟩
  · simp only [hm, if_false] at hv ⊢
    exact ⟨_, rfl, Option.some.inj hv⟩

/-- The users loop on memory is the users loop by value on the records as the
loop reads them. -/
theorem usersLoopM_eq (rt : GoRuntime) (slice : List UserM) (h : StrHeap)
    (m : List (String × Int)) :
    usersLoopM rt slice h m =
      some (heapAfterUsers rt slice h,
        tallyLoop rt (((seenUsers rt slice h).map talliedOrgs).flatten) m) := by
  induction slice generalizing h m with
  | nil => simp [usersLoopM, heapAfterUsers, seenUsers, tallyLoop]
  | cons u rest ih =>
    obtain ⟨s, hs, hr⟩ := userOrgsOfM_eq rt h u
    simp only [usersLoopM, hs, ih, hr, heapAfterUsers, seenUsers, List.map_cons,
      List.flatten_cons, tallyLoop_append]

theorem usersLoopM_eq_usersLoop (rt : GoRuntime) (slice : List UserM) (h : StrHeap)
    (m : List (String × Int)) :
    (usersLoopM rt slice h m).map Prod.snd = usersLoop rt (seenUsers rt slice h) m := by
  rw [usersLoopM_eq, usersLoop_eq]
  rfl

/-- `TopOrgs` on memory returns what `TopOrgs` by value returns on the records as
the users loop reads them. -/
theorem TopOrgsM_eq (rt : GoRuntime) (h : StrHeap) (slice : List UserM) (count : Int) :
    TopOrgsM rt h slice count =
      (TopOrgs rt (seenUsers rt slice h) count).map
        (fun orgs => (heapAfterUsers rt slice h, orgs)) := by
  unfold TopOrgsM TopOrgs
  rw [usersLoopM_eq, usersLoop_eq]
  simp only
  split <;> simp

theorem TopOrgsM_of_nonneg (rt : GoRuntime) (h : StrHeap) (slice : List UserM) (count : Int)
    (hc : 0 ≤ count) :
    TopOrgsM rt h slice count =
      some (heapAfterUsers rt slice h,
        (rankedOrgs rt (seenUsers rt slice h)).take count.toNat) := by
  rw [TopOrgsM_eq, TopOrgs_of_nonneg rt _ count hc]
  rfl

/-- When the loop reads every record as the caller passed it, `TopOrgs` on
memory returns what `TopOrgs` by value returns on the caller's records. -/
theorem TopOrgsM_of_readsAsGiven (rt : GoRuntime) (h : StrHeap) (slice : List UserM)
    (count : Int) (hr : ReadsAsGiven rt h slice) :
    (TopOrgsM rt h slice count).map Prod.snd = TopOrgs rt (slice.map (UserM.view h)) count := by
  rw [TopOrgsM_eq, ← hr]
  cases TopOrgs rt (seenUsers rt slice h) count <;> rfl


theorem userOrgsOfM_heap_cases (rt : GoRuntime) (h : StrHeap) (u : UserM)
    (r : StrHeap × Slice) (hr : userOrgsOfM rt h u = some r) :
    r.1 = h ∨
    (u.Organizations.len < u.Organizations.cap ∧ ∃ x, r.1 =
      h.store u.Organizations.arr (u.Organizations.off + u.Organizations.len) x) ∨
    (∃ xs, r.1 = h.alloc xs) := by
  unfold userOrgsOfM at hr
  by_cases hm : (companyLoginFindStringSubmatch (stringsTrim u.Company " ")).length > 0
  · simp only [hm, if_true] at hr
    cases hl : (companyLoginFindStringSubmatch (stringsTrim u.Company " "))[1]? with
    | none =>
      rw [hl] at hr
      exact Option.noConfusion hr
    | some orgLogin =>
      rw [hl] at hr
      simp only at hr
      by_cases hcond : orgLogin.data.length > 0 ∧
          contains (readStr h u.Organizations) orgLogin = false
      · rw [if_pos hcond] at hr
        have hr2 := Option.some.inj hr
        rw [← hr2]
        unfold appendStr
        by_cases hc : u.Organizations.len < u.Organizations.cap
        · rw [if_pos hc]
          exact Or.inr (Or.inl ⟨hc, orgLogin, rfl⟩)
        · rw [if_neg hc]
          exact Or.inr (Or.inr ⟨_, rfl⟩)
      · rw [if_neg hcond] at hr
        have hr2 := Option.some.inj hr
        rw [← hr2]
        exact Or.inl rfl
  · simp only [hm, if_false] at hr
    have hr2 := Option.some.inj hr
    rw [← hr2]
    exact Or.inl rfl

theorem heapAfterUser_cases (rt : GoRuntime) (h : StrHeap) (u : UserM) :
    heapAfterUser rt h u = h ∨
    (u.Organizations.len < u.Organizations.cap ∧ ∃ x, heapAfterUser rt h u =
      h.store u.Organizations.arr (u.Organizations.off + u.Organizations.len) x) ∨
    (∃ xs, heapAfterUser rt h u = h.alloc xs) := by
  unfold heapAfterUser
  cases hu : userOrgsOfM rt h u with
  | none => exact Or.inl rfl
  | some r => exact userOrgsOfM_heap_cases rt h u r hu

theorem readStr_store_of_unshown (h : StrHeap) (arr pos : Nat) (x : String) (s : Slice)
    (hs : ¬ (s.arr = arr ∧ s.off ≤ pos ∧ pos < s.off + s.len)) :
    readStr (h.store arr pos x) s = readStr h s := by
  unfold readStr
  apply List.map_congr_left
  intro i hi
  have hlt : i < s.len := List.mem_range.mp hi
  have hne : ¬ (s.arr = arr ∧ s.off + i = pos) := by
    rintro ⟨h1, h2⟩
    exact hs ⟨h1, by omega, by omega⟩
  show (if s.arr = arr ∧ s.off + i = pos then x else h.cells s.arr (s.off + i)) = _
  rw [if_neg hne]

theorem readStr_alloc_of_allocated (h : StrHeap) (xs : List String) (s : Slice)
    (hs : s.len = 0 ∨ s.arr < h.next) :
    readStr (h.alloc xs) s = readStr h s := by
  unfold readStr
  apply List.map_congr_left
  intro i hi
  have hlt : i < s.len := List.mem_range.mp hi
  have hne : ¬ s.arr = h.next := by omega
  show (if s.arr = h.next then xs.getD (s.off + i) "" else h.cells s.arr (s.off + i)) = _
  rw [if_neg hne]

theorem view_congr (h1 h2 : StrHeap) (u : UserM)
    (hr : readStr h1 u.Organizations = readStr h2 u.Organizations) :
    u.view h1 = u.view h2 := by
  unfold UserM.view
  rw [hr]

theorem next_le_heapAfterUser (rt : GoRuntime) (h : StrHeap) (u : UserM) :
    h.next ≤ (heapAfterUser rt h u).next := by
  rcases heapAfterUser_cases rt h u with he | ⟨_, x, he⟩ | ⟨xs, he⟩
  · rw [he]
  · rw [he]
    exact Nat.le_refl _
  · rw [he]
    exact Nat.le_succ _

/-- The loop reads every record as the caller passed it when no record's spare
cell is shown by a record that comes after it and every array of which a
record shows elements is allocated: so it does on records whose
`Organizations` lie in arrays of their own, and on records without spare
capacity. -/
theorem readsAsGiven_of_spareCellsUnshown (rt : GoRuntime) (h : StrHeap) (slice : List UserM)
    (hp : slice.Pairwise SpareCellUnshown)
    (ha : ∀ u ∈ slice, u.Organizations.len = 0 ∨ u.Organizations.arr < h.next) :
    ReadsAsGiven rt h slice := by
  unfold ReadsAsGiven
  induction slice generalizing h with
  | nil => rfl
  | cons u rest ih =>
    obtain ⟨hu, hrest⟩ := List.pairwise_cons.mp hp
    have hnext := next_le_heapAfterUser rt h u
    have ha2 : ∀ v ∈ rest, v.Organizations.len = 0 ∨
        v.Organizations.arr < (heapAfterUser rt h u).next := by
      intro v hv
      rcases ha v (List.mem_cons_of_mem u hv) with h0 | hlt
      · exact Or.inl h0
      · exact Or.inr (by omega)
    have hsame : ∀ v ∈ rest, v.view (heapAfterUser rt h u) = v.view h := by
      intro v hv
      apply view_congr
      rcases heapAfterUser_cases rt h u with he | ⟨hc, x, he⟩ | ⟨xs, he⟩
      · rw [he]
      · rw [he]
        apply readStr_store_of_unshown
        intro hshown
        exact hu v hv ⟨hc, hshown.1, hshown.2.1, hshown.2.2⟩
      · rw [he]
        exact readStr_alloc_of_allocated h xs _ (ha v (List.mem_cons_of_mem u hv))
    simp only [seenUsers, List.map_cons]
    rw [ih (heapAfterUser rt h u) hrest ha2]
    congr 1
    exact List.map_congr_left hsame


theorem count_tallied_le_one (rt : GoRuntime) (u : User) (n : String)
    (hu : ((talliedOrgs u).map (stringsToLower rt)).count n ≤ 1) :
    ((talliedOrgs u).map (stringsToLower rt)).count n =
      if affiliatedWith rt u n = true then 1 else 0 := by
  by_cases ha : affiliatedWith rt u n = true
  · have hm := (affiliatedWith_iff rt u n).mp ha
    have := List.count_pos_iff.mpr hm
    simp only [ha, if_true]
    omega
  · have hm : n ∉ (talliedOrgs u).map (stringsToLower rt) :=
      fun h => ha ((affiliatedWith_iff rt u n).mpr h)
    simp only [ha, if_false]
    exact List.count_eq_zero_of_not_mem hm

/-- When no user has two tallied affiliations with lowercase form `n`, the
number of tallied identifiers equal to `n` is the number of users affiliated
with `n`. -/
theorem count_normalizedIds_of_single (rt : GoRuntime) (slice : List User) (n : String)
    (hn : ∀ u ∈ slice, ((talliedOrgs u).map (stringsToLower rt)).count n ≤ 1) :
    (normalizedIds rt slice).count n =
      (slice.filter (fun u => affiliatedWith rt u n)).length := by
  induction slice with
  | nil => simp [normalizedIds]
  | cons u rest ih =>
    have hu := hn u (List.mem_cons_self u rest)
    have ih2 := ih (fun v hv => hn v (List.mem_cons_of_mem u hv))
    simp only [normalizedIds, List.map_cons, List.flatten_cons, List.map_append,
      List.count_append] at ih2 ⊢
    rw [ih2, List.filter_cons, count_tallied_le_one rt u n hu]
    by_cases ha : affiliatedWith rt u n = true
    · simp [ha]
      omega
    · simp [ha]

theorem filter_map_view (rt : GoRuntime) (h : StrHeap) (slice : List UserM) (n : String) :
    ((slice.map (UserM.view h)).filter (fun u => affiliatedWith rt u n)).length =
      (slice.filter (fun u => affiliatedWith rt (u.view h) n)).length := by
  induction slice with
  | nil => rfl
  | cons u rest ih =>
    simp only [List.map_cons, List.filter_cons]
    by_cases ha : affiliatedWith rt (u.view h) n = true
    · simp [ha, ih]
    · simp [ha, ih]

/-! ## The organization aggregator on memory: properties -/

/-- Whatever memory the records share: for every `count ≥ 0`, `TopOrgs` on
memory returns; its result is descending by memberCount, has `min count d`
entries for `d` the number of distinct normalized identifiers the loop tallies,
and its entries have pairwise distinct names that lowercasing leaves unchanged
and memberCounts of at least `1`. -/
theorem TopOrgsM_invariants (rt : GoRuntime) (h : StrHeap) (slice : List UserM) (count : Int)
    (hc : 0 ≤ count) :
    ∃ h2 orgs, TopOrgsM rt h slice count = some (h2, orgs) ∧
      orgs.Pairwise (fun a b => b.MemberCount ≤ a.MemberCount) ∧
      (orgs.length : Int) =
        min count ((normalizedIds rt (seenUsers rt slice h)).dedup.length : Int) ∧
      (orgs.map (fun o => o.Name)).Nodup ∧
      ∀ o ∈ orgs, stringsToLower rt o.Name = o.Name ∧ 1 ≤ o.MemberCount := by
  refine ⟨_, _, TopOrgsM_of_nonneg rt h slice count hc, ?_, ?_, ?_, ?_⟩
  · exact (sortSlice_key_sorted rt (fun o : Organization => o.MemberCount) _).sublist
      (List.take_sublist count.toNat _)
  · rw [List.length_take, rankedOrgs_length]
    omega
  · exact (rankedOrgs_names_nodup rt _).sublist
      ((List.take_sublist count.toNat (rankedOrgs rt _)).map _)
  · intro o ho
    obtain ⟨hk, hv⟩ := (mem_rankedOrgs_iff rt _ o).mp (List.mem_of_mem_take ho)
    constructor
    · obtain ⟨a, _, ha⟩ := List.mem_map.mp hk
      rw [← ha, stringsToLower_idem]
    · rw [hv]
      have := List.one_le_count_iff.mpr hk
      omega

theorem userOrgsOfM_heap_congr (rt1 rt2 : GoRuntime) (h : StrHeap) (u : UserM) :
    (userOrgsOfM rt1 h u).map Prod.fst = (userOrgsOfM rt2 h u).map Prod.fst := by
  unfold userOrgsOfM
  by_cases hm : (companyLoginFindStringSubmatch (stringsTrim u.Company " ")).length > 0
  · simp only [hm, if_true]
    cases hl : (companyLoginFindStringSubmatch (stringsTrim u.Company " "))[1]? with
    | none => rfl
    | some orgLogin =>
      simp only
      by_cases hcond : orgLogin.data.length > 0 ∧
          contains (readStr h u.Organizations) orgLogin = false
      · rw [if_pos hcond, if_pos hcond]
        unfold appendStr
        by_cases hc : u.Organizations.len < u.Organizations.cap
        · rw [if_pos hc, if_pos hc]
        · rw [if_neg hc, if_neg hc]
          rfl
      · rw [if_neg hcond, if_neg hcond]
  · simp only [hm, if_false]

theorem heapAfterUser_congr (rt1 rt2 : GoRuntime) (h : StrHeap) (u : UserM) :
    heapAfterUser rt1 h u = heapAfterUser rt2 h u := by
  have hc := userOrgsOfM_heap_congr rt1 rt2 h u
  unfold heapAfterUser
  cases h1 : userOrgsOfM rt1 h u with
  | none =>
    cases h2 : userOrgsOfM rt2 h u with
    | none => rfl
    | some r2 =>
      rw [h1, h2] at hc
      exact Option.noConfusion hc
  | some r1 =>
    cases h2 : userOrgsOfM rt2 h u with
    | none =>
      rw [h1, h2] at hc
      exact Option.noConfusion hc
    | some r2 =>
      rw [h1, h2] at hc
      exact Option.some.inj hc

/-- What the loop reads does not depend on the runtime: the capacity `append`
chooses for a new array is seen by no record. -/
theorem seenUsers_congr (rt1 rt2 : GoRuntime) (slice : List UserM) (h : StrHeap) :
    seenUsers rt1 slice h = seenUsers rt2 slice h := by
  induction slice generalizing h with
  | nil => rfl
  | cons u rest ih =>
    simp only [seenUsers]
    rw [heapAfterUser_congr rt1 rt2 h u, ih]

/-- Whatever memory the records share: two runs on the same memory that differ
in the order in which the tally map is visited, and in what the unstable sort
does with ties, return sequences with the same memberCounts position by
position, and the same sequence when the memberCounts of the tallies are
pairwise distinct. -/
theorem TopOrgsM_iteration_order (rt1 rt2 : GoRuntime) (h : StrHeap) (slice : List UserM)
    (count : Int) (hc : 0 ≤ count) (hl : rt1.toLowerRune = rt2.toLowerRune) :
    ∃ h1 o1 h2 o2, TopOrgsM rt1 h slice count = some (h1, o1) ∧
      TopOrgsM rt2 h slice count = some (h2, o2) ∧
      o1.map (fun e => e.MemberCount) = o2.map (fun e => e.MemberCount) ∧
      (((orgsMapOf rt1 (seenUsers rt1 slice h)).map Prod.snd).Nodup → o1 = o2) := by
  refine ⟨_, _, _, _, TopOrgsM_of_nonneg rt1 h slice count hc,
    TopOrgsM_of_nonneg rt2 h slice count hc, ?_, ?_⟩
  · rw [List.map_take, List.map_take, seenUsers_congr rt2 rt1,
      rankedOrgs_counts_eq rt1 rt2 hl]
  · intro hd
    rw [seenUsers_congr rt2 rt1, rankedOrgs_eq_of_distinct rt1 rt2 hl _ hd]


/-- C4 (as stated, refuted): one user declaring `["Acme", "acme"]`, with no
company, is reported with memberCount `2` for `"acme"`, although exactly one
user of the population is affiliated with `"acme"`.  The loop adds one for
every entry of `userOrgs`; nothing in it looks at whether the user was counted
for the name before. -/
theorem TopOrgs_memberCount_counts_entries :
    userTwoCasingsM.view sampleStrHeap = userTwoCasings ∧
    (TopOrgsM refRuntime sampleStrHeap [userTwoCasingsM] 10).map Prod.snd
      = some [⟨"acme", 2⟩] ∧
    TopOrgs refRuntime [userTwoCasings] 10 = some [⟨"acme", 2⟩] ∧
    ([userTwoCasings].filter (fun u => affiliatedWith refRuntime u "acme")).length = 1 := by
  decide

/-- C4 (amended): for a population that the users loop reads as the caller
passed it, every `count ≥ 0` and every normalized identifier `n` such that no
user's tallied affiliations (the declared organizations, followed by the
inferred login unless a string-identical entry is declared) hold more than one
entry whose lowercase form is `n`: the memberCount `TopOrgs` reports for `n` is
the number of users of the population that have at least one affiliation,
declared or inferred, whose lowercase form is `n`; and with `count` at least
the number of distinct identifiers, `n` is reported whenever a user is
affiliated with it. -/
theorem TopOrgsM_memberCount_of_single (rt : GoRuntime) (h : StrHeap) (slice : List UserM)
    (count : Int) (n : String) (hc : 0 ≤ count) (hr : ReadsAsGiven rt h slice)
    (hn : ∀ u ∈ slice,
      ((talliedOrgs (u.view h)).map (stringsToLower rt)).count n ≤ 1) :
    ∃ h2 orgs, TopOrgsM rt h slice count = some (h2, orgs) ∧
      (∀ o ∈ orgs, o.Name = n → o.MemberCount =
        ((slice.filter (fun u => affiliatedWith rt (u.view h) n)).length : Int)) ∧
      (((normalizedIds rt (slice.map (UserM.view h))).dedup.length : Int) ≤ count →
        (∃ u ∈ slice, affiliatedWith rt (u.view h) n = true) → ∃ o ∈ orgs, o.Name = n) := by
  have hr2 : seenUsers rt slice h = slice.map (UserM.view h) := hr
  have hn2 : ∀ u ∈ slice.map (UserM.view h),
      ((talliedOrgs u).map (stringsToLower rt)).count n ≤ 1 := by
    intro u hu
    obtain ⟨v, hv, rfl⟩ := List.mem_map.mp hu
    exact hn v hv
  refine ⟨_, _, TopOrgsM_of_nonneg rt h slice count hc, ?_, ?_⟩
  · intro o ho hname
    rw [hr2] at ho
    rw [memberCount_of_mem_rankedOrgs rt _ o (List.mem_of_mem_take ho), hname,
      count_normalizedIds_of_single rt _ n hn2, filter_map_view]
  · intro hlen hex
    obtain ⟨u, hu, hau⟩ := hex
    rw [hr2, take_eq_self_of_le _ _ (by rw [rankedOrgs_length]; exact hlen)]
    have hk : n ∈ mapKeys (orgsMapOf rt (slice.map (UserM.view h))) := by
      rw [(mapKeys_orgsMapOf_perm rt _).mem_iff, List.mem_dedup]
      simp only [normalizedIds, List.map_flatten, List.mem_flatten, List.mem_map]
      exact ⟨_, ⟨_, ⟨u.view h, ⟨u, hu, rfl⟩, rfl⟩, rfl⟩,
        (affiliatedWith_iff rt (u.view h) n).mp hau⟩
    obtain ⟨kv, hkv, rfl⟩ := List.mem_map.mp hk
    exact ⟨⟨kv.1, kv.2⟩, (mem_rankedOrgs rt _ _).mpr hkv, rfl⟩

/-- C24: on two records whose `Organizations` share one backing array, the first
showing `["Acme"]` with room for one more element and company `"@Foo"`, the
second showing `["Acme", "Zeta"]`, the tallied lists as given are
`["Acme", "Foo"]` and `["Acme", "Zeta"]`, so one entry has lowercase form
`"foo"` and one `"zeta"`; `TopOrgs` reports `"foo"` with memberCount `2` and
does not report `"zeta"`.  The login appended for the first record is written
over the `"Zeta"` that the second record shows, which the loop then reads, and
which the caller's second record still shows after the call. -/
theorem TopOrgsM_shared_array_miscounts :
    [userShort, userLong].map (fun u => talliedOrgs (u.view sharedHeap))
      = [["Acme", "Foo"], ["Acme", "Zeta"]] ∧
    ([userShort, userLong].map (fun u => ((talliedOrgs (u.view sharedHeap)).filter
      (fun e => decide (stringsToLower refRuntime e = "foo"))).length)).sum = 1 ∧
    ([userShort, userLong].map (fun u => ((talliedOrgs (u.view sharedHeap)).filter
      (fun e => decide (stringsToLower refRuntime e = "zeta"))).length)).sum = 1 ∧
    (TopOrgsM refRuntime sharedHeap [userShort, userLong] 10).map Prod.snd
      = some [⟨"acme", 2⟩, ⟨"foo", 2⟩] ∧
    (seenUsers refRuntime [userShort, userLong] sharedHeap).map (fun u => u.Organizations)
      = [["Acme"], ["Acme", "Foo"]] ∧
    readStr sharedHeap userLong.Organizations = ["Acme", "Zeta"] ∧
    (TopOrgsM refRuntime sharedHeap [userShort, userLong] 10).map
      (fun r => readStr r.1 userLong.Organizations) = some ["Acme", "Foo"] := by
  decide

/-- C28: on the two records of the shared backing array, with `count = 10` above
the number of distinct identifiers, `TopOrgs` over `[short, long]` returns
`acme 2, foo 2` and over the rearrangement `[long, short]` it returns
`acme 2, zeta 1, foo 1`: the entry `("zeta", 1)` is in one result and not in the
other, and `"foo"` has memberCount `2` in one and `1` in the other. -/
theorem TopOrgsM_shared_array_order_dependent :
    [userLong, userShort] = [userShort, userLong].reverse ∧
    (TopOrgsM refRuntime sharedHeap [userShort, userLong] 10).map Prod.snd
      = some [⟨"acme", 2⟩, ⟨"foo", 2⟩] ∧
    (TopOrgsM refRuntime sharedHeap [userLong, userShort] 10).map Prod.snd
      = some [⟨"acme", 2⟩, ⟨"zeta", 1⟩, ⟨"foo", 1⟩] ∧
    ¬ (∀ e : Organization, e ∈ [(⟨"acme", 2⟩ : Organization), ⟨"foo", 2⟩] ↔
        e ∈ [(⟨"acme", 2⟩ : Organization), ⟨"zeta", 1⟩, ⟨"foo", 1⟩]) := by
  refine ⟨by decide, by decide, by decide, ?_⟩
  intro hall
  have := (hall ⟨"zeta", 1⟩).mpr (by decide)
  revert this
  decide


/-- Where the loop reads every record as the caller passed it, the memberCount
`TopOrgs` reports for a name is the number of tallied entries, over all the
caller's records and with repetitions, whose lowercase form is the name. -/
theorem TopOrgsM_counts_entries_of_readsAsGiven (rt : GoRuntime) (h : StrHeap)
    (slice : List UserM) (count : Int) (hc : 0 ≤ count) (hr : ReadsAsGiven rt h slice) :
    ∃ h2 orgs, TopOrgsM rt h slice count = some (h2, orgs) ∧
      ∀ o ∈ orgs, o.MemberCount =
        (slice.map (fun u => (((talliedOrgs (u.view h)).filter
          (fun e => decide (stringsToLower rt e = o.Name))).length : Int))).sum := by
  have hr2 : seenUsers rt slice h = slice.map (UserM.view h) := hr
  refine ⟨_, _, TopOrgsM_of_nonneg rt h slice count hc, ?_⟩
  intro o ho
  rw [hr2] at ho
  rw [memberCount_of_mem_rankedOrgs rt _ o (List.mem_of_mem_take ho),
    count_normalizedIds_eq_sum, List.map_map]
  rfl

/-- Where the loop reads every record as the caller passed it, in the population
and in its rearrangement, and `count` does not truncate, `TopOrgs` returns the
same entries for both. -/
theorem TopOrgsM_perm_of_readsAsGiven (rt : GoRuntime) (h : StrHeap) (P P2 : List UserM)
    (count : Int) (hp : P2.Perm P) (hr : ReadsAsGiven rt h P) (hr2 : ReadsAsGiven rt h P2)
    (hc : ((normalizedIds rt (P.map (UserM.view h))).dedup.length : Int) ≤ count) :
    ∃ h1 o1 h2 o2, TopOrgsM rt h P2 count = some (h1, o1) ∧
      TopOrgsM rt h P count = some (h2, o2) ∧ ∀ e, e ∈ o1 ↔ e ∈ o2 := by
  have e1 : seenUsers rt P h = P.map (UserM.view h) := hr
  have e2 : seenUsers rt P2 h = P2.map (UserM.view h) := hr2
  have hn := normalizedIds_perm rt (P.map (UserM.view h)) (P2.map (UserM.view h))
    (hp.map _)
  have hc2 : ((normalizedIds rt (P2.map (UserM.view h))).dedup.length : Int) ≤ count := by
    rw [hn.dedup.length_eq]
    exact hc
  have h0 : 0 ≤ count := by omega
  refine ⟨_, _, _, _, TopOrgsM_of_nonneg rt h P2 count h0, TopOrgsM_of_nonneg rt h P count h0,
    ?_⟩
  intro e
  rw [e1, e2, take_eq_self_of_le _ _ (by rw [rankedOrgs_length]; exact hc2),
    take_eq_self_of_le _ _ (by rw [rankedOrgs_length]; exact hc),
    mem_rankedOrgs_iff, mem_rankedOrgs_iff, hn.mem_iff, hn.count_eq]


/-! ## Instances on concrete populations -/

theorem TopBy_length_nil_filter_witness :
    (0 : Int) < 2 ∧
    ((∃ view, TopBy refRuntime [userA, userB, userC] (fun u => u.ContributionCount) none 2
          = some view ∧
        (view.length : Int) = min 2 ([userA, userB, userC].length : Int)) ∧
      TopBy refRuntime [] (fun u => u.ContributionCount) none 2 = some []) :=
  ⟨by decide,
    TopBy_length_nil_filter refRuntime [userA, userB, userC] (fun u => u.ContributionCount) 2
      (by decide)⟩

theorem TopBy_sorted_desc_witness :
    (0 : Int) ≤ 2 ∧
    TopBy refRuntime [userA, userB, userC] (fun u => u.ContributionCount) none 2
      = some [userB, userA] ∧
    ∃ view, TopBy refRuntime [userA, userB, userC] (fun u => u.ContributionCount) none 2
        = some view ∧
      ∀ (i : Nat) (h : i + 1 < view.length),
        (view.get ⟨i + 1, h⟩).ContributionCount
          ≤ (view.get ⟨i, Nat.lt_of_succ_lt h⟩).ContributionCount :=
  ⟨by decide, by decide,
    TopBy_sorted_desc refRuntime [userA, userB, userC] (fun u => u.ContributionCount) none 2
      (by decide)⟩

theorem TopOrgs_sorted_desc_witness :
    TopOrgs refRuntime [userA, userTwoCasings] 10 = some [⟨"acme", 2⟩, ⟨"foo", 1⟩] ∧
    ∃ orgs, TopOrgs refRuntime [userA, userTwoCasings] 10 = some orgs ∧
      ∀ (i : Nat) (h : i + 1 < orgs.length),
        (orgs.get ⟨i + 1, h⟩).MemberCount ≤ (orgs.get ⟨i, Nat.lt_of_succ_lt h⟩).MemberCount :=
  ⟨by decide, TopOrgs_sorted_desc refRuntime [userA, userTwoCasings] 10 (by decide)⟩

theorem TopOrgs_length_witness :
    (normalizedIds refRuntime [userTwoCasings, userA, userB]).dedup = ["acme", "foo"] ∧
    (∃ orgs, TopOrgs refRuntime [userTwoCasings, userA, userB] 1 = some orgs ∧
      (orgs.length : Int) =
        min 1 ((normalizedIds refRuntime [userTwoCasings, userA, userB]).dedup.length : Int)) ∧
    TopOrgs refRuntime [] 1 = some [] :=
  ⟨by decide, TopOrgs_length refRuntime [userTwoCasings, userA, userB] 1 (by decide)⟩

theorem TopOrgs_single_inferred_witness :
    "Acme".toLower = "acme" ∧
    TopOrgs refRuntime [userOnlyCompany] 1 = some [⟨"Acme".toLower, 1⟩] ∧
    userOrgsOf userOnlyCompany = some ["Acme"] :=
  ⟨by rw [String.toLower, String.map_eq]; decide,
    TopOrgs_single_inferred refRuntime userOnlyCompany "Acme" 1 (by decide) (by decide) rfl rfl
      (by decide)⟩

theorem userOrgsOf_handle_witness :
    userOrgsOf userInferredSame = some ["Acme"] ∧
    ((userOrgsOf userInferredSame = some (userInferredSame.Organizations ++ ["Acme"]) ↔
        "Acme" ∉ userInferredSame.Organizations) ∧
    ("Acme" ∈ userInferredSame.Organizations →
        userOrgsOf userInferredSame = some userInferredSame.Organizations) ∧
    ∀ (rest : List User) (orgsMap : List (String × Int)),
      usersLoop refRuntime (userInferredSame :: rest) orgsMap =
        usersLoop refRuntime rest
          (tallyLoop refRuntime
            (if "Acme" ∈ userInferredSame.Organizations then userInferredSame.Organizations
             else userInferredSame.Organizations ++ ["Acme"]) orgsMap)) :=
  ⟨by decide,
    userOrgsOf_handle refRuntime userInferredSame "Acme"
      ⟨by decide, by decide, by decide⟩⟩


theorem TopByM_preserves_caller_witness :
    ValidSlice sampleHeap sampleSlice ∧
    (TopByM refRuntime sampleHeap sampleSlice (fun u => u.ContributionCount) none 2).1
      = [[userA, userB, userC], [userB, userA, userC]] ∧
    ((∃ fresh, (TopByM refRuntime sampleHeap sampleSlice (fun u => u.ContributionCount)
        none 2).1 = sampleHeap ++ fresh) ∧
    readSlice (TopByM refRuntime sampleHeap sampleSlice (fun u => u.ContributionCount)
        none 2).1 sampleSlice = readSlice sampleHeap sampleSlice ∧
    (TopByM refRuntime sampleHeap sampleSlice (fun u => u.ContributionCount) none 2).2.map
        (readSlice (TopByM refRuntime sampleHeap sampleSlice (fun u => u.ContributionCount)
          none 2).1) =
      TopBy refRuntime (readSlice sampleHeap sampleSlice) (fun u => u.ContributionCount)
        none 2) :=
  ⟨⟨by decide, by decide, by decide⟩, by decide,
    TopByM_preserves_caller refRuntime sampleHeap sampleSlice (fun u => u.ContributionCount)
      none 2 ⟨by decide, by decide, by decide⟩⟩

theorem TopOrgs_single_declared_witness :
    TopOrgs refRuntime [userDeclAcme, userDeclacme] 10 = some [⟨"acme", 2⟩] ∧
    ∃ orgs, TopOrgs refRuntime [userDeclAcme, userDeclacme] 10 = some orgs ∧
      (orgs.map (fun e => e.Name)).Nodup ∧
      (∀ e ∈ orgs, e.MemberCount =
        (([userDeclAcme, userDeclacme].filter (fun u =>
          u.Organizations.any
            (fun o => decide (stringsToLower refRuntime o = e.Name)))).length : Int)) ∧
      (((normalizedIds refRuntime [userDeclAcme, userDeclacme]).dedup.length : Int) ≤ 10 →
        ∀ u ∈ [userDeclAcme, userDeclacme], ∀ o ∈ u.Organizations,
          ∃ e ∈ orgs, e.Name = stringsToLower refRuntime o) :=
  ⟨by decide,
    TopOrgs_single_declared refRuntime [userDeclAcme, userDeclacme] 10 (by decide) (by
      intro u hu
      rcases List.mem_cons.mp hu with rfl | hu
      · exact ⟨rfl, _, rfl⟩
      · rcases List.mem_cons.mp hu with rfl | hu
        · exact ⟨rfl, _, rfl⟩
        · simp at hu)⟩

theorem TopOrgs_space_padded_company_witness :
    userSpacedCompany.Company = "  @Acme " ∧
    TopOrgs refRuntime [userSpacedCompany] 1 = some [⟨"acme", 1⟩] ∧
    (userOrgsOf userSpacedCompany =
        some (if "Acme" ∈ userSpacedCompany.Organizations then userSpacedCompany.Organizations
              else userSpacedCompany.Organizations ++ ["Acme"]) ∧
      (userSpacedCompany.Organizations = [] → (1 : Int) ≤ 1 →
        TopOrgs refRuntime [userSpacedCompany] 1 = some [⟨"Acme".toLower, 1⟩])) :=
  ⟨rfl, by decide,
    TopOrgs_space_padded_company refRuntime userSpacedCompany "Acme" 2 1 1 (by decide)
      (by decide) (by decide)⟩

theorem TopOrgs_total_and_lenient_witness :
    (∀ c ∈ ["", "Acme", "@", "@foo-bar", "@a b", "x@foo"],
      companyLoginFindStringSubmatch (stringsTrim c " ") = []) ∧
    ((∃ orgs, TopOrgs refRuntime usersNoHandle 10 = some orgs) ∧
    (∀ u : User, (¬ ∃ h, IsHandle (stringsTrim u.Company " ") h) →
      userOrgsOf u = some u.Organizations) ∧
    ((∀ u ∈ usersNoHandle,
        (¬ ∃ h, IsHandle (stringsTrim u.Company " ") h) ∧ u.Organizations = []) →
      TopOrgs refRuntime usersNoHandle 10 = some [])) ∧
    TopOrgs refRuntime usersNoHandle 10 = some [] :=
  ⟨by decide, TopOrgs_total_and_lenient refRuntime usersNoHandle 10 (by decide),
    (TopOrgs_total_and_lenient refRuntime usersNoHandle 10 (by decide)).2.2 (fun u hu =>
      ⟨not_isHandle_of_find_nil _
          ((by decide : ∀ v ∈ usersNoHandle,
            companyLoginFindStringSubmatch (stringsTrim v.Company " ") = []) u hu),
        (by decide : ∀ v ∈ usersNoHandle, v.Organizations = []) u hu⟩)⟩

theorem TopOrgsM_memberCount_of_single_witness :
    [userTwoCasingsM, userBM, userAM].map (UserM.view sampleStrHeap)
      = [userTwoCasings, userB, userA] ∧
    (TopOrgsM refRuntime sampleStrHeap [userTwoCasingsM, userBM, userAM] 10).map Prod.snd
      = some [⟨"acme", 2⟩, ⟨"foo", 2⟩] ∧
    ([userTwoCasingsM, userBM, userAM].filter
      (fun u => affiliatedWith refRuntime (u.view sampleStrHeap) "foo")).length = 2 ∧
    ReadsAsGiven refRuntime sampleStrHeap [userTwoCasingsM, userBM, userAM] ∧
    (∀ u ∈ [userTwoCasingsM, userBM, userAM],
      ((talliedOrgs (u.view sampleStrHeap)).map (stringsToLower refRuntime)).count "foo" ≤ 1) ∧
    ∃ h2 orgs,
      TopOrgsM refRuntime sampleStrHeap [userTwoCasingsM, userBM, userAM] 10
        = some (h2, orgs) ∧
      (∀ o ∈ orgs, o.Name = "foo" → o.MemberCount =
        (([userTwoCasingsM, userBM, userAM].filter
          (fun u => affiliatedWith refRuntime (u.view sampleStrHeap) "foo")).length : Int)) ∧
      (((normalizedIds refRuntime
          ([userTwoCasingsM, userBM, userAM].map (UserM.view sampleStrHeap))).dedup.length : Int)
          ≤ 10 →
        (∃ u ∈ [userTwoCasingsM, userBM, userAM],
          affiliatedWith refRuntime (u.view sampleStrHeap) "foo" = true) →
        ∃ o ∈ orgs, o.Name = "foo") :=
  ⟨by decide, by decide, by decide, by unfold ReadsAsGiven; decide, by decide,
    TopOrgsM_memberCount_of_single refRuntime sampleStrHeap [userTwoCasingsM, userBM, userAM]
      10 "foo" (by decide) (by unfold ReadsAsGiven; decide) (by decide)⟩

theorem YamlOutput_org_sections_witness :
    (YamlOutput refRuntime scopedResults okSink ⟨1, "T", "abc"⟩).map (fun r => r.1.calls) =
      some ["users:\n",
        "\n  - rank: 1\n    name: \"\"\n    login: \"P\"\n    avatarUrl: \n    contributions: 9\n    company: \"\"\n    organizations: \"X\"\n",
        "users_public_contributions:\n",
        "\n  - rank: 1\n    name: \"\"\n    login: \"Q\"\n    avatarUrl: \n    contributions: 9\n    company: \"\"\n    organizations: \"Y\"\n",
        "\nprivate_users:\n",
        "\n  - rank: 1\n    name: \"\"\n    login: \"R\"\n    avatarUrl: \n    contributions: 9\n    company: \"\"\n    organizations: \"Z\"\n",
        "\norganizations:\n", "\n  - rank: 1\n    name: \"x\"\n    membercount: 1\n",
        "\npublic_contributions_organizations:\n",
        "\n  - rank: 1\n    name: \"y\"\n    membercount: 1\n",
        "\nprivate_organizations:\n", "\n  - rank: 1\n    name: \"z\"\n    membercount: 1\n",
        "generated: 2006-01-02T15:04:05Z\n", "min_followers_required: 7\n",
        "total_user_count: 3\n", "title: T\n", "definition_checksum: abc\n"] ∧
    TopOrgs refRuntime scopedResults.Users 10 = some [⟨"x", 1⟩, ⟨"y", 1⟩, ⟨"z", 1⟩] ∧
    (YamlOutput refRuntime sampleResults okSink ⟨2, "", ""⟩).map
        (fun r => (r.1.calls.drop 9).take 6) =
      some ["\norganizations:\n", "\n  - rank: 1\n    name: \"foo\"\n    membercount: 2\n",
        "\npublic_contributions_organizations:\n",
        "\n  - rank: 1\n    name: \"foo\"\n    membercount: 2\n",
        "\nprivate_organizations:\n",
        "\n  - rank: 1\n    name: \"foo\"\n    membercount: 2\n"] ∧
    (YamlOutput altRuntime equalViewsResults okSink ⟨0, "", ""⟩).map
        (fun r => (r.1.calls.drop 9).take 9) =
      some ["\norganizations:\n", "\n  - rank: 1\n    name: \"m\"\n    membercount: 1\n",
        "\n  - rank: 2\n    name: \"n\"\n    membercount: 1\n",
        "\npublic_contributions_organizations:\n",
        "\n  - rank: 1\n    name: \"n\"\n    membercount: 1\n",
        "\n  - rank: 2\n    name: \"m\"\n    membercount: 1\n",
        "\nprivate_organizations:\n", "\n  - rank: 1\n    name: \"m\"\n    membercount: 1\n",
        "\n  - rank: 2\n    name: \"n\"\n    membercount: 1\n"] ∧
    ∃ c p t oc op ot,
      TopBy refRuntime scopedResults.Users (fun u => u.CommitsCount) none 1 = some c ∧
      TopBy refRuntime scopedResults.Users (fun u => u.PublicContributionCount) none 1
        = some p ∧
      TopBy refRuntime scopedResults.Users (fun u => u.ContributionCount) none 1 = some t ∧
      TopOrgs refRuntime c 10 = some oc ∧
      TopOrgs (refRuntime.afterRanges 1) p 10 = some op ∧
      TopOrgs (refRuntime.afterRanges 2) t 10 = some ot ∧
      ∃ out before,
        YamlOutput refRuntime scopedResults okSink ⟨1, "T", "abc"⟩ = some (out, none) ∧
        before.length = 3 + c.length + p.length + t.length ∧
        out.calls = okSink.calls ++ before ++
          (["\norganizations:\n"] ++
            oc.enum.map (fun e =>
              "\n  - rank: " ++ toString ((e.1 : Int) + 1) ++
              "\n    name: " ++ refRuntime.quoteToASCII e.2.Name ++
              "\n    membercount: " ++ toString e.2.MemberCount ++ "\n") ++
            ["\npublic_contributions_organizations:\n"] ++
            op.enum.map (fun e =>
              "\n  - rank: " ++ toString ((e.1 : Int) + 1) ++
              "\n    name: " ++ refRuntime.quoteToASCII e.2.Name ++
              "\n    membercount: " ++ toString e.2.MemberCount ++ "\n") ++
            ["\nprivate_organizations:\n"] ++
            ot.enum.map (fun e =>
              "\n  - rank: " ++ toString ((e.1 : Int) + 1) ++
              "\n    name: " ++ refRuntime.quoteToASCII e.2.Name ++
              "\n    membercount: " ++ toString e.2.MemberCount ++ "\n")) ++
          yamlProvenance refRuntime scopedResults ++ presetLines "T" "abc" :=
  ⟨by decide, by decide, by decide, by decide,
    YamlOutput_org_sections refRuntime scopedResults okSink ⟨1, "T", "abc"⟩ (by decide)⟩

theorem YamlOutput_user_sections_witness :
    (YamlOutput refRuntime scopedResults okSink ⟨2, "", ""⟩).map
        (fun r => r.1.calls.take 9) =
      some ["users:\n",
        "\n  - rank: 1\n    name: \"\"\n    login: \"P\"\n    avatarUrl: \n    contributions: 9\n    company: \"\"\n    organizations: \"X\"\n",
        "\n  - rank: 2\n    name: \"\"\n    login: \"R\"\n    avatarUrl: \n    contributions: 5\n    company: \"\"\n    organizations: \"Z\"\n",
        "users_public_contributions:\n",
        "\n  - rank: 1\n    name: \"\"\n    login: \"Q\"\n    avatarUrl: \n    contributions: 9\n    company: \"\"\n    organizations: \"Y\"\n",
        "\n  - rank: 2\n    name: \"\"\n    login: \"R\"\n    avatarUrl: \n    contributions: 5\n    company: \"\"\n    organizations: \"Z\"\n",
        "\nprivate_users:\n",
        "\n  - rank: 1\n    name: \"\"\n    login: \"R\"\n    avatarUrl: \n    contributions: 9\n    company: \"\"\n    organizations: \"Z\"\n",
        "\n  - rank: 2\n    name: \"\"\n    login: \"P\"\n    avatarUrl: \n    contributions: 5\n    company: \"\"\n    organizations: \"X\"\n"] ∧
    TopBy refRuntime scopedResults.Users (fun u => u.CommitsCount) none 2
      = some [userP, userR] ∧
    TopBy refRuntime scopedResults.Users (fun u => u.PublicContributionCount) none 2
      = some [userQ, userR] ∧
    TopBy refRuntime scopedResults.Users (fun u => u.ContributionCount) none 2
      = some [userR, userP] ∧
    ∃ vc vp vt,
      TopBy refRuntime scopedResults.Users (fun u => u.CommitsCount) none 2 = some vc ∧
      TopBy refRuntime scopedResults.Users (fun u => u.PublicContributionCount) none 2
        = some vp ∧
      TopBy refRuntime scopedResults.Users (fun u => u.ContributionCount) none 2 = some vt ∧
      ∃ out rest, YamlOutput refRuntime scopedResults okSink ⟨2, "", ""⟩ = some (out, none) ∧
        out.calls = okSink.calls ++
          (["users:\n"] ++
            vc.enum.map (fun e =>
              "\n  - rank: " ++ toString ((e.1 : Int) + 1) ++
              "\n    name: " ++ refRuntime.quoteToASCII e.2.Name ++
              "\n    login: " ++ refRuntime.quoteToASCII e.2.Login ++
              "\n    avatarUrl: " ++ e.2.AvatarURL ++
              "\n    contributions: " ++ toString e.2.CommitsCount ++
              "\n    company: " ++ refRuntime.quoteToASCII e.2.Company ++
              "\n    organizations: " ++
                refRuntime.quoteToASCII (",".intercalate e.2.Organizations) ++ "\n") ++
            ["users_public_contributions:\n"] ++
            vp.enum.map (fun e =>
              "\n  - rank: " ++ toString ((e.1 : Int) + 1) ++
              "\n    name: " ++ refRuntime.quoteToASCII e.2.Name ++
              "\n    login: " ++ refRuntime.quoteToASCII e.2.Login ++
              "\n    avatarUrl: " ++ e.2.AvatarURL ++
              "\n    contributions: " ++ toString e.2.PublicContributionCount ++
              "\n    company: " ++ refRuntime.quoteToASCII e.2.Company ++
              "\n    organizations: " ++
                refRuntime.quoteToASCII (",".intercalate e.2.Organizations) ++ "\n") ++
            ["\nprivate_users:\n"] ++
            vt.enum.map (fun e =>
              "\n  - rank: " ++ toString ((e.1 : Int) + 1) ++
              "\n    name: " ++ refRuntime.quoteToASCII e.2.Name ++
              "\n    login: " ++ refRuntime.quoteToASCII e.2.Login ++
              "\n    avatarUrl: " ++ e.2.AvatarURL ++
              "\n    contributions: " ++ toString e.2.ContributionCount ++
              "\n    company: " ++ refRuntime.quoteToASCII e.2.Company ++
              "\n    organizations: " ++
                refRuntime.quoteToASCII (",".intercalate e.2.Organizations) ++ "\n")) ++ rest :=
  ⟨by decide, by decide, by decide, by decide,
    YamlOutput_user_sections refRuntime scopedResults okSink ⟨2, "", ""⟩ (by decide)⟩

theorem YamlOutput_preset_lines_witness :
    (YamlOutput refRuntime scopedResults okSink ⟨1, "T", "abc"⟩).map
        (fun r => r.1.calls.drop 15) = some ["title: T\n", "definition_checksum: abc\n"] ∧
    (YamlOutput refRuntime scopedResults okSink ⟨1, "T", ""⟩).map
        (fun r => r.1.calls.drop 15) = some [] ∧
    (YamlOutput refRuntime scopedResults okSink ⟨1, "", "abc"⟩).map
        (fun r => r.1.calls.drop 15) = some [] ∧
    ∃ body : List String, ∀ title checksum : String,
      YamlOutput refRuntime scopedResults okSink ⟨1, title, checksum⟩ =
        some (⟨okSink.calls ++ body ++
          (if title ≠ "" ∧ checksum ≠ "" then
            ["title: " ++ title ++ "\n", "definition_checksum: " ++ checksum ++ "\n"]
           else []), okSink.answer⟩, none) :=
  ⟨by decide, by decide, by decide,
    YamlOutput_preset_lines refRuntime scopedResults okSink 1 (by decide)⟩

theorem TopBy_filter_contract_witness :
    TopBy refRuntime [userA, userB, userC] (fun u => u.ContributionCount)
        (some (fun u => decide (u.ContributionCount < 60))) 0 = some [userA, userC] ∧
    ((∃ view, TopBy refRuntime [userA, userB, userC] (fun u => u.ContributionCount)
          (some (fun u => decide (u.ContributionCount < 60))) 0 = some view ∧
      (∀ g, some (fun u : User => decide (u.ContributionCount < 60)) = some g →
        ∀ u ∈ view, u ∈ [userA, userB, userC] ∧ g u = true) ∧
      (some (fun u : User => decide (u.ContributionCount < 60)) = none →
        ∀ u ∈ view, u ∈ [userA, userB, userC]) ∧
      (view.length : Int) = min (effectiveLimit 0)
        ((retained [userA, userB, userC]
          (some (fun u => decide (u.ContributionCount < 60)))).length : Int)) ∧
    TopBy refRuntime [userA, userB, userC] (fun u => u.ContributionCount) none 0 =
      TopBy refRuntime [userA, userB, userC] (fun u => u.ContributionCount)
        (some (fun _ => true)) 0) :=
  ⟨by decide,
    TopBy_filter_contract refRuntime [userA, userB, userC] (fun u => u.ContributionCount)
      (some (fun u => decide (u.ContributionCount < 60))) 0 (by decide)⟩

theorem TopOrgs_iteration_order_witness :
    TopOrgs refRuntime [userTwoCasings, userA] 10 = some [⟨"acme", 2⟩, ⟨"foo", 1⟩] ∧
    TopOrgs revRuntime [userTwoCasings, userA] 10 = some [⟨"acme", 2⟩, ⟨"foo", 1⟩] ∧
    TopOrgs refRuntime [userP, userQ] 10 = some [⟨"x", 1⟩, ⟨"y", 1⟩] ∧
    TopOrgs revRuntime [userP, userQ] 10 = some [⟨"y", 1⟩, ⟨"x", 1⟩] ∧
    ∃ o1 o2, TopOrgs refRuntime [userTwoCasings, userA] 10 = some o1 ∧
      TopOrgs revRuntime [userTwoCasings, userA] 10 = some o2 ∧
      o1.map (fun e => e.MemberCount) = o2.map (fun e => e.MemberCount) ∧
      (∀ e, e ∈ o1 ∨ e ∈ o2 →
        (e.Name, e.MemberCount) ∈ orgsMapOf refRuntime [userTwoCasings, userA]) ∧
      (((orgsMapOf refRuntime [userTwoCasings, userA]).map Prod.snd).Nodup → o1 = o2) :=
  ⟨by decide, by decide, by decide, by decide,
    TopOrgs_iteration_order refRuntime revRuntime [userTwoCasings, userA] 10 (by decide) rfl⟩

theorem TopBy_is_top_witness :
    TopBy refRuntime [userA, userB, userC] (fun u => u.ContributionCount) none 2
      = some [userB, userA] ∧
    ∃ view omitted,
      TopBy refRuntime [userA, userB, userC] (fun u => u.ContributionCount) none 2
        = some view ∧
      (view ++ omitted).Perm (retained [userA, userB, userC] none) ∧
      ∀ a ∈ view, ∀ b ∈ omitted, b.ContributionCount ≤ a.ContributionCount :=
  ⟨by decide,
    TopBy_is_top refRuntime [userA, userB, userC] (fun u => u.ContributionCount) none 2
      (by decide)⟩

theorem TopOrgs_memberCount_counts_all_witness :
    TopOrgs refRuntime [userTwoCasings, userInferredCasing] 10 = some [⟨"acme", 4⟩] ∧
    talliedOrgs userInferredCasing = ["Acme", "acme"] ∧
    ((∀ u : User, talliedOrgs u =
      match inferredLogin u with
      | some h => if h ∈ u.Organizations then u.Organizations else u.Organizations ++ [h]
      | none => u.Organizations) ∧
    ∃ orgs, TopOrgs refRuntime [userTwoCasings, userInferredCasing] 10 = some orgs ∧
      (∀ o ∈ orgs, o.MemberCount =
        ([userTwoCasings, userInferredCasing].map (fun u => (((talliedOrgs u).filter
          (fun e => decide (stringsToLower refRuntime e = o.Name))).length : Int))).sum) ∧
      (((normalizedIds refRuntime [userTwoCasings, userInferredCasing]).dedup.length : Int)
          ≤ 10 →
        (orgs.map (fun o => o.MemberCount)).sum =
          ([userTwoCasings, userInferredCasing].map
            (fun u => ((talliedOrgs u).length : Int))).sum)) :=
  ⟨by decide, by decide,
    TopOrgs_memberCount_counts_all refRuntime [userTwoCasings, userInferredCasing] 10
      (by decide)⟩

theorem TopOrgs_entries_invariants_witness :
    TopOrgs refRuntime [userTwoCasings, userA, userB] 10 = some [⟨"acme", 2⟩, ⟨"foo", 2⟩] ∧
    ∃ orgs, TopOrgs refRuntime [userTwoCasings, userA, userB] 10 = some orgs ∧
      (orgs.map (fun o => o.Name)).Nodup ∧
      ∀ o ∈ orgs, stringsToLower refRuntime o.Name = o.Name ∧ 1 ≤ o.MemberCount :=
  ⟨by decide,
    TopOrgs_entries_invariants refRuntime [userTwoCasings, userA, userB] 10 (by decide)⟩

theorem TopBy_limit_monotone_witness :
    TopBy refRuntime [userA, userB, userC] (fun u => u.ContributionCount) none 1
      = some [userB] ∧
    TopBy refRuntime [userA, userB, userC] (fun u => u.ContributionCount) none 2
      = some [userB, userA] ∧
    ∃ v1 v2,
      TopBy refRuntime [userA, userB, userC] (fun u => u.ContributionCount) none 1 = some v1 ∧
      TopBy refRuntime [userA, userB, userC] (fun u => u.ContributionCount) none 2 = some v2 ∧
      v1 <+: v2 ∧ v1 = v2.take v1.length :=
  ⟨by decide, by decide,
    TopBy_limit_monotone refRuntime [userA, userB, userC] (fun u => u.ContributionCount) none
      1 2 (by decide) (by decide)⟩

theorem TopOrgs_perm_invariant_witness :
    TopOrgs refRuntime [userB, userA, userTwoCasings, userP] 10
      = some [⟨"foo", 2⟩, ⟨"acme", 2⟩, ⟨"x", 1⟩] ∧
    TopOrgs refRuntime [userP, userTwoCasings, userA, userB] 10
      = some [⟨"acme", 2⟩, ⟨"foo", 2⟩, ⟨"x", 1⟩] ∧
    ∃ o1 o2, TopOrgs refRuntime [userP, userTwoCasings, userA, userB] 10 = some o1 ∧
      TopOrgs refRuntime [userB, userA, userTwoCasings, userP] 10 = some o2 ∧
      (∀ e, e ∈ o1 ↔ e ∈ o2) ∧ o1.Perm o2 :=
  ⟨by decide, by decide,
    TopOrgs_perm_invariant refRuntime [userB, userA, userTwoCasings, userP]
      [userP, userTwoCasings, userA, userB] 10
      (List.reverse_perm [userB, userA, userTwoCasings, userP]) (by decide)⟩


end Output
